import Mathlib

/-!
Verification of the All-Rights-Respected (ARR) attestation codec.

This file gives a shallow embedding, in Lean 4, of the core of the
`arr-core` TypeScript package: the JSON data model, the canonicalizer
(`canonicalize.ts`), the structural validator (`validation.ts`), the
verification engine (`verify.ts` / `keys.ts`), the persisted-form
serializer (`signed.ts`), and the PNG / JPEG binary adapters
(`png.ts` / `jpeg.ts`).  Buffers are modelled as `List Nat` (one entry
per byte), strings as `List Char`, and JavaScript runtime values
reachable from attestations as a `Json` inductive.  Fallible
TypeScript code (functions that `throw`) is modelled with `Except`;
the Ed25519 primitives and `Date` parsing are modelled as an explicit
environment of oracles, so every theorem about the verification engine
quantifies over their behaviour.

Modelling conventions:
* JavaScript `undefined` object members are identified with absent
  members (for the code under study the two are observationally equal:
  `typeof undefined` checks and `JSON.stringify` dropping of
  `undefined` members agree with this identification).
* JSON numbers are modelled as integers; the attestation schema uses
  only strings, booleans, arrays and records, so fractional literals
  are incidental here.
* Object member lists model JavaScript insertion order.
-/

/-! ### Bytes and integers (Node `Buffer` primitives) -/

/-- `buffer.readUInt32BE(o)`: big-endian 32-bit read at offset `o`
(bounds are checked by the callers below before reading, as in the source). -/
def readBE32 (b : List Nat) (o : Nat) : Nat :=
  b.getD o 0 * 16777216 + b.getD (o + 1) 0 * 65536 + b.getD (o + 2) 0 * 256 + b.getD (o + 3) 0

/-- `buffer.readUInt16BE(o)`: big-endian 16-bit read at offset `o`. -/
def readBE16 (b : List Nat) (o : Nat) : Nat :=
  b.getD o 0 * 256 + b.getD (o + 1) 0

/-- `buffer.writeUInt32BE(n)`: the four big-endian bytes of `n` (callers
check `n ≤ 0xffffffff`, mirroring Node throwing `ERR_OUT_OF_RANGE`). -/
def be32 (n : Nat) : List Nat :=
  [n / 16777216 % 256, n / 65536 % 256, n / 256 % 256, n % 256]

/-- `buffer.writeUInt16BE(n)`: the two big-endian bytes of `n`. -/
def be16 (n : Nat) : List Nat :=
  [n / 256 % 256, n % 256]

/-! ### Text encodings -/

/-- UTF-8 encoding of one Unicode scalar value (`Buffer.from(s, "utf8")`,
one character at a time). -/
def utf8Char (c : Char) : List Nat :=
  let n := c.toNat
  if n < 128 then [n]
  else if n < 2048 then [192 + n / 64, 128 + n % 64]
  else if n < 65536 then [224 + n / 4096, 128 + n / 64 % 64, 128 + n % 64]
  else [240 + n / 262144, 128 + n / 4096 % 64, 128 + n / 64 % 64, 128 + n % 64]

/-- `Buffer.from(s, "utf8")`. -/
def utf8Encode (s : List Char) : List Nat :=
  s.flatMap utf8Char

/-- One step of UTF-8 decoding: the scalar encoded at the head of the
byte list together with the rest.  Invalid heads decode to U+FFFD and
consume a single byte, which is Node's replacement behaviour. -/
def utf8DecodeStep (b : Nat) (rest : List Nat) : Char × List Nat :=
  if b < 128 then (Char.ofNat b, rest)
  else if 192 ≤ b ∧ b < 224 then
    match rest with
    | b1 :: r => (Char.ofNat ((b - 192) * 64 + (b1 - 128)), r)
    | [] => (Char.ofNat 65533, [])
  else if 224 ≤ b ∧ b < 240 then
    match rest with
    | b1 :: b2 :: r => (Char.ofNat ((b - 224) * 4096 + (b1 - 128) * 64 + (b2 - 128)), r)
    | _ => (Char.ofNat 65533, [])
  else if 240 ≤ b ∧ b < 248 then
    match rest with
    | b1 :: b2 :: b3 :: r =>
        (Char.ofNat ((b - 240) * 262144 + (b1 - 128) * 4096 + (b2 - 128) * 64 + (b3 - 128)), r)
    | _ => (Char.ofNat 65533, [])
  else (Char.ofNat 65533, rest)

/-- `buffer.toString("utf8")`, with fuel for structural recursion
(the step consumes at least one byte, so `bytes.length` is enough fuel). -/
def utf8DecodeAux : Nat → List Nat → List Char
  | 0, _ => []
  | _, [] => []
  | fuel + 1, b :: rest =>
      let (c, r) := utf8DecodeStep b rest
      c :: utf8DecodeAux fuel r

/-- `buffer.toString("utf8")`. -/
def utf8Decode (bytes : List Nat) : List Char :=
  utf8DecodeAux bytes.length bytes

/-- `buffer.toString("latin1")`: one character per byte. -/
def latin1Decode (bytes : List Nat) : List Char :=
  bytes.map fun b => Char.ofNat (b % 256)

/-- `Buffer.from(s, "latin1")` (and `"ascii"`, which Node treats
identically when encoding): the low byte of each char code. -/
def latin1Encode (s : List Char) : List Nat :=
  s.map fun c => c.toNat % 256

/-- `buffer.toString("ascii")`: like latin1 but the high bit of each
byte is cleared. -/
def asciiDecode (bytes : List Nat) : List Char :=
  bytes.map fun b => Char.ofNat (b % 128)

/-! ### The JSON value model -/

/-- JavaScript values reachable from an attestation document, i.e. the
JSON universe.  Strings are `List Char`; numbers are modelled as
integers; object member lists are in JavaScript insertion order. -/
inductive Json where
  | null
  | bool (b : Bool)
  | num (n : Int)
  | str (s : List Char)
  | arr (elems : List Json)
  | obj (members : List (List Char × Json))
deriving Inhabited

/-- Shorthand for building JSON object keys / string contents. -/
def jk (s : String) : List Char := s.toList

/-- JavaScript property read `v[k]` restricted to object receivers:
`none` models `undefined`. -/
def Json.jget (v : Json) (k : List Char) : Option Json :=
  match v with
  | .obj ms => ms.lookup k
  | _ => none

/-- `typeof v === "string"`. -/
def Json.isStr : Json → Bool
  | .str _ => true
  | _ => false

/-- The string content of a JSON string (`[]` otherwise; callers check
`isStr` first). -/
def Json.asStr : Json → List Char
  | .str s => s
  | _ => []

/-! ### `validation.ts` -/

/-- `isRecord`: a non-null, non-array object. -/
def isRecord : Json → Bool
  | .obj _ => true
  | _ => false

/-- `isStringArray`: an array whose every entry is a string. -/
def isStringArray : Json → Bool
  | .arr xs => xs.all Json.isStr
  | _ => false

/-- Whether an optional member, if present, is a string
(`value.f !== undefined && typeof value.f !== "string"` rejects). -/
def optionalStr (v : Json) (k : List Char) : Bool :=
  match v.jget k with
  | none => true
  | some f => f.isStr

/-- `isAttestation` from `validation.ts`: required string fields
`version`/`id`/`created`/`creator`, then the optional-field checks the
source actually performs (`intent`, `tool`, `upstream`, `expires`,
`revocable`, `license`, `extensions`; the source has no check for
`content_hash` or `renews`). -/
def isAttestation (value : Json) : Bool :=
  if ¬ isRecord value then false
  else if ¬ ((value.jget (jk "version")).getD .null).isStr
        ∨ ¬ ((value.jget (jk "id")).getD .null).isStr
        ∨ ¬ ((value.jget (jk "created")).getD .null).isStr
        ∨ ¬ ((value.jget (jk "creator")).getD .null).isStr then false
  else if ¬ optionalStr value (jk "intent") then false
  else if ¬ optionalStr value (jk "tool") then false
  else if (match value.jget (jk "upstream") with
           | none => false
           | some u => ¬ isStringArray u) then false
  else if ¬ optionalStr value (jk "expires") then false
  else if (match value.jget (jk "revocable") with
           | none => false
           | some r => match r with | .bool _ => false | _ => true) then false
  else if ¬ optionalStr value (jk "license") then false
  else if (match value.jget (jk "extensions") with
           | none => false
           | some e => ¬ isRecord e) then false
  else true

/-- `isSignedAttestation`: a record with a string `signature` and an
`attestation` passing `isAttestation`. -/
def isSignedAttestation (value : Json) : Bool :=
  isRecord value
    && ((value.jget (jk "signature")).getD .null).isStr
    && isAttestation ((value.jget (jk "attestation")).getD .null)

/-! ### JSON serialization (`JSON.stringify`) -/

/-- Decimal digit character. -/
def digitChar (k : Nat) : Char := Char.ofNat (48 + k)

/-- Decimal digits of a natural number, most significant first
(fuel-based; `n + 1` fuel always suffices). -/
def natCharsAux : Nat → Nat → List Char → List Char
  | 0, _, acc => acc
  | fuel + 1, n, acc =>
      if n < 10 then digitChar n :: acc
      else natCharsAux fuel (n / 10) (digitChar (n % 10) :: acc)

/-- Decimal digits of a natural number. -/
def natChars (n : Nat) : List Char := natCharsAux (n + 1) n []

/-- JavaScript `String(i)` for an integer. -/
def intChars (i : Int) : List Char :=
  if i < 0 then '-' :: natChars i.natAbs else natChars i.toNat

/-- Lowercase hex digit. -/
def hexChar (k : Nat) : Char :=
  if k < 10 then Char.ofNat (48 + k) else Char.ofNat (87 + k)

/-- The JSON escape of one character, as produced by `JSON.stringify`:
quote, backslash and control characters are escaped, everything else is
emitted verbatim. -/
def jsonEscapeChar (c : Char) : List Char :=
  if c = '"' then ['\\', '"']
  else if c = '\\' then ['\\', '\\']
  else if c = Char.ofNat 8 then ['\\', 'b']
  else if c = Char.ofNat 9 then ['\\', 't']
  else if c = Char.ofNat 10 then ['\\', 'n']
  else if c = Char.ofNat 12 then ['\\', 'f']
  else if c = Char.ofNat 13 then ['\\', 'r']
  else if c.toNat < 32 then ['\\', 'u', '0', '0', hexChar (c.toNat / 16), hexChar (c.toNat % 16)]
  else [c]

/-- A JSON string literal: quote, escaped contents, quote. -/
def jsonQuote (s : List Char) : List Char :=
  '"' :: s.flatMap jsonEscapeChar ++ ['"']

mutual
/-- Compact `JSON.stringify(v)` (no whitespace): this is the canonical
signing form of `canonicalize.ts`. -/
def renderC : Json → List Char
  | .null => jk "null"
  | .bool true => jk "true"
  | .bool false => jk "false"
  | .num i => intChars i
  | .str s => jsonQuote s
  | .arr [] => ['[', ']']
  | .arr (x :: xs) => '[' :: (renderC x ++ renderCItems xs) ++ [']']
  | .obj [] => ['{', '}']
  | .obj (m :: ms) =>
      '{' :: (jsonQuote m.1 ++ ':' :: renderC m.2 ++ renderCMembers ms) ++ ['}']

/-- Remaining compact array items, each preceded by a comma. -/
def renderCItems : List Json → List Char
  | [] => []
  | x :: xs => ',' :: renderC x ++ renderCItems xs

/-- Remaining compact object members, each preceded by a comma. -/
def renderCMembers : List (List Char × Json) → List Char
  | [] => []
  | m :: ms => ',' :: jsonQuote m.1 ++ ':' :: renderC m.2 ++ renderCMembers ms
end

/-- Indentation of `JSON.stringify(v, null, 2)` at nesting depth `d`. -/
def ind (d : Nat) : List Char := List.replicate (2 * d) ' '

mutual
/-- Pretty `JSON.stringify(v, null, 2)` at depth `d`: this is the
persisted form used by the sidecar and both embedded payloads. -/
def renderP (d : Nat) : Json → List Char
  | .null => jk "null"
  | .bool true => jk "true"
  | .bool false => jk "false"
  | .num i => intChars i
  | .str s => jsonQuote s
  | .arr [] => ['[', ']']
  | .arr (x :: xs) =>
      '[' :: '\n' :: ind (d + 1) ++ renderP (d + 1) x ++ renderPItems (d + 1) xs
        ++ '\n' :: ind d ++ [']']
  | .obj [] => ['{', '}']
  | .obj (m :: ms) =>
      '{' :: '\n' :: ind (d + 1) ++ jsonQuote m.1 ++ ':' :: ' ' :: renderP (d + 1) m.2
        ++ renderPMembers (d + 1) ms ++ '\n' :: ind d ++ ['}']

/-- Remaining pretty array items (`",\n" + indent` separators). -/
def renderPItems (d : Nat) : List Json → List Char
  | [] => []
  | x :: xs => ',' :: '\n' :: ind d ++ renderP d x ++ renderPItems d xs

/-- Remaining pretty object members. -/
def renderPMembers (d : Nat) : List (List Char × Json) → List Char
  | [] => []
  | m :: ms =>
      ',' :: '\n' :: ind d ++ jsonQuote m.1 ++ ':' :: ' ' :: renderP d m.2
        ++ renderPMembers d ms
end

/-! ### `canonicalize.ts` -/

/-- Lexicographic codepoint comparison of two strings (ordinal
comparison). -/
def cmpCodepoints : List Char → List Char → Ordering
  | [], [] => .eq
  | [], _ :: _ => .lt
  | _ :: _, [] => .gt
  | a :: as, b :: bs =>
      if a.toNat < b.toNat then .lt
      else if b.toNat < a.toNat then .gt
      else cmpCodepoints as bs

/-- Case-folding step of the default-locale collation: ASCII uppercase
letters compare at the primary level like their lowercase forms. -/
def icuLower (c : Char) : Char :=
  if 'A' ≤ c ∧ c ≤ 'Z' then Char.ofNat (c.toNat + 32) else c

/-- Case weight used at the tertiary level: lowercase sorts before
uppercase. -/
def caseWeight (c : Char) : Nat :=
  if 'A' ≤ c ∧ c ≤ 'Z' then 1 else 0

/-- Model of JavaScript `a.localeCompare(b)` under Node's default
locale (ICU root collation), restricted to the ASCII strings the
attestation schema uses: letters compare case-insensitively first
(primary level), and on a tie lowercase precedes uppercase (tertiary
level).  In particular `"a" < "B"` here, whereas codepoint order has
`"B" < "a"`. -/
def localeCompare (a b : List Char) : Ordering :=
  match cmpCodepoints (a.map icuLower) (b.map icuLower) with
  | .eq => cmpCodepoints (a.map fun c => Char.ofNat (caseWeight c)) (b.map fun c => Char.ofNat (caseWeight c))
  | o => o

/-- Stable insertion of one entry into a comparator-sorted list
(ties keep the existing element first, as JavaScript stable sort does). -/
def sortInsert (cmp : α → α → Ordering) (x : α) : List α → List α
  | [] => [x]
  | y :: ys => if cmp x y = .lt then x :: y :: ys else y :: sortInsert cmp x ys

/-- Stable comparator sort (`Array.prototype.sort` with a comparator). -/
def sortByCmp (cmp : α → α → Ordering) : List α → List α
  | [] => []
  | x :: xs => sortInsert cmp x (sortByCmp cmp xs)

mutual
/-- `sortValue` from `canonicalize.ts`: arrays map elementwise; objects
are rebuilt with their entries sorted by `localeCompare` on the keys
and values recursively sorted.  (The source sorts the entries and then
maps over the values; here the values are recursed first and then the
pairs are key-sorted, which is the same function since the key sort
never touches the values.) -/
def sortValue : Json → Json
  | .arr xs => .arr (sortValueList xs)
  | .obj ms => .obj (sortByCmp (fun x y => localeCompare x.1 y.1) (sortValueMembers ms))
  | v => v

/-- `sortValue` mapped over array elements. -/
def sortValueList : List Json → List Json
  | [] => []
  | x :: xs => sortValue x :: sortValueList xs

/-- `sortValue` mapped over member values. -/
def sortValueMembers : List (List Char × Json) → List (List Char × Json)
  | [] => []
  | (k, v) :: ms => (k, sortValue v) :: sortValueMembers ms
end

/-- `canonicalizeAttestation`: `JSON.stringify(sortValue(attestation))`. -/
def canonicalizeAttestation (attestation : Json) : List Char :=
  renderC (sortValue attestation)

mutual
/-- Modelled from the spec: key-sorting by ordinal (codepoint)
comparison, as the specification prescribes for the canonicalizer;
otherwise identical to `sortValue`. -/
def specOrdinalSort : Json → Json
  | .arr xs => .arr (specOrdinalSortList xs)
  | .obj ms => .obj (sortByCmp (fun x y => cmpCodepoints x.1 y.1) (specOrdinalSortMembers ms))
  | v => v

/-- `specOrdinalSort` mapped over array elements. -/
def specOrdinalSortList : List Json → List Json
  | [] => []
  | x :: xs => specOrdinalSort x :: specOrdinalSortList xs

/-- `specOrdinalSort` mapped over member values. -/
def specOrdinalSortMembers : List (List Char × Json) → List (List Char × Json)
  | [] => []
  | (k, v) :: ms => (k, specOrdinalSort v) :: specOrdinalSortMembers ms
end

/-- Modelled from the spec: the canonicalizer the specification
prescribes, whose object keys are sorted by ordinal (codepoint)
comparison rather than locale-sensitive collation.  Used only to
compare the source canonicalizer against the specified one. -/
def specOrdinalCanonicalize (attestation : Json) : List Char :=
  renderC (specOrdinalSort attestation)

/-! ### JSON parsing (`JSON.parse`)

The parser accepts the persisted-form grammar the serializers above
produce (with arbitrary interleaved whitespace); numeric literals are
integer ones, matching the integer number model.  Duplicate object
keys are resolved as JavaScript does: the later value wins, at the
first occurrence's position. -/

/-- JSON whitespace. -/
def isWsChar (c : Char) : Bool := c = ' ' || c = '\n' || c = '\t' || c = '\r'

/-- Skip leading whitespace. -/
def skipWs : List Char → List Char
  | c :: cs => if isWsChar c then skipWs cs else c :: cs
  | [] => []

/-- ASCII decimal digit. -/
def isDigitChar (c : Char) : Bool := '0' ≤ c && c ≤ '9'

/-- Split off a maximal run of digits. -/
def takeDigits : List Char → List Char × List Char
  | c :: cs =>
      if isDigitChar c then
        let (ds, r) := takeDigits cs
        (c :: ds, r)
      else ([], c :: cs)
  | [] => ([], [])

/-- Numeric value of a digit run. -/
def digitsVal (ds : List Char) : Nat :=
  ds.foldl (fun acc c => acc * 10 + (c.toNat - 48)) 0

/-- Value of a hex digit, if any. -/
def hexVal (c : Char) : Option Nat :=
  if '0' ≤ c ∧ c ≤ '9' then some (c.toNat - 48)
  else if 'a' ≤ c ∧ c ≤ 'f' then some (c.toNat - 87)
  else if 'A' ≤ c ∧ c ≤ 'F' then some (c.toNat - 55)
  else none

/-- Single-character JSON escapes. -/
def unescapeChar : Char → Option Char
  | '"' => some '"'
  | '\\' => some '\\'
  | '/' => some '/'
  | 'b' => some (Char.ofNat 8)
  | 'f' => some (Char.ofNat 12)
  | 'n' => some (Char.ofNat 10)
  | 'r' => some (Char.ofNat 13)
  | 't' => some (Char.ofNat 9)
  | _ => none

/-- Parse a string body after the opening quote, returning the content
and the input after the closing quote. -/
def parseStrBody : List Char → Option (List Char × List Char)
  | [] => none
  | c :: rest =>
      if c = '"' then some ([], rest)
      else if c = '\\' then
        match rest with
        | [] => none
        | e :: r2 =>
            if e = 'u' then
              match r2 with
              | h1 :: h2 :: h3 :: h4 :: r3 => do
                  let v1 ← hexVal h1
                  let v2 ← hexVal h2
                  let v3 ← hexVal h3
                  let v4 ← hexVal h4
                  let (s, r) ← parseStrBody r3
                  some (Char.ofNat (((v1 * 16 + v2) * 16 + v3) * 16 + v4) :: s, r)
              | _ => none
            else do
              let ch ← unescapeChar e
              let (s, r) ← parseStrBody r2
              some (ch :: s, r)
      else do
        let (s, r) ← parseStrBody rest
        some (c :: s, r)

/-- Parse an integer numeric literal (optional minus, digit run). -/
def parseNumber (s : List Char) : Option (Json × List Char) :=
  if s.headD ' ' = '-' then
    let (ds, rest) := takeDigits (s.drop 1)
    if ds.isEmpty then none else some (.num (-(digitsVal ds : Int)), rest)
  else
    let (ds, rest) := takeDigits s
    if ds.isEmpty then none else some (.num (digitsVal ds : Int), rest)

/-- JavaScript member assignment `obj[k] = v`: replaces the value of an
existing key in place, otherwise appends. -/
def setMember (k : List Char) (v : Json) : List (List Char × Json) → List (List Char × Json)
  | [] => [(k, v)]
  | (k0, v0) :: ms => if k0 = k then (k0, v) :: ms else (k0, v0) :: setMember k v ms

/-- Build an object from parsed members in order, later duplicates
overwriting earlier ones as `JSON.parse` does. -/
def buildObj (ms : List (List Char × Json)) : List (List Char × Json) :=
  ms.foldl (fun acc m => setMember m.1 m.2 acc) []

mutual
/-- Parse one JSON value (fuel-based; any fuel at least the node count
of the value suffices, see the roundtrip lemmas). -/
def parseVal : Nat → List Char → Option (Json × List Char)
  | 0, _ => none
  | fuel + 1, s0 =>
      let s := skipWs s0
      if (jk "null").isPrefixOf s then some (.null, s.drop 4)
      else if (jk "true").isPrefixOf s then some (.bool true, s.drop 4)
      else if (jk "false").isPrefixOf s then some (.bool false, s.drop 5)
      else if s.headD ' ' = '"' then do
        let (cs, r2) ← parseStrBody (s.drop 1)
        some (.str cs, r2)
      else if s.headD ' ' = '[' then
        (let r1 := skipWs (s.drop 1)
         if r1.headD ' ' = ']' then some (.arr [], r1.drop 1)
         else do
           let (xs, r2) ← parseItems fuel r1
           some (.arr xs, r2))
      else if s.headD ' ' = '\x7b' then
        (let r1 := skipWs (s.drop 1)
         if r1.headD ' ' = '\x7d' then some (.obj [], r1.drop 1)
         else do
           let (ms, r2) ← parseFields fuel r1
           some (.obj (buildObj ms), r2))
      else parseNumber s

/-- Parse the items of a non-empty array up to and including `]`. -/
def parseItems : Nat → List Char → Option (List Json × List Char)
  | 0, _ => none
  | fuel + 1, s => do
      let (x, r) ← parseVal fuel s
      let t := skipWs r
      if t.headD ' ' = ',' then do
        let (xs, r3) ← parseItems fuel (t.drop 1)
        some (x :: xs, r3)
      else if t.headD ' ' = ']' then some ([x], t.drop 1)
      else none

/-- Parse the members of a non-empty object up to and including the
closing brace. -/
def parseFields : Nat → List Char → Option (List (List Char × Json) × List Char)
  | 0, _ => none
  | fuel + 1, s =>
      let t := skipWs s
      if t.headD ' ' = '"' then do
        let (k, r1) ← parseStrBody (t.drop 1)
        let t2 := skipWs r1
        if t2.headD ' ' = ':' then do
          let (v, r3) ← parseVal fuel (t2.drop 1)
          let t3 := skipWs r3
          if t3.headD ' ' = ',' then do
            let (ms, r5) ← parseFields fuel (t3.drop 1)
            some ((k, v) :: ms, r5)
          else if t3.headD ' ' = '\x7d' then some ([(k, v)], t3.drop 1)
          else none
        else none
      else none
end

mutual
/-- Node count of a JSON value, used as the fuel bound for `parseVal`. -/
def jsize : Json → Nat
  | .null => 1
  | .bool _ => 1
  | .num _ => 1
  | .str _ => 1
  | .arr xs => 1 + jsizeItems xs
  | .obj ms => 1 + jsizeFields ms

/-- Node count of array items. -/
def jsizeItems : List Json → Nat
  | [] => 0
  | x :: xs => 1 + jsize x + jsizeItems xs

/-- Node count of object members. -/
def jsizeFields : List (List Char × Json) → Nat
  | [] => 0
  | m :: ms => 1 + jsize m.2 + jsizeFields ms
end

/-- Whether an association list has pairwise distinct keys. -/
def keysUnique : List (List Char × Json) → Bool
  | [] => true
  | m :: ms => (ms.all fun m2 => m2.1 ≠ m.1) && keysUnique ms

mutual
/-- Well-formedness of an in-memory JavaScript value: object keys are
pairwise distinct at every level (JavaScript objects cannot hold
duplicate keys). -/
def jsonWF : Json → Bool
  | .null => true
  | .bool _ => true
  | .num _ => true
  | .str _ => true
  | .arr xs => jsonWFItems xs
  | .obj ms => keysUnique ms && jsonWFFields ms

/-- Well-formedness of array items. -/
def jsonWFItems : List Json → Bool
  | [] => true
  | x :: xs => jsonWF x && jsonWFItems xs

/-- Well-formedness of object member values. -/
def jsonWFFields : List (List Char × Json) → Bool
  | [] => true
  | m :: ms => jsonWF m.2 && jsonWFFields ms
end

/-- A list that cannot open a digit run: used to state that the text
following a rendered value never extends a numeric literal. -/
def numDelim (rest : List Char) : Prop :=
  ¬ isDigitChar (rest.headD ' ') = true

/-- `JSON.parse`: parse one value and require only trailing whitespace
after it. -/
def parseJson (s : List Char) : Option Json :=
  match parseVal (s.length + 1) s with
  | some (v, rest) => if skipWs rest = [] then some v else none
  | none => none

/-! ### Error codes and `signed.ts` -/

/-- The `ArrError` codes raised by the codec, together with the generic
range error Node raises for an out-of-range buffer write. -/
inductive ArrErr where
  | invalid_png
  | invalid_jpeg
  | unsupported_itxt_compression
  | xmp_too_large
  | unsupported_format
  | malformed_json
  | malformed
  | invalid_expiry
  | range_error
deriving DecidableEq, Repr

/-- `serializeSignedAttestation`: pretty-printed persisted form with a
trailing newline. -/
def serializeSignedAttestation (signed : Json) : List Char :=
  renderP 0 signed ++ ['\n']

/-- `parseSignedAttestationJson`: `JSON.parse` (`malformed_json` on
failure) followed by the structural assertion (`malformed` on failure). -/
def parseSignedAttestationJson (raw : List Char) : Except ArrErr Json :=
  match parseJson raw with
  | none => .error .malformed_json
  | some parsed =>
      if isSignedAttestation parsed then .ok parsed else .error .malformed

/-! ### `base64url.ts` and `keys.ts` -/

/-- The base64url alphabet value of a character, if it is in the
alphabet. -/
def b64Val (c : Char) : Option Nat :=
  if 'A' ≤ c ∧ c ≤ 'Z' then some (c.toNat - 65)
  else if 'a' ≤ c ∧ c ≤ 'z' then some (c.toNat - 71)
  else if '0' ≤ c ∧ c ≤ '9' then some (c.toNat + 4)
  else if c = '-' then some 62
  else if c = '_' then some 63
  else none

/-- Pack a list of 6-bit groups into bytes, dropping a trailing partial
byte. -/
def packBits : List Nat → List Nat
  | a :: b :: c :: d :: rest =>
      (a * 4 + b / 16) :: (b % 16 * 16 + c / 4) :: (c % 4 * 64 + d) :: packBits rest
  | [a, b] => [a * 4 + b / 16]
  | [a, b, c] => [a * 4 + b / 16, b % 16 * 16 + c / 4]
  | _ => []

/-- `decodeBase64Url` (`Buffer.from(value, "base64url")`): Node's
forgiving decoder, which skips characters outside the alphabet and
drops a trailing partial byte.  It never throws. -/
def decodeBase64Url (value : List Char) : List Nat :=
  packBits (value.filterMap b64Val)

/-- One base64url character for a 6-bit group. -/
def b64Char (n : Nat) : Char :=
  if n < 26 then Char.ofNat (65 + n)
  else if n < 52 then Char.ofNat (97 - 26 + n)
  else if n < 62 then Char.ofNat (48 - 52 + n)
  else if n = 62 then '-' else '_'

/-- Unpack bytes into 6-bit groups (unpadded base64url). -/
def unpackBits : List Nat → List Nat
  | a :: b :: c :: rest =>
      (a / 4) :: (a % 4 * 16 + b / 16) :: (b % 16 * 4 + c / 64) :: (c % 64) :: unpackBits rest
  | [a, b] => [a / 4, a % 4 * 16 + b / 16, b % 16 * 4]
  | [a] => [a / 4, a % 4 * 16]
  | [] => []

/-- `encodeBase64Url` (`buffer.toString("base64url")`, unpadded). -/
def encodeBase64Url (bytes : List Nat) : List Char :=
  (unpackBits bytes).map b64Char

/-- The fixed 12-byte Ed25519 SPKI header prepended by
`parseCreatorPublicKey`. -/
def spkiHeader : List Nat := [48, 42, 48, 5, 6, 3, 43, 101, 112, 3, 33, 0]

/-- Public keys are modelled by their SPKI DER bytes. -/
abbrev PubKey := List Nat

/-- `parseCreatorPublicKey`: `none` (null) for creator ids without the
`pubkey:ed25519:` prefix; otherwise the base64url payload must decode
to exactly 32 bytes (hard failure when not), which are wrapped in the
SPKI header. -/
def parseCreatorPublicKey (creator : List Char) : Except Unit (Option PubKey) :=
  if ¬ (jk "pubkey:ed25519:").isPrefixOf creator then .ok none
  else
    let publicKeyBytes := decodeBase64Url (creator.drop 15)
    if publicKeyBytes.length ≠ 32 then .error ()
    else .ok (some (spkiHeader ++ publicKeyBytes))

/-- The Ed25519 primitives and the clock, modelled as oracles:
`verifyBytes message publicKey signature` may return a verdict or
throw, exactly as `crypto.verify` may; `dateParse` models
`new Date(s).getTime()` with `none` for `NaN`; `nowMs` models
`Date.now()`. -/
structure CryptoEnv where
  verifyBytes : List Nat → PubKey → List Nat → Except Unit Bool
  dateParse : List Char → Option Int
  nowMs : Int

/-- `verifySignature` from `keys.ts`: reject non-`ed25519:` signature
strings outright, otherwise check the Ed25519 signature of the
canonical bytes. -/
def verifySignature (E : CryptoEnv) (attestation : Json) (signature : List Char)
    (publicKey : PubKey) : Except Unit Bool :=
  if ¬ (jk "ed25519:").isPrefixOf signature then .ok false
  else
    let encodedSignature := signature.drop 8
    let signatureBytes := decodeBase64Url encodedSignature
    let canonical := canonicalizeAttestation attestation
    E.verifyBytes (utf8Encode canonical) publicKey signatureBytes

/-! ### `verify.ts` -/

/-- The four `VerifyReason` values. -/
inductive VerifyReason where
  | invalid_signature
  | unsupported_version
  | malformed
  | missing_public_key
deriving DecidableEq, Repr

/-- The TypeScript `VerificationResult` record: `valid`, an optional
`expired`, an optional `reason`. -/
structure VerificationResult where
  valid : Bool
  expired : Option Bool := none
  reason : Option VerifyReason := none
deriving DecidableEq, Repr

/-- The failure results (`{valid: false, reason}`). -/
def invalidResult (r : VerifyReason) : VerificationResult :=
  { valid := false, reason := some r }

/-- `parseExpiry`: absent expiry is `none`; an unparseable date throws
(`invalid_expiry`). -/
def parseExpiry (E : CryptoEnv) (expires : Option (List Char)) : Except ArrErr (Option Int) :=
  match expires with
  | none => .ok none
  | some s =>
      match E.dateParse s with
      | none => .error .invalid_expiry
      | some t => .ok (some t)

/-- `resolvePublicKey`: an explicit key wins; otherwise the key is
derived from the creator id (which may throw). -/
def resolvePublicKey (signed : Json) (explicitPublicKey : Option PubKey) :
    Except Unit (Option PubKey) :=
  match explicitPublicKey with
  | some k => .ok (some k)
  | none =>
      parseCreatorPublicKey
        ((((signed.jget (jk "attestation")).getD .null).jget (jk "creator")).getD .null).asStr

/-- `verifyAttestation`: the strictly ordered verification state
machine.  Every throwing sub-step is wrapped exactly where the source
wraps it in `try`/`catch`, so the function is total and never throws. -/
def verifyAttestation (E : CryptoEnv) (signed : Json) (explicitPublicKey : Option PubKey) :
    VerificationResult :=
  if ¬ isSignedAttestation signed then invalidResult .malformed
  else
    let attestation := (signed.jget (jk "attestation")).getD .null
    let version := (attestation.jget (jk "version")).getD .null
    if ¬ (version.isStr ∧ version.asStr = jk "arr/0.1") then invalidResult .unsupported_version
    else
      match resolvePublicKey signed explicitPublicKey with
      | .error _ => invalidResult .malformed
      | .ok none => invalidResult .missing_public_key
      | .ok (some publicKey) =>
          let signature := ((signed.jget (jk "signature")).getD .null).asStr
          match verifySignature E attestation signature publicKey with
          | .error _ => invalidResult .malformed
          | .ok false => invalidResult .invalid_signature
          | .ok true =>
              match parseExpiry E ((attestation.jget (jk "expires")).map Json.asStr) with
              | .error _ => invalidResult .malformed
              | .ok none => { valid := true, expired := some false }
              | .ok (some t) => { valid := true, expired := some (E.nowMs > t) }

/-! ### `png.ts`: CRC32, chunk stream, iTXt -/

/-- The 8-byte PNG signature. -/
def pngSignature : List Nat := [137, 80, 78, 71, 13, 10, 26, 10]

/-- The reserved iTXt keyword. -/
def arrKeyword : List Char := jk "arr.attestation"

/-- One row of the CRC32 lookup table: eight conditional
polynomial-division steps. -/
def crcRow (n : Nat) : Nat :=
  (List.range 8).foldl
    (fun c _ => if c % 2 = 1 then Nat.xor 3988292384 (c / 2) else c / 2) n

/-- The reflected-polynomial CRC32 lookup table. -/
def crcTable : List Nat := (List.range 256).map crcRow

/-- `crc32(buffer)`: table-driven IEEE CRC32 (bitwise complements are
the xors with `0xffffffff`; `>>> 0` is the final reduction modulo
2^32). -/
def crc32 (buffer : List Nat) : Nat :=
  Nat.xor
    (buffer.foldl
      (fun crc byte => Nat.xor (crcTable.getD (Nat.land (Nat.xor crc byte) 255) 0) (crc / 256))
      4294967295)
    4294967295 % 4294967296

/-- A parsed PNG chunk: decoded type, data slice, raw slice
(length + type + data + crc). -/
structure PngChunk where
  type : List Char
  data : List Nat
  raw : List Nat
deriving Repr

/-- `isPng`: the first eight bytes match the PNG signature. -/
def isPng (buffer : List Nat) : Bool :=
  buffer.take 8 = pngSignature

/-- The chunk-scanning loop of `parseChunks`, on the bytes after the
signature (fuel-based; the whole buffer length is always enough fuel
since every chunk occupies at least 12 bytes). -/
def parseChunksFrom : Nat → List Nat → Except ArrErr (List PngChunk)
  | _, [] => .ok []
  | 0, _ => .error .invalid_png
  | fuel + 1, rest =>
      if rest.length < 12 then .error .invalid_png
      else
        let length := readBE32 rest 0
        let type := asciiDecode ((rest.drop 4).take 4)
        if rest.length < 12 + length then .error .invalid_png
        else
          let chunk : PngChunk :=
            { type := type, data := (rest.drop 8).take length, raw := rest.take (12 + length) }
          if type = jk "IEND" then .ok [chunk]
          else do
            let cs ← parseChunksFrom fuel (rest.drop (12 + length))
            .ok (chunk :: cs)

/-- `parseChunks`: signature check, then the chunk scan. -/
def parseChunks (buffer : List Nat) : Except ArrErr (List PngChunk) :=
  if ¬ isPng buffer then .error .invalid_png
  else parseChunksFrom buffer.length (buffer.drop 8)

/-- First index of a zero byte at or after `start` (`indexOf(0x00, start)`). -/
def idxOfZero (d : List Nat) (start : Nat) : Option Nat :=
  ((d.drop start).findIdx? (· = 0)).map (· + start)

/-- `parseItxt`: split an iTXt chunk body into keyword and text;
compressed chunks (`flag ≠ 0` or `method ≠ 0`) are the distinct
`unsupported_itxt_compression` failure. -/
def parseItxt (chunkData : List Nat) : Except ArrErr (List Char × List Char) :=
  match idxOfZero chunkData 0 with
  | none => .error .invalid_png
  | some keywordEnd =>
      let keyword := latin1Decode (chunkData.take keywordEnd)
      let cursor := keywordEnd + 1
      if cursor + 2 > chunkData.length then .error .invalid_png
      else
        let compressionFlag := chunkData.getD cursor 0
        let compressionMethod := chunkData.getD (cursor + 1) 0
        if compressionFlag ≠ 0 ∨ compressionMethod ≠ 0 then
          .error .unsupported_itxt_compression
        else
          match idxOfZero chunkData (cursor + 2) with
          | none => .error .invalid_png
          | some languageTagEnd =>
              match idxOfZero chunkData (languageTagEnd + 1) with
              | none => .error .invalid_png
              | some translatedKeywordEnd =>
                  .ok (keyword, utf8Decode (chunkData.drop (translatedKeywordEnd + 1)))

/-- `encodeItxt`: keyword, five zero bytes (keyword terminator,
compression flag and method, empty language tag and translated keyword
terminators), UTF-8 text. -/
def encodeItxt (keyword text : List Char) : List Nat :=
  latin1Encode keyword ++ [0, 0, 0, 0, 0] ++ utf8Encode text

/-- `createChunk`: length, type, data, CRC32 of type+data.  The 32-bit
length write throws a range error when the data is too long, as Node's
`writeUInt32BE` does. -/
def createChunk (type : List Char) (data : List Nat) : Except ArrErr (List Nat) :=
  if data.length > 4294967295 then .error .range_error
  else
    let typeBytes := latin1Encode type
    .ok (be32 data.length ++ typeBytes ++ data ++ be32 (crc32 (typeBytes ++ data)))

/-- Whether a chunk is the reserved attestation chunk: an `iTXt` chunk
that parses and carries the reserved keyword (parse failures are
discarded, as both scanning loops in the source do). -/
def isArrItxtChunk (c : PngChunk) : Bool :=
  c.type = jk "iTXt" &&
    match parseItxt c.data with
    | .ok p => p.1 = arrKeyword
    | .error _ => false

/-- `extractPngAttestation`'s scanning loop: the first reserved chunk's
text is parsed as the persisted form (whose failures propagate);
unparseable iTXt chunks are skipped. -/
def extractScan : List PngChunk → Except ArrErr (Option Json)
  | [] => .ok none
  | c :: cs =>
      if c.type ≠ jk "iTXt" then extractScan cs
      else
        match parseItxt c.data with
        | .error _ => extractScan cs
        | .ok (keyword, text) =>
            if keyword = arrKeyword then do
              let signed ← parseSignedAttestationJson text
              .ok (some signed)
            else extractScan cs

/-- `extractPngAttestation`. -/
def extractPngAttestation (buffer : List Nat) : Except ArrErr (Option Json) := do
  let chunks ← parseChunks buffer
  extractScan chunks

/-- The filter/insert loop of `embedPngAttestation`: reserved chunks
are dropped, the new chunk is inserted immediately before `IEND`, and
the boolean reports whether the insertion happened. -/
def embedPngLoop (arrChunk : List Nat) : List PngChunk → Bool → List (List Nat) × Bool
  | [], inserted => ([], inserted)
  | c :: cs, inserted =>
      if isArrItxtChunk c then embedPngLoop arrChunk cs inserted
      else if c.type = jk "IEND" ∧ ¬ inserted then
        let (out, ins) := embedPngLoop arrChunk cs true
        (arrChunk :: c.raw :: out, ins)
      else
        let (out, ins) := embedPngLoop arrChunk cs inserted
        (c.raw :: out, ins)

/-- `embedPngAttestation`: parse, build the fresh reserved chunk,
filter and insert, and fail when no `IEND` chunk was seen. -/
def embedPngAttestation (buffer : List Nat) (signed : Json) : Except ArrErr (List Nat) := do
  let chunks ← parseChunks buffer
  let arrChunk ← createChunk (jk "iTXt") (encodeItxt arrKeyword (serializeSignedAttestation signed))
  let (outChunks, inserted) := embedPngLoop arrChunk chunks false
  if ¬ inserted then .error .invalid_png
  else .ok (pngSignature ++ outChunks.flatten)

/-! ### XML escaping and `replaceAll` (`jpeg.ts` helpers) -/

/-- `String.prototype.replaceAll` with a non-empty pattern: scan left
to right, replacing non-overlapping occurrences (fuel-based; the input
length is enough fuel). -/
def replaceAllAux (pat rep : List Char) : Nat → List Char → List Char
  | _, [] => []
  | 0, s => s
  | fuel + 1, c :: cs =>
      if pat ≠ [] ∧ pat.isPrefixOf (c :: cs) then
        rep ++ replaceAllAux pat rep fuel ((c :: cs).drop pat.length)
      else c :: replaceAllAux pat rep fuel cs

/-- `s.replaceAll(pat, rep)`. -/
def replaceAll (pat rep s : List Char) : List Char :=
  replaceAllAux pat rep s.length s

/-- `escapeXml`: the five sequential `replaceAll` calls of the source,
ampersand first. -/
def escapeXml (value : List Char) : List Char :=
  replaceAll (jk "\x27") (jk "&apos;")
    (replaceAll (jk "\x22") (jk "&quot;")
      (replaceAll (jk ">") (jk "&gt;")
        (replaceAll (jk "<") (jk "&lt;")
          (replaceAll (jk "&") (jk "&amp;") value))))

/-- `decodeXmlEntities`: the five sequential `replaceAll` calls of the
source, ampersand last. -/
def decodeXmlEntities (value : List Char) : List Char :=
  replaceAll (jk "&amp;") (jk "&")
    (replaceAll (jk "&lt;") (jk "<")
      (replaceAll (jk "&gt;") (jk ">")
        (replaceAll (jk "&apos;") (jk "\x27")
          (replaceAll (jk "&quot;") (jk "\x22") value))))

/-- JavaScript whitespace stripped by `String.prototype.trim`. -/
def isTrimChar (c : Char) : Bool :=
  c = ' ' || c = '\n' || c = '\t' || c = '\r' || c = Char.ofNat 12 || c = Char.ofNat 11

/-- `s.trim()`. -/
def jsTrim (s : List Char) : List Char :=
  (s.dropWhile isTrimChar).reverse.dropWhile isTrimChar |>.reverse

/-- Leftmost occurrence of a pattern: the text before it and the text
after it (fuel-based scan). -/
def splitFirstAux (pat : List Char) : Nat → List Char → Option (List Char × List Char)
  | _, [] => if pat.isPrefixOf [] then some ([], []) else none
  | 0, _ => none
  | fuel + 1, c :: cs =>
      if pat.isPrefixOf (c :: cs) then some ([], (c :: cs).drop pat.length)
      else
        match splitFirstAux pat fuel cs with
        | some (pre, post) => some (c :: pre, post)
        | none => none

/-- Split a string around the leftmost occurrence of `pat`. -/
def splitFirst (pat s : List Char) : Option (List Char × List Char) :=
  splitFirstAux pat (s.length + 1) s

/-! ### `jpeg.ts` -/

/-- The APP1 XMP identifier, `"http://ns.adobe.com/xap/1.0/" + NUL`. -/
def xmpIdentifier : List Nat := latin1Encode (jk "http://ns.adobe.com/xap/1.0/") ++ [0]

/-- The custom attestation XML namespace. -/
def arrNamespace : List Char := jk "http://arr.protocol/1.0/"

/-- The attestation element tags. -/
def arrOpenTag : List Char := jk "<arr:attestation>"

/-- Closing tag. -/
def arrCloseTag : List Char := jk "</arr:attestation>"

/-- `isJpeg`: at least four bytes, starting `FF D8`. -/
def isJpeg (buffer : List Nat) : Bool :=
  buffer.length ≥ 4 && buffer.getD 0 0 = 255 && buffer.getD 1 0 = 216

/-- Standalone markers (TEM, RST0–RST7) carry no length field. -/
def isStandaloneMarker (marker : Nat) : Bool :=
  marker = 1 || (208 ≤ marker && marker ≤ 215)

/-- The marker-scanning loop of `splitJpeg` over the bytes after SOI:
collects the segments before the entropy-coded tail; scanning stops at
SOS or EOI, and a stream that ends cleanly without either gets a
synthesized EOI tail. -/
def splitSegs : Nat → List Nat → Except ArrErr (List (List Nat) × List Nat)
  | _, [] => .ok ([], [255, 217])
  | 0, _ => .error .invalid_jpeg
  | fuel + 1, s =>
      if s.getD 0 0 ≠ 255 then .error .invalid_jpeg
      else
        let fills := ((s.drop 1).takeWhile (· = 255)).length
        if 1 + fills ≥ s.length then .error .invalid_jpeg
        else
          let marker := s.getD (1 + fills) 0
          if marker = 218 ∨ marker = 217 then .ok ([], s)
          else if isStandaloneMarker marker then do
            let (segs, tail) ← splitSegs fuel (s.drop (fills + 2))
            .ok (s.take (fills + 2) :: segs, tail)
          else
            if s.length < fills + 4 then .error .invalid_jpeg
            else
              let segmentLength := readBE16 s (fills + 2)
              if segmentLength < 2 then .error .invalid_jpeg
              else if fills + 2 + segmentLength > s.length then .error .invalid_jpeg
              else do
                let (segs, tail) ← splitSegs fuel (s.drop (fills + 2 + segmentLength))
                .ok (s.take (fills + 2 + segmentLength) :: segs, tail)

/-- `splitJpeg`: SOI, the segments, the tail. -/
def splitJpeg (buffer : List Nat) : Except ArrErr (List Nat × List (List Nat) × List Nat) := do
  if ¬ isJpeg buffer then .error .invalid_jpeg
  else do
    let (segments, tail) ← splitSegs buffer.length (buffer.drop 2)
    .ok (buffer.take 2, segments, tail)

/-- Whether the marker scan of `splitSegs` runs to the exact end of the
input without failing and without meeting an SOS or EOI marker — the
situation in which `splitSegs` synthesizes an EOI tail.  This mirrors
the branch structure of `splitSegs` exactly. -/
def jpegScanExhausts : Nat → List Nat → Bool
  | _, [] => true
  | 0, _ => false
  | fuel + 1, s =>
      if s.getD 0 0 ≠ 255 then false
      else
        let fills := ((s.drop 1).takeWhile (· = 255)).length
        if 1 + fills ≥ s.length then false
        else
          let marker := s.getD (1 + fills) 0
          if marker = 218 ∨ marker = 217 then false
          else if isStandaloneMarker marker then jpegScanExhausts fuel (s.drop (fills + 2))
          else
            if s.length < fills + 4 then false
            else
              let segmentLength := readBE16 s (fills + 2)
              if segmentLength < 2 then false
              else if fills + 2 + segmentLength > s.length then false
              else jpegScanExhausts fuel (s.drop (fills + 2 + segmentLength))

/-- `isApp1Segment`: at least four bytes, `FF E1` header. -/
def isApp1Segment (segment : List Nat) : Bool :=
  segment.length ≥ 4 && segment.getD 0 0 = 255 && segment.getD 1 0 = 225

/-- `parseApp1Payload`: the bytes after the marker and length field. -/
def parseApp1Payload (segment : List Nat) : List Nat :=
  segment.drop 4

/-- JavaScript `s.includes(sub)`. -/
def jsIncludes (s sub : List Char) : Bool :=
  (splitFirst sub s).isSome

/-- `isArrXmpSegment`: an APP1 segment whose payload begins with the
XMP identifier and whose XML mentions the attestation namespace and
element. -/
def isArrXmpSegment (segment : List Nat) : Bool :=
  isApp1Segment segment &&
    (let payload := parseApp1Payload segment
     (payload.take xmpIdentifier.length = xmpIdentifier) &&
       (let xml := utf8Decode (payload.drop xmpIdentifier.length)
        jsIncludes xml arrNamespace && jsIncludes xml arrOpenTag))

/-- The model of the lazy regex
`/<arr:attestation>([\s\S]*?)<\/arr:attestation>/`: the text between
the leftmost opening tag and the first closing tag after it. -/
def xmlArrMatch (xml : List Char) : Option (List Char) := do
  let (_, afterOpen) ← splitFirst arrOpenTag xml
  let (inner, _) ← splitFirst arrCloseTag afterOpen
  some inner

/-- `extractArrAttestationFromXml`: match the element, trim and
XML-unescape its text, parse the persisted form (whose failures
propagate). -/
def extractArrAttestationFromXml (xml : List Char) : Except ArrErr (Option Json) :=
  match xmlArrMatch xml with
  | none => .ok none
  | some inner => do
      let signed ← parseSignedAttestationJson (decodeXmlEntities (jsTrim inner))
      .ok (some signed)

/-- `buildArrXmpXml`: the fixed XMP packet around the XML-escaped
persisted form. -/
def buildArrXmpXml (signed : Json) : List Char :=
  jk "<x:xmpmeta xmlns:x=\x22adobe:ns:meta/\x22>"
    ++ jk "<rdf:RDF xmlns:rdf=\x22http://www.w3.org/1999/02/22-rdf-syntax-ns#\x22>"
    ++ jk "<rdf:Description rdf:about=\x22\x22 xmlns:arr=\x22" ++ arrNamespace ++ jk "\x22>"
    ++ arrOpenTag ++ escapeXml (serializeSignedAttestation signed) ++ arrCloseTag
    ++ jk "</rdf:Description>"
    ++ jk "</rdf:RDF>"
    ++ jk "</x:xmpmeta>"

/-- `createArrApp1Segment`: `FF E1`, the 16-bit segment length
(payload plus the length field itself), the XMP identifier and XML
packet; payloads beyond the 16-bit limit are the hard `xmp_too_large`
failure. -/
def createArrApp1Segment (signed : Json) : Except ArrErr (List Nat) :=
  let xml := buildArrXmpXml signed
  let payload := xmpIdentifier ++ utf8Encode xml
  let segmentLength := payload.length + 2
  if segmentLength > 65535 then .error .xmp_too_large
  else .ok (255 :: 225 :: be16 segmentLength ++ payload)

/-- `extractJpegAttestation`'s segment scan: the first matching XMP
segment whose XML yields an attestation. -/
def jpegScan : List (List Nat) → Except ArrErr (Option Json)
  | [] => .ok none
  | segment :: rest =>
      if ¬ isArrXmpSegment segment then jpegScan rest
      else do
        let payload := parseApp1Payload segment
        let xml := utf8Decode (payload.drop xmpIdentifier.length)
        let extracted ← extractArrAttestationFromXml xml
        match extracted with
        | some signed => .ok (some signed)
        | none => jpegScan rest

/-- `extractJpegAttestation`. -/
def extractJpegAttestation (buffer : List Nat) : Except ArrErr (Option Json) := do
  let (_, segments, _) ← splitJpeg buffer
  jpegScan segments

/-- `embedJpegAttestation`: split, drop existing attestation segments,
append the fresh APP1 segment, and close with the tail. -/
def embedJpegAttestation (buffer : List Nat) (signed : Json) : Except ArrErr (List Nat) := do
  let (soi, segments, tail) ← splitJpeg buffer
  let filteredSegments := segments.filter (fun s => ¬ isArrXmpSegment s)
  let arrSegment ← createArrApp1Segment signed
  .ok (soi ++ filteredSegments.flatten ++ arrSegment ++ tail)

/-! ### Concrete sample inputs used by witnesses and counterexamples -/

/-- A minimal well-formed attestation document. -/
def sampleAtt : Json :=
  .obj [(jk "version", .str (jk "arr/0.1")), (jk "id", .str (jk "t1")),
    (jk "created", .str (jk "2026-01-01T00:00:00Z")), (jk "creator", .str (jk "me"))]

/-- A minimal signed attestation around `sampleAtt`. -/
def sampleSigned : Json :=
  .obj [(jk "attestation", sampleAtt), (jk "signature", .str (jk "ed25519:AA"))]

/-- A crypto environment whose signature oracle accepts everything and
whose clock parses every date to time 5 with `now` at 9. -/
def sampleEnv : CryptoEnv :=
  { verifyBytes := fun _ _ _ => .ok true, dateParse := fun _ => some 5, nowMs := 9 }

/-- A structurally valid record whose `content_hash` and `renews` are
numbers, not strings. -/
def attBadOptionals : Json :=
  .obj [(jk "version", .str (jk "arr/0.1")), (jk "id", .str (jk "t1")),
    (jk "created", .str (jk "2026-01-01T00:00:00Z")), (jk "creator", .str (jk "me")),
    (jk "content_hash", .num 5), (jk "renews", .num 7)]

/-- An attestation whose `extensions` keys `"B"` and `"a"` order
differently under locale-sensitive and ordinal comparison. -/
def attCaseKeys : Json :=
  .obj [(jk "version", .str (jk "arr/0.1")), (jk "id", .str (jk "x")),
    (jk "created", .str (jk "c")), (jk "creator", .str (jk "me")),
    (jk "extensions", .obj [(jk "B", .num 1), (jk "a", .num 2)])]

/-- A minimal PNG: signature plus a bare `IEND` chunk. -/
def pngMin : List Nat :=
  pngSignature ++ [0, 0, 0, 0] ++ latin1Encode (jk "IEND") ++ [0, 0, 0, 0]

/-- A minimal JPEG: SOI immediately followed by EOI. -/
def jpegMin : List Nat := [255, 216, 255, 217]

/-- An iTXt chunk body carrying the reserved keyword with compression
flag 1 (a compressed reserved chunk). -/
def compressedItxtData : List Nat :=
  latin1Encode arrKeyword ++ [0, 1, 0, 0, 0] ++ utf8Encode (jk "x")

/-- A PNG whose only text chunk is a compressed reserved-keyword iTXt
chunk (CRC bytes are irrelevant to the parser and left zero). -/
def pngCompressedItxt : List Nat :=
  pngSignature
    ++ be32 compressedItxtData.length ++ latin1Encode (jk "iTXt") ++ compressedItxtData
      ++ [0, 0, 0, 0]
    ++ [0, 0, 0, 0] ++ latin1Encode (jk "IEND") ++ [0, 0, 0, 0]

/-- A signed attestation whose `intent` is 66000 characters long, so
its XMP packet cannot fit a JPEG APP1 segment. -/
def oversizedSigned : Json :=
  .obj [(jk "attestation",
    .obj [(jk "intent", .str (List.replicate 66000 'a')),
      (jk "version", .str (jk "arr/0.1")), (jk "id", .str (jk "t1")),
      (jk "created", .str (jk "c")), (jk "creator", .str (jk "me"))]),
    (jk "signature", .str (jk "ed25519:AA"))]

/-- A truncated JPEG: SOI plus one APP0 segment, no SOS or EOI. -/
def jpegTruncated : List Nat := [255, 216, 255, 224, 0, 2]

/-- The slice invariants of a parsed PNG chunk: the raw slice carries
its own length field, type, and data. -/
def ChunkWF (c : PngChunk) : Prop :=
  c.raw.length = 12 + c.data.length ∧
  readBE32 c.raw 0 = c.data.length ∧
  asciiDecode ((c.raw.drop 4).take 4) = c.type ∧
  (c.raw.drop 8).take c.data.length = c.data

/-- The fresh reserved chunk record produced by `embedPngAttestation`:
type `iTXt`, the encoded reserved text, and the raw slice built by
`createChunk`. -/
def arrChunkOf (signed : Json) : PngChunk :=
  let data := encodeItxt arrKeyword (serializeSignedAttestation signed)
  { type := jk "iTXt", data := data,
    raw := be32 data.length ++ latin1Encode (jk "iTXt") ++ data
      ++ be32 (crc32 (latin1Encode (jk "iTXt") ++ data)) }

/-- The XML escaping of a single character (all five entities). -/
def escEnt (c : Char) : List Char :=
  if c = '&' then jk "&amp;"
  else if c = '<' then jk "&lt;"
  else if c = '>' then jk "&gt;"
  else if c = '\x22' then jk "&quot;"
  else if c = '\x27' then jk "&apos;"
  else [c]

/-- Token shapes after the first decoding pass (quotes restored). -/
def decTok1 (c : Char) : List Char := if c = '\x22' then [c] else escEnt c

/-- After the second pass (apostrophes restored). -/
def decTok2 (c : Char) : List Char := if c = '\x27' then [c] else decTok1 c

/-- After the third pass. -/
def decTok3 (c : Char) : List Char := if c = '>' then [c] else decTok2 c

/-- After the fourth pass. -/
def decTok4 (c : Char) : List Char := if c = '<' then [c] else decTok3 c

/-- After the final pass: every character restored. -/
def decTok5 (c : Char) : List Char := if c = '&' then [c] else decTok4 c

/-- The concrete XMP text before the attestation element. -/
def frameA : List Char :=
  jk "<x:xmpmeta xmlns:x=\x22adobe:ns:meta/\x22>"
    ++ jk "<rdf:RDF xmlns:rdf=\x22http://www.w3.org/1999/02/22-rdf-syntax-ns#\x22>"
    ++ jk "<rdf:Description rdf:about=\x22\x22 xmlns:arr=\x22" ++ arrNamespace ++ jk "\x22>"

/-- The concrete XMP text after the attestation element. -/
def frameB : List Char :=
  jk "</rdf:Description>" ++ jk "</rdf:RDF>" ++ jk "</x:xmpmeta>"

/-- The slice invariants of a collected JPEG marker segment: fill
bytes, a marker that does not end the scan, and either a standalone
marker or a length field covering itself plus the data. -/
def SegWF (seg : List Nat) : Prop :=
  ∃ fills marker body, seg = 255 :: (List.replicate fills 255 ++ (marker :: body))
    ∧ ¬ marker = 255 ∧ ¬ marker = 218 ∧ ¬ marker = 217
    ∧ ((isStandaloneMarker marker = true ∧ body = [])
       ∨ (isStandaloneMarker marker = false
           ∧ ∃ b1 b2 data, body = b1 :: (b2 :: data)
             ∧ b1 * 256 + b2 = data.length + 2))

/-- The shape of the entropy-coded tail left by the scan: fill bytes
then SOS or EOI. -/
def TailWF (tail : List Nat) : Prop :=
  ∃ fills marker rest2, tail = 255 :: (List.replicate fills 255 ++ (marker :: rest2))
    ∧ (marker = 218 ∨ marker = 217)

/-- The fresh APP1/XMP segment bytes appended by `embedJpegAttestation`. -/
def arrSegOf (signed : Json) : List Nat :=
  255 :: 225 :: be16 ((xmpIdentifier ++ utf8Encode (buildArrXmpXml signed)).length + 2)
    ++ (xmpIdentifier ++ utf8Encode (buildArrXmpXml signed))

/-- The second right-nested shape of the packet, exposing the
namespace occurrence. -/
def frameC : List Char :=
  jk "<x:xmpmeta xmlns:x=\x22adobe:ns:meta/\x22>"
    ++ jk "<rdf:RDF xmlns:rdf=\x22http://www.w3.org/1999/02/22-rdf-syntax-ns#\x22>"
    ++ jk "<rdf:Description rdf:about=\x22\x22 xmlns:arr=\x22"

/-- A minimal PNG chunk record for concrete checks: the `IEND` chunk
as built by `createChunk`. -/
def iendChunkW : PngChunk :=
  { type := jk "IEND", data := [], raw := (createChunk (jk "IEND") []).toOption.getD [] }

/-- A minimal PNG: the signature and a single `IEND` chunk. -/
def pngMinW : List Nat := pngSignature ++ iendChunkW.raw

/-- A minimal JPEG: SOI immediately followed by EOI. -/
def jpegMinW : List Nat := [255, 216, 255, 217]

/-! ## Theorems -/

/-- C1.  The specification requires ordinal (codepoint) key ordering in
the canonical form; the source sorts keys with `localeCompare`.  On an
attestation whose `extensions` has keys `"B"` and `"a"`, the source
canonicalizer emits `"a"` before `"B"` (locale order), while the
specified ordinal canonicalizer emits `"B"` (codepoint 66) before
`"a"` (codepoint 97): the two canonical byte streams differ, so the
claim that `canonicalizeAttestation` orders keys by ordinal comparison
fails on the code. -/
theorem canonicalize_locale_vs_ordinal :
    canonicalizeAttestation attCaseKeys
        = jk "\x7b\"created\":\"c\",\"creator\":\"me\",\"extensions\":\x7b\"a\":2,\"B\":1\x7d,\"id\":\"x\",\"version\":\"arr/0.1\"\x7d"
      ∧ specOrdinalCanonicalize attCaseKeys
        = jk "\x7b\"created\":\"c\",\"creator\":\"me\",\"extensions\":\x7b\"B\":1,\"a\":2\x7d,\"id\":\"x\",\"version\":\"arr/0.1\"\x7d"
      ∧ canonicalizeAttestation attCaseKeys ≠ specOrdinalCanonicalize attCaseKeys := by
  refine ⟨by decide, by decide, by decide⟩

/-- C3.  `isAttestation` accepts a record whose optional `content_hash`
and `renews` members are numbers: the source never checks these two
declared-optional string fields, so the claim that every present
optional field must match its declared type fails on the code. -/
theorem isAttestation_skips_content_hash_and_renews :
    attBadOptionals.jget (jk "content_hash") = some (.num 5)
      ∧ attBadOptionals.jget (jk "renews") = some (.num 7)
      ∧ isAttestation attBadOptionals = true := by
  refine ⟨by rfl, by rfl, by decide⟩

/-- C2.  The verification engine is a total function into
`VerificationResult` (every throwing sub-step of the source sits in a
`try`/`catch`), and its result is always exactly one of the two
shapes: `{valid: true, expired}` with no `reason`, or
`{valid: false, reason}` with one of the four reasons and no
`expired` — for every input value, every optional explicit key, and
every behaviour of the crypto and date oracles. -/
theorem verifyAttestation_result_shape (E : CryptoEnv) (signed : Json)
    (explicitPublicKey : Option PubKey) :
    (∃ e, verifyAttestation E signed explicitPublicKey
        = { valid := true, expired := some e, reason := none })
      ∨ (∃ r, verifyAttestation E signed explicitPublicKey
        = { valid := false, expired := none, reason := some r }) := by
  unfold verifyAttestation
  dsimp only
  repeat' split
  all_goals first
    | exact Or.inl ⟨_, rfl⟩
    | exact Or.inr ⟨_, rfl⟩

/-- C5.  For a structurally valid signed attestation whose version
string is not the supported literal `"arr/0.1"`, verification returns
`unsupported_version` — for every oracle behaviour (so even a
cryptographically valid signature) and every optional explicit key,
since the gate sits before key resolution and the signature check. -/
theorem verifyAttestation_version_gate (E : CryptoEnv) (signed : Json)
    (explicitPublicKey : Option PubKey)
    (hstruct : isSignedAttestation signed = true)
    (hver : ((((signed.jget (jk "attestation")).getD .null).jget (jk "version")).getD
        .null).asStr ≠ jk "arr/0.1") :
    verifyAttestation E signed explicitPublicKey = invalidResult .unsupported_version := by
  unfold verifyAttestation
  dsimp only
  rw [if_neg (by simp [hstruct]), if_pos (fun h => hver h.2)]

/-- Witness for C5: a concrete signed attestation with version
`"arr/0.2"` and an oracle that accepts every signature is still
rejected as `unsupported_version`. -/
theorem verifyAttestation_version_gate_witness :
    verifyAttestation sampleEnv
      (.obj [(jk "attestation",
        .obj [(jk "version", .str (jk "arr/0.2")), (jk "id", .str (jk "t1")),
          (jk "created", .str (jk "c")), (jk "creator", .str (jk "me"))]),
        (jk "signature", .str (jk "ed25519:AA"))]) none
      = invalidResult .unsupported_version :=
  verifyAttestation_version_gate sampleEnv _ none (by decide) (by decide)

/-- C8.  Once the structural, version, key-resolution and signature
checks have passed, expiry handling is exactly: absent `expires` gives
`{valid: true, expired: false}`; an unparseable date gives
`{valid: false, reason: malformed}`; a parseable date gives
`{valid: true, expired: now > expires}`. -/
theorem verifyAttestation_expiry (E : CryptoEnv) (signed : Json)
    (explicitPublicKey : Option PubKey) (pk : PubKey)
    (hstruct : isSignedAttestation signed = true)
    (hver : (((signed.jget (jk "attestation")).getD .null).jget (jk "version")).getD .null
        = .str (jk "arr/0.1"))
    (hkey : resolvePublicKey signed explicitPublicKey = .ok (some pk))
    (hsig : verifySignature E ((signed.jget (jk "attestation")).getD .null)
        (((signed.jget (jk "signature")).getD .null)).asStr pk = .ok true) :
    verifyAttestation E signed explicitPublicKey =
      match ((signed.jget (jk "attestation")).getD .null).jget (jk "expires") with
      | none => { valid := true, expired := some false }
      | some e =>
          match E.dateParse e.asStr with
          | none => invalidResult .malformed
          | some t => { valid := true, expired := some (E.nowMs > t) } := by
  unfold verifyAttestation
  dsimp only
  rw [if_neg (by simp [hstruct]), hver]
  rw [if_neg (by decide), hkey]
  dsimp only
  rw [hsig]
  dsimp only
  unfold parseExpiry
  cases hexp : ((signed.jget (jk "attestation")).getD .null).jget (jk "expires") with
  | none => rfl
  | some e =>
      dsimp only [Option.map]
      cases hdp : E.dateParse e.asStr with
      | none => rfl
      | some t => rfl

/-- Witness for C8: a concrete signed attestation with a parseable
expiry of time 5 against a clock at time 9 verifies as
`{valid: true, expired: true}`. -/
theorem verifyAttestation_expiry_witness :
    verifyAttestation sampleEnv
      (.obj [(jk "attestation",
        .obj [(jk "version", .str (jk "arr/0.1")), (jk "id", .str (jk "t1")),
          (jk "created", .str (jk "c")), (jk "creator", .str (jk "me")),
          (jk "expires", .str (jk "2026-01-02T00:00:00Z"))]),
        (jk "signature", .str (jk "ed25519:AA"))]) (some [1])
      = { valid := true, expired := some true } := by
  rw [verifyAttestation_expiry sampleEnv _ (some [1]) [1] (by decide) (by rfl) (by rfl) (by rfl)]
  rfl

/-- C7 counterexample.  On a PNG whose reserved-keyword iTXt chunk has
compression flag 1, extraction does NOT surface the
`unsupported_itxt_compression` error: the scanning loop catches the
chunk parse error and skips the chunk, so extraction returns null. -/
theorem extractPng_swallows_compression_error :
    extractPngAttestation pngCompressedItxt = .ok none := by rfl

/-- C7 as amended.  `parseItxt` does signal the distinct
`unsupported_itxt_compression` error (not `invalid_png`) whenever the
keyword terminator is found, the compression fields are in bounds and
the flag or method byte is nonzero; but `extractPngAttestation`'s
scanning loop catches every chunk parse failure — this one included —
and skips the chunk rather than surfacing the error. -/
theorem parseItxt_compression_and_extract_skip :
    (∀ (chunkData : List Nat) (keywordEnd : Nat),
      idxOfZero chunkData 0 = some keywordEnd →
      keywordEnd + 3 ≤ chunkData.length →
      (chunkData.getD (keywordEnd + 1) 0 ≠ 0 ∨ chunkData.getD (keywordEnd + 2) 0 ≠ 0) →
      parseItxt chunkData = .error .unsupported_itxt_compression)
    ∧ (∀ (c : PngChunk) (cs : List PngChunk) (e : ArrErr),
      c.type = jk "iTXt" → parseItxt c.data = .error e →
      extractScan (c :: cs) = extractScan cs) := by
  constructor
  · intro chunkData keywordEnd hk hlen hflag
    unfold parseItxt
    rw [hk]
    dsimp only
    rw [if_neg (by omega), if_pos hflag]
  · intro c cs e htype hparse
    conv_lhs => rw [extractScan]
    rw [if_neg (by simp [htype]), hparse]

/-- Witness for C7's amended statement: the concrete compressed
reserved chunk is rejected as `unsupported_itxt_compression` by
`parseItxt`, and a scan encountering it skips it. -/
theorem parseItxt_compression_and_extract_skip_witness :
    parseItxt compressedItxtData = .error .unsupported_itxt_compression
      ∧ extractScan [⟨jk "iTXt", compressedItxtData, []⟩] = extractScan [] :=
  ⟨parseItxt_compression_and_extract_skip.1 compressedItxtData 15 (by rfl) (by decide)
      (Or.inl (by decide)),
    parseItxt_compression_and_extract_skip.2 ⟨jk "iTXt", compressedItxtData, []⟩ []
      .unsupported_itxt_compression (by rfl)
      (parseItxt_compression_and_extract_skip.1 compressedItxtData 15 (by rfl) (by decide)
        (Or.inl (by decide)))⟩

/-- If the marker scan exhausts its input without failing and without
an SOS/EOI marker, `splitSegs` succeeds with the synthesized EOI tail. -/
theorem splitSegs_of_exhausts : ∀ (fuel : Nat) (s : List Nat),
    jpegScanExhausts fuel s = true →
    ∃ segs, splitSegs fuel s = .ok (segs, [255, 217]) := by
  intro fuel
  induction fuel with
  | zero =>
      intro s h
      cases s with
      | nil => exact ⟨[], rfl⟩
      | cons a t => exact absurd h (by simp [jpegScanExhausts])
  | succ f ih =>
      intro s h
      cases s with
      | nil => exact ⟨[], rfl⟩
      | cons a t =>
          simp only [jpegScanExhausts] at h
          simp only [splitSegs]
          by_cases h0 : (a :: t).getD 0 0 ≠ 255
          · rw [if_pos h0] at h; exact absurd h (by simp)
          rw [if_neg h0] at h ⊢
          by_cases h1 : 1 + (((a :: t).drop 1).takeWhile (· = 255)).length ≥ (a :: t).length
          · rw [if_pos h1] at h; exact absurd h (by simp)
          rw [if_neg h1] at h ⊢
          by_cases h2 : (a :: t).getD (1 + (((a :: t).drop 1).takeWhile (· = 255)).length) 0 = 218
              ∨ (a :: t).getD (1 + (((a :: t).drop 1).takeWhile (· = 255)).length) 0 = 217
          · rw [if_pos h2] at h; exact absurd h (by simp)
          rw [if_neg h2] at h ⊢
          by_cases h3 : isStandaloneMarker
              ((a :: t).getD (1 + (((a :: t).drop 1).takeWhile (· = 255)).length) 0) = true
          · rw [if_pos h3] at h ⊢
            obtain ⟨segs, hs⟩ := ih _ h
            exact ⟨_, by rw [hs]; rfl⟩
          rw [if_neg h3] at h ⊢
          by_cases h4 : (a :: t).length < (((a :: t).drop 1).takeWhile (· = 255)).length + 4
          · rw [if_pos h4] at h; exact absurd h (by simp)
          rw [if_neg h4] at h ⊢
          by_cases h5 : readBE16 (a :: t) ((((a :: t).drop 1).takeWhile (· = 255)).length + 2) < 2
          · rw [if_pos h5] at h; exact absurd h (by simp)
          rw [if_neg h5] at h ⊢
          by_cases h6 : (((a :: t).drop 1).takeWhile (· = 255)).length + 2
              + readBE16 (a :: t) ((((a :: t).drop 1).takeWhile (· = 255)).length + 2)
              > (a :: t).length
          · rw [if_pos h6] at h; exact absurd h (by simp)
          rw [if_neg h6] at h ⊢
          obtain ⟨segs, hs⟩ := ih _ h
          exact ⟨_, by rw [hs]; rfl⟩

/-- C10.  A JPEG accepted by `isJpeg` whose marker stream runs to the
end of the buffer without reaching SOS or EOI does not make `splitJpeg`
fail: the tail is the synthesized two-byte EOI, and embedding (when the
XMP segment fits) succeeds and returns a buffer ending in `FF D9`
rather than raising `invalid_jpeg`. -/
theorem embedJpeg_truncated_synthesizes_eoi (b : List Nat) (signed : Json)
    (arrSegment : List Nat)
    (hjpeg : isJpeg b = true)
    (hscan : jpegScanExhausts b.length (b.drop 2) = true)
    (hseg : createArrApp1Segment signed = .ok arrSegment) :
    ∃ segs, splitJpeg b = .ok (b.take 2, segs, [255, 217])
      ∧ embedJpegAttestation b signed
          = .ok (b.take 2 ++ (segs.filter (fun s => ¬ isArrXmpSegment s)).flatten
              ++ arrSegment ++ [255, 217]) := by
  obtain ⟨segs, hsplit⟩ := splitSegs_of_exhausts b.length (b.drop 2) hscan
  have hj : splitJpeg b = .ok (b.take 2, segs, [255, 217]) := by
    unfold splitJpeg
    rw [if_neg (by simp [hjpeg]), hsplit]
    rfl
  refine ⟨segs, hj, ?_⟩
  unfold embedJpegAttestation
  rw [hj]
  dsimp only [Except.bind, bind]
  rw [hseg]

set_option maxRecDepth 100000 in
/-- Witness for C10: the concrete truncated JPEG (SOI plus one APP0
segment, no EOI) embeds successfully with the synthesized EOI tail. -/
theorem embedJpeg_truncated_synthesizes_eoi_witness :
    ∃ segs, splitJpeg jpegTruncated = .ok (jpegTruncated.take 2, segs, [255, 217])
      ∧ embedJpegAttestation jpegTruncated sampleSigned
          = .ok (jpegTruncated.take 2
              ++ (segs.filter (fun s => ¬ isArrXmpSegment s)).flatten
              ++ ((createArrApp1Segment sampleSigned).toOption.getD []) ++ [255, 217]) :=
  embedJpeg_truncated_synthesizes_eoi jpegTruncated sampleSigned
    ((createArrApp1Segment sampleSigned).toOption.getD [])
    (by decide) (by decide) (by rfl)

/-- A flatMap with nonempty images is at least as long as its input. -/
theorem length_le_flatMap (f : α → List β) (s : List α) (h : ∀ a, 1 ≤ (f a).length) :
    s.length ≤ (s.flatMap f).length := by
  induction s with
  | nil => simp
  | cons a t ih =>
      simp only [List.flatMap_cons, List.length_append, List.length_cons]
      have := h a
      omega

/-- UTF-8 encoding never shortens a string. -/
theorem length_le_utf8Encode (s : List Char) : s.length ≤ (utf8Encode s).length := by
  refine length_le_flatMap utf8Char s fun a => ?_
  unfold utf8Char
  dsimp only
  split_ifs <;> simp

/-- `replaceAllAux` with a replacement at least as long as the pattern
never shortens a string. -/
theorem length_le_replaceAllAux (pat rep : List Char) (hlen : pat.length ≤ rep.length) :
    ∀ (fuel : Nat) (s : List Char), s.length ≤ (replaceAllAux pat rep fuel s).length := by
  intro fuel
  induction fuel with
  | zero => intro s; cases s <;> simp [replaceAllAux]
  | succ f ih =>
      intro s
      cases s with
      | nil => simp [replaceAllAux]
      | cons c cs =>
          rw [replaceAllAux]
          split
          · rename_i hp
            have h2 : pat <+: (c :: cs) := by
              have h := hp.2
              rwa [List.isPrefixOf_iff_prefix] at h
            have h3 := h2.length_le
            have h4 := ih ((c :: cs).drop pat.length)
            simp only [List.length_append, List.length_drop, List.length_cons] at h3 h4 ⊢
            omega
          · have h4 := ih cs
            simp only [List.length_cons]
            omega

/-- `replaceAll` with a replacement at least as long as the pattern
never shortens a string. -/
theorem length_le_replaceAll (pat rep : List Char) (hlen : pat.length ≤ rep.length)
    (s : List Char) : s.length ≤ (replaceAll pat rep s).length :=
  length_le_replaceAllAux pat rep hlen s.length s

/-- XML escaping never shortens a string. -/
theorem length_le_escapeXml (s : List Char) : s.length ≤ (escapeXml s).length := by
  unfold escapeXml
  calc s.length
      ≤ (replaceAll (jk "&") (jk "&amp;") s).length :=
        length_le_replaceAll _ _ (by decide) s
    _ ≤ _ := length_le_replaceAll _ _ (by decide) _
    _ ≤ _ := length_le_replaceAll _ _ (by decide) _
    _ ≤ _ := length_le_replaceAll _ _ (by decide) _
    _ ≤ _ := length_le_replaceAll _ _ (by decide) _

/-- A JSON string literal is at least as long as its contents. -/
theorem length_le_jsonQuote (s : List Char) : s.length ≤ (jsonQuote s).length := by
  unfold jsonQuote
  have h := length_le_flatMap jsonEscapeChar s fun a => by
    unfold jsonEscapeChar
    split_ifs <;> simp
  simp only [List.length_cons, List.length_append]
  omega

/-- Rendering an object is at least as long as rendering its first
member's value. -/
theorem length_renderP_obj_head (d : Nat) (k : List Char) (v : Json)
    (ms : List (List Char × Json)) :
    (renderP (d + 1) v).length ≤ (renderP d (.obj ((k, v) :: ms))).length := by
  simp only [renderP, List.length_append, List.length_cons]
  omega

/-- The persisted form of `oversizedSigned` is longer than 66000
characters (it contains the quoted 66000-character `intent`). -/
theorem oversizedSigned_serialized_long :
    66000 ≤ (serializeSignedAttestation oversizedSigned).length := by
  have hq := length_le_jsonQuote (List.replicate 66000 'a')
  simp only [List.length_replicate] at hq
  have h1 : (renderP 2 (Json.str (List.replicate 66000 'a'))).length
      ≤ (renderP 1 (Json.obj [(jk "intent", .str (List.replicate 66000 'a')),
        (jk "version", .str (jk "arr/0.1")), (jk "id", .str (jk "t1")),
        (jk "created", .str (jk "c")), (jk "creator", .str (jk "me"))])).length :=
    length_renderP_obj_head 1 _ _ _
  have h2 := length_renderP_obj_head 0 (jk "attestation")
    (Json.obj [(jk "intent", .str (List.replicate 66000 'a')),
      (jk "version", .str (jk "arr/0.1")), (jk "id", .str (jk "t1")),
      (jk "created", .str (jk "c")), (jk "creator", .str (jk "me"))])
    [(jk "signature", .str (jk "ed25519:AA"))]
  have h3 : renderP 2 (Json.str (List.replicate 66000 'a'))
      = jsonQuote (List.replicate 66000 'a') := rfl
  rw [h3] at h1
  simp only [Nat.zero_add] at h2
  show 66000 ≤ (renderP 0 (Json.obj [(jk "attestation",
    Json.obj [(jk "intent", .str (List.replicate 66000 'a')),
      (jk "version", .str (jk "arr/0.1")), (jk "id", .str (jk "t1")),
      (jk "created", .str (jk "c")), (jk "creator", .str (jk "me"))]),
    (jk "signature", .str (jk "ed25519:AA"))]) ++ ['\n']).length
  rw [List.length_append]
  omega

/-- C9.  On any buffer that splits as a JPEG, a signed attestation
whose APP1 segment (2-byte length field + XMP identifier + XML packet)
would exceed the 16-bit length limit makes `embedJpegAttestation` fail
with the hard `xmp_too_large` error, producing no output buffer. -/
theorem embedJpeg_xmp_too_large (buffer : List Nat) (signed : Json)
    (r : List Nat × List (List Nat) × List Nat)
    (hsplit : splitJpeg buffer = .ok r)
    (hbig : (xmpIdentifier ++ utf8Encode (buildArrXmpXml signed)).length + 2 > 65535) :
    embedJpegAttestation buffer signed = .error .xmp_too_large := by
  unfold embedJpegAttestation
  rw [hsplit]
  obtain ⟨soi, segments, tail⟩ := r
  dsimp only [Except.bind, bind]
  have hc : createArrApp1Segment signed = .error .xmp_too_large := by
    unfold createArrApp1Segment
    dsimp only
    rw [if_pos hbig]
  rw [hc]

/-- Witness for C9: embedding the signed attestation with the
66000-character `intent` into the minimal JPEG fails with
`xmp_too_large`. -/
theorem embedJpeg_xmp_too_large_witness :
    embedJpegAttestation jpegMin oversizedSigned = .error .xmp_too_large :=
  embedJpeg_xmp_too_large jpegMin oversizedSigned ⟨[255, 216], [], [255, 217]⟩ (by rfl)
    (by
      have h1 := oversizedSigned_serialized_long
      have h2 := length_le_escapeXml (serializeSignedAttestation oversizedSigned)
      have h3 := length_le_utf8Encode (buildArrXmpXml oversizedSigned)
      have h4 : (escapeXml (serializeSignedAttestation oversizedSigned)).length
          ≤ (buildArrXmpXml oversizedSigned).length := by
        unfold buildArrXmpXml
        simp only [List.length_append]
        omega
      rw [List.length_append]
      omega)

/-- Every character's codepoint is below 0x110000. -/
theorem char_toNat_lt (c : Char) : c.toNat < 1114112 := by
  have h0 : c.toNat = c.val.toNat := rfl
  rcases c.valid with h | ⟨h1, h2⟩ <;> omega

theorem utf8Char_step (c : Char) (w : List Nat) :
    ∃ b bs, utf8Char c = b :: bs ∧ utf8DecodeStep b (bs ++ w) = (c, w) := by
  have hlt := char_toNat_lt c
  unfold utf8Char utf8DecodeStep
  dsimp only
  by_cases hc1 : c.toNat < 128
  · refine ⟨c.toNat, [], by simp [hc1], ?_⟩
    rw [List.nil_append, if_pos hc1, Char.ofNat_toNat]
  by_cases hc2 : c.toNat < 2048
  · refine ⟨192 + c.toNat / 64, [128 + c.toNat % 64], by simp [hc1, hc2], ?_⟩
    have e1 : ¬ (192 + c.toNat / 64 < 128) := by omega
    have e2 : 192 ≤ 192 + c.toNat / 64 ∧ 192 + c.toNat / 64 < 224 := by omega
    rw [List.cons_append, List.nil_append, if_neg e1, if_pos e2]
    dsimp only
    have ev : (192 + c.toNat / 64 - 192) * 64 + (128 + c.toNat % 64 - 128) = c.toNat := by omega
    rw [ev, Char.ofNat_toNat]
  by_cases hc3 : c.toNat < 65536
  · refine ⟨224 + c.toNat / 4096, [128 + c.toNat / 64 % 64, 128 + c.toNat % 64],
      by simp [hc1, hc2, hc3], ?_⟩
    have e1 : ¬ (224 + c.toNat / 4096 < 128) := by omega
    have e2 : ¬ (192 ≤ 224 + c.toNat / 4096 ∧ 224 + c.toNat / 4096 < 224) := by omega
    have e3 : 224 ≤ 224 + c.toNat / 4096 ∧ 224 + c.toNat / 4096 < 240 := by
      have : c.toNat / 4096 < 16 := by omega
      omega
    rw [List.cons_append, List.cons_append, List.nil_append, if_neg e1, if_neg e2, if_pos e3]
    dsimp only
    have hdd : c.toNat / 64 / 64 = c.toNat / 4096 := by rw [Nat.div_div_eq_div_mul]
    have ev : (224 + c.toNat / 4096 - 224) * 4096 + (128 + c.toNat / 64 % 64 - 128) * 64
        + (128 + c.toNat % 64 - 128) = c.toNat := by omega
    rw [ev, Char.ofNat_toNat]
  · refine ⟨240 + c.toNat / 262144,
      [128 + c.toNat / 4096 % 64, 128 + c.toNat / 64 % 64, 128 + c.toNat % 64],
      by simp [hc1, hc2, hc3], ?_⟩
    have e1 : ¬ (240 + c.toNat / 262144 < 128) := by omega
    have e2 : ¬ (192 ≤ 240 + c.toNat / 262144 ∧ 240 + c.toNat / 262144 < 224) := by omega
    have e3 : ¬ (224 ≤ 240 + c.toNat / 262144 ∧ 240 + c.toNat / 262144 < 240) := by omega
    have e4 : 240 ≤ 240 + c.toNat / 262144 ∧ 240 + c.toNat / 262144 < 248 := by
      have : c.toNat / 262144 < 8 := by omega
      omega
    rw [List.cons_append, List.cons_append, List.cons_append, List.nil_append,
      if_neg e1, if_neg e2, if_neg e3, if_pos e4]
    dsimp only
    have hd1 : c.toNat / 64 / 64 = c.toNat / 4096 := by rw [Nat.div_div_eq_div_mul]
    have hd2 : c.toNat / 4096 / 64 = c.toNat / 262144 := by rw [Nat.div_div_eq_div_mul]
    have ev : (240 + c.toNat / 262144 - 240) * 262144 + (128 + c.toNat / 4096 % 64 - 128) * 4096
        + (128 + c.toNat / 64 % 64 - 128) * 64 + (128 + c.toNat % 64 - 128) = c.toNat := by
      omega
    rw [ev, Char.ofNat_toNat]


theorem utf8DecodeAux_encode : ∀ (s : List Char) (fuel : Nat), s.length ≤ fuel →
    utf8DecodeAux fuel (utf8Encode s) = s := by
  intro s
  induction s with
  | nil => intro fuel h; cases fuel <;> rfl
  | cons c t ih =>
      intro fuel h
      have h1 : 1 ≤ fuel := le_trans (by simp) h
      obtain ⟨f, rfl⟩ : ∃ f, fuel = f + 1 := ⟨fuel - 1, by omega⟩
      obtain ⟨b, bs, hcb, hstep⟩ := utf8Char_step c (utf8Encode t)
      simp only [utf8Encode] at hstep
      show utf8DecodeAux (f + 1) ((c :: t).flatMap utf8Char) = c :: t
      rw [List.flatMap_cons, hcb, List.cons_append, utf8DecodeAux, hstep]
      dsimp only
      have ih2 := ih f (by simpa using h)
      simp only [utf8Encode] at ih2
      rw [ih2]

/-- UTF-8 decoding inverts UTF-8 encoding. -/
theorem utf8Decode_encode (s : List Char) : utf8Decode (utf8Encode s) = s := by
  unfold utf8Decode
  exact utf8DecodeAux_encode s (utf8Encode s).length (length_le_utf8Encode s)

theorem natCharsAux_acc : ∀ (fuel n : Nat) (acc : List Char),
    natCharsAux fuel n acc = natCharsAux fuel n [] ++ acc := by
  intro fuel
  induction fuel with
  | zero => intro n acc; rfl
  | succ f ih =>
      intro n acc
      rw [natCharsAux, natCharsAux]
      split
      · rfl
      · rw [ih (n / 10) (digitChar (n % 10) :: acc), ih (n / 10) [digitChar (n % 10)]]
        simp

/-- The digit writer ignores surplus fuel. -/
theorem natCharsAux_congr : ∀ (n fuel fuel2 : Nat) (acc : List Char), n < fuel → n < fuel2 →
    natCharsAux fuel n acc = natCharsAux fuel2 n acc := by
  intro n
  induction n using Nat.strong_induction_on with
  | _ n ih =>
      intro fuel fuel2 acc h1 h2
      obtain ⟨f, rfl⟩ : ∃ f, fuel = f + 1 := ⟨fuel - 1, by omega⟩
      obtain ⟨g, rfl⟩ : ∃ g, fuel2 = g + 1 := ⟨fuel2 - 1, by omega⟩
      rw [natCharsAux, natCharsAux]
      split
      · rfl
      · rename_i hge
        have hd : n / 10 < n := by omega
        rw [ih (n / 10) hd f (n / 10 + 1) _ (by omega) (by omega),
          ih (n / 10) hd g (n / 10 + 1) _ (by omega) (by omega)]

/-- One-step unfolding of `natChars`. -/
theorem natChars_unfold (n : Nat) :
    natChars n = if n < 10 then [digitChar n] else natChars (n / 10) ++ [digitChar (n % 10)] := by
  unfold natChars
  rw [natCharsAux]
  split
  · rfl
  · rw [natCharsAux_acc, natCharsAux_congr (n / 10) n (n / 10 + 1) [] (by omega) (by omega)]

/-- Digit strings are never empty. -/
theorem natChars_ne_nil (n : Nat) : natChars n ≠ [] := by
  rw [natChars_unfold]
  split
  · simp
  · simp

/-- Digit characters satisfy the digit test. -/
theorem isDigitChar_digitChar (d : Nat) (h : d < 10) : isDigitChar (digitChar d) = true := by
  interval_cases d <;> decide

/-- Codepoint of a digit character. -/
theorem digitChar_toNat (d : Nat) (h : d < 10) : (digitChar d).toNat = 48 + d := by
  interval_cases d <;> decide

/-- Every character of a digit string is a digit. -/
theorem natChars_all_digits (n : Nat) : ∀ c ∈ natChars n, isDigitChar c = true := by
  induction n using Nat.strong_induction_on with
  | _ n ih =>
      rw [natChars_unfold]
      split
      · rename_i h
        intro c hc
        simp at hc
        subst hc
        exact isDigitChar_digitChar n h
      · rename_i h
        intro c hc
        simp at hc
        rcases hc with hc | hc
        · exact ih (n / 10) (by omega) c hc
        · subst hc
          exact isDigitChar_digitChar (n % 10) (by omega)

/-- The head of a digit string is a digit character. -/
theorem natChars_head (n : Nat) : ∃ d, d < 10 ∧ ∀ w, ((natChars n ++ w).headD ' ') = digitChar d := by
  induction n using Nat.strong_induction_on with
  | _ n ih =>
      rw [natChars_unfold]
      split
      · exact ⟨n, by omega, fun w => rfl⟩
      · rename_i h
        obtain ⟨d, hd, hw⟩ := ih (n / 10) (by omega)
        refine ⟨d, hd, fun w => ?_⟩
        rw [List.append_assoc]
        exact hw _

/-- `takeDigits` splits an all-digit run from a non-digit continuation. -/
theorem takeDigits_split : ∀ (ds rest : List Char), (∀ c ∈ ds, isDigitChar c = true) →
    numDelim rest → takeDigits (ds ++ rest) = (ds, rest) := by
  intro ds
  induction ds with
  | nil =>
      intro rest _ hnd
      cases rest with
      | nil => rfl
      | cons c r =>
          rw [List.nil_append, takeDigits]
          rw [if_neg]
          intro hc
          exact hnd hc
  | cons c t ih =>
      intro rest hd hnd
      rw [List.cons_append, takeDigits, if_pos (hd c (by simp))]
      rw [ih rest (fun x hx => hd x (by simp [hx])) hnd]

/-- `digitsVal` recovers the number from its digit string. -/
theorem digitsVal_natChars (n : Nat) : digitsVal (natChars n) = n := by
  induction n using Nat.strong_induction_on with
  | _ n ih =>
      rw [natChars_unfold]
      split
      · rename_i h
        unfold digitsVal
        simp [digitChar_toNat n h]
      · rename_i h
        unfold digitsVal
        rw [List.foldl_append]
        have hrec := ih (n / 10) (by omega)
        unfold digitsVal at hrec
        rw [hrec]
        simp [digitChar_toNat (n % 10) (by omega)]
        omega

/-- `parseNumber` inverts `intChars` whenever the following text does
not extend the digit run. -/
theorem parseNumber_intChars (i : Int) (rest : List Char) (hnd : numDelim rest) :
    parseNumber (intChars i ++ rest) = some (.num i, rest) := by
  unfold intChars
  split
  · rename_i hneg
    rw [List.cons_append, parseNumber]
    dsimp only [List.headD, List.drop]
    rw [if_pos rfl]
    rw [takeDigits_split (natChars i.natAbs) rest (natChars_all_digits _) hnd]
    dsimp only
    rw [if_neg (by simp [natChars_ne_nil])]
    have : -((digitsVal (natChars i.natAbs) : Nat) : Int) = i := by
      rw [digitsVal_natChars]
      omega
    rw [this]
  · rename_i hpos
    obtain ⟨d, hd, hw⟩ := natChars_head i.toNat
    rw [parseNumber]
    rw [if_neg (by
      rw [hw rest]
      intro hcontra
      have := digitChar_toNat d hd
      have h45 : ('-').toNat = 45 := by decide
      rw [← hcontra] at h45
      omega)]
    rw [takeDigits_split (natChars i.toNat) rest (natChars_all_digits _) hnd]
    dsimp only
    rw [if_neg (by simp [natChars_ne_nil])]
    have : ((digitsVal (natChars i.toNat) : Nat) : Int) = i := by
      rw [digitsVal_natChars]
      omega
    rw [this]

/-- Skipping whitespace passes over a pure-whitespace prefix. -/
theorem skipWs_ws_append : ∀ (w x : List Char), (∀ c ∈ w, isWsChar c = true) →
    skipWs (w ++ x) = skipWs x := by
  intro w
  induction w with
  | nil => intro x _; rfl
  | cons c t ih =>
      intro x hw
      rw [List.cons_append, skipWs, if_pos (hw c (by simp))]
      exact ih x fun c2 hc2 => hw c2 (by simp [hc2])

/-- Skipping whitespace is the identity when the head is not
whitespace. -/
theorem skipWs_not_ws (s : List Char) (h : isWsChar (s.headD ' ') = false) :
    skipWs s = s := by
  cases s with
  | nil => rfl
  | cons c t =>
      rw [skipWs, if_neg]
      simp only [List.headD] at h
      simp [h]

/-- The indentation block is pure whitespace. -/
theorem ind_ws (d : Nat) : ∀ c ∈ ind d, isWsChar c = true := by
  intro c hc
  unfold ind at hc
  rw [List.eq_of_mem_replicate hc]
  rfl

/-- A cons-headed prefix test fails on a mismatched head. -/
theorem isPrefixOf_cons_ne (a c : Char) (as r : List Char) (h : (a == c) = false) :
    (a :: as).isPrefixOf (c :: r) = false := by
  simp [List.isPrefixOf, h]

/-- Hex digit characters evaluate back to their value. -/
theorem hexVal_hexChar (k : Nat) (h : k < 16) : hexVal (hexChar k) = some k := by
  interval_cases k <;> decide

/-- `parseStrBody` inverts the `JSON.stringify` string escaping. -/
theorem parseStrBody_escape : ∀ (s rest : List Char),
    parseStrBody (s.flatMap jsonEscapeChar ++ '"' :: rest) = some (s, rest) := by
  intro s
  induction s with
  | nil =>
      intro rest
      rw [List.flatMap_nil, List.nil_append, parseStrBody.eq_def]
      dsimp only
      rw [if_pos rfl]
  | cons c t ih =>
      intro rest
      rw [List.flatMap_cons, List.append_assoc]
      by_cases h1 : c = '"'
      · subst h1
        rw [show jsonEscapeChar ('"') = ['\\', '"'] from rfl,
          List.cons_append, List.cons_append, List.nil_append, parseStrBody.eq_def]
        dsimp only
        rw [if_neg (by decide), if_pos (rfl : ('\\' : Char) = '\\'),
          if_neg (by decide : ¬ ('"' : Char) = 'u')]
        rw [show unescapeChar '"' = some ('"') from rfl, ih rest]
        rfl
      by_cases h2 : c = '\\'
      · subst h2
        rw [show jsonEscapeChar ('\\') = ['\\', '\\'] from rfl,
          List.cons_append, List.cons_append, List.nil_append, parseStrBody.eq_def]
        dsimp only
        rw [if_neg (by decide), if_pos (rfl : ('\\' : Char) = '\\'),
          if_neg (by decide : ¬ ('\\' : Char) = 'u')]
        rw [show unescapeChar '\\' = some ('\\') from rfl, ih rest]
        rfl
      by_cases h3 : c = Char.ofNat 8
      · subst h3
        rw [show jsonEscapeChar (Char.ofNat 8) = ['\\', 'b'] from rfl,
          List.cons_append, List.cons_append, List.nil_append, parseStrBody.eq_def]
        dsimp only
        rw [if_neg (by decide), if_pos (rfl : ('\\' : Char) = '\\'),
          if_neg (by decide : ¬ ('b' : Char) = 'u')]
        rw [show unescapeChar 'b' = some (Char.ofNat 8) from rfl, ih rest]
        rfl
      by_cases h4 : c = Char.ofNat 9
      · subst h4
        rw [show jsonEscapeChar (Char.ofNat 9) = ['\\', 't'] from rfl,
          List.cons_append, List.cons_append, List.nil_append, parseStrBody.eq_def]
        dsimp only
        rw [if_neg (by decide), if_pos (rfl : ('\\' : Char) = '\\'),
          if_neg (by decide : ¬ ('t' : Char) = 'u')]
        rw [show unescapeChar 't' = some (Char.ofNat 9) from rfl, ih rest]
        rfl
      by_cases h5 : c = Char.ofNat 10
      · subst h5
        rw [show jsonEscapeChar (Char.ofNat 10) = ['\\', 'n'] from rfl,
          List.cons_append, List.cons_append, List.nil_append, parseStrBody.eq_def]
        dsimp only
        rw [if_neg (by decide), if_pos (rfl : ('\\' : Char) = '\\'),
          if_neg (by decide : ¬ ('n' : Char) = 'u')]
        rw [show unescapeChar 'n' = some (Char.ofNat 10) from rfl, ih rest]
        rfl
      by_cases h6 : c = Char.ofNat 12
      · subst h6
        rw [show jsonEscapeChar (Char.ofNat 12) = ['\\', 'f'] from rfl,
          List.cons_append, List.cons_append, List.nil_append, parseStrBody.eq_def]
        dsimp only
        rw [if_neg (by decide), if_pos (rfl : ('\\' : Char) = '\\'),
          if_neg (by decide : ¬ ('f' : Char) = 'u')]
        rw [show unescapeChar 'f' = some (Char.ofNat 12) from rfl, ih rest]
        rfl
      by_cases h7 : c = Char.ofNat 13
      · subst h7
        rw [show jsonEscapeChar (Char.ofNat 13) = ['\\', 'r'] from rfl,
          List.cons_append, List.cons_append, List.nil_append, parseStrBody.eq_def]
        dsimp only
        rw [if_neg (by decide), if_pos (rfl : ('\\' : Char) = '\\'),
          if_neg (by decide : ¬ ('r' : Char) = 'u')]
        rw [show unescapeChar 'r' = some (Char.ofNat 13) from rfl, ih rest]
        rfl
      by_cases h8 : c.toNat < 32
      · rw [show jsonEscapeChar c
      = ['\\', 'u', '0', '0', hexChar (c.toNat / 16), hexChar (c.toNat % 16)] from by
        unfold jsonEscapeChar
        rw [if_neg h1, if_neg h2, if_neg h3, if_neg h4, if_neg h5, if_neg h6,
          if_neg h7, if_pos h8]]
        rw [List.cons_append, List.cons_append, List.cons_append, List.cons_append,
    List.cons_append, List.cons_append, List.nil_append, parseStrBody.eq_def]
        dsimp only
        rw [if_neg (by decide), if_pos (rfl : ('\\' : Char) = '\\'),
    if_pos (rfl : ('u' : Char) = 'u')]
        rw [show hexVal '0' = some 0 from rfl,
    hexVal_hexChar (c.toNat / 16) (by omega), hexVal_hexChar (c.toNat % 16) (by omega), ih rest]
        have hv : ((0 * 16 + 0) * 16 + c.toNat / 16) * 16 + c.toNat % 16 = c.toNat := by omega
        dsimp only [bind, Option.bind]
        rw [hv, Char.ofNat_toNat]
      · rw [show jsonEscapeChar c = [c] from by
      unfold jsonEscapeChar
      rw [if_neg h1, if_neg h2, if_neg h3, if_neg h4, if_neg h5, if_neg h6,
        if_neg h7, if_neg h8]]
        rw [List.cons_append, List.nil_append, parseStrBody.eq_def]
        dsimp only
        rw [if_neg h1, if_neg h2, ih rest]
        rfl

/-- Every JSON value has positive node count. -/
theorem jsize_pos (v : Json) : 1 ≤ jsize v := by
  cases v <;> simp [jsize]

/-- Assigning a fresh key appends. -/
theorem setMember_append (k : List Char) (v : Json) :
    ∀ (acc : List (List Char × Json)), (∀ m ∈ acc, m.1 ≠ k) →
    setMember k v acc = acc ++ [(k, v)] := by
  intro acc
  induction acc with
  | nil => intro _; rfl
  | cons m ms ih =>
      intro h
      rw [setMember, if_neg (h m (by simp)), ih fun m2 hm2 => h m2 (by simp [hm2])]
      rfl

/-- Folding member assignment over key-distinct members appends them
in order. -/
theorem foldl_setMember : ∀ (ms acc : List (List Char × Json)),
    (∀ m ∈ ms, ∀ a ∈ acc, a.1 ≠ m.1) → keysUnique ms = true →
    List.foldl (fun acc m => setMember m.1 m.2 acc) acc ms = acc ++ ms := by
  intro ms
  induction ms with
  | nil => intro acc _ _; simp
  | cons m ms ih =>
      intro acc hdisj hk
      rw [List.foldl_cons, setMember_append m.1 m.2 acc (fun a ha => hdisj m (by simp) a ha)]
      rw [keysUnique] at hk
      simp only [Bool.and_eq_true] at hk
      rw [ih (acc ++ [m]) ?hd hk.2]
      · simp
      · intro m2 hm2 a ha
        rcases List.mem_append.mp ha with ha2 | ha2
        · exact hdisj m2 (by simp [hm2]) a ha2
        · have := List.all_eq_true.mp hk.1 m2 hm2
          simp only [List.mem_singleton] at ha2
          subst ha2
          intro he
          rw [he] at this
          simp at this

/-- `JSON.parse` object building is the identity on key-distinct
member lists. -/
theorem buildObj_keysUnique (ms : List (List Char × Json)) (h : keysUnique ms = true) :
    buildObj ms = ms := by
  unfold buildObj
  rw [foldl_setMember ms [] (by simp) h]
  rfl

/-- Character inequality transfers to the boolean equality test. -/
theorem char_beq_false (a b : Char) (h : ¬ a = b) : (a == b) = false := by
  cases hb : a == b
  · rfl
  · exact absurd (eq_of_beq hb) h

/-- The characters a rendered integer can start with are inert for the
parser dispatch. -/
theorem intChars_head_cases (i : Int) : ∃ c tl, intChars i = c :: tl
    ∧ isWsChar c = false ∧ ('n' == c) = false ∧ ('t' == c) = false ∧ ('f' == c) = false
    ∧ c ≠ '"' ∧ c ≠ '[' ∧ c ≠ '\x7b' ∧ c ≠ ']' ∧ c ≠ '\x7d' ∧ c ≠ ',' ∧ c ≠ ':' := by
  have hd : ∀ d, d < 10 → isWsChar (digitChar d) = false ∧ ('n' == digitChar d) = false
      ∧ ('t' == digitChar d) = false ∧ ('f' == digitChar d) = false
      ∧ digitChar d ≠ '"' ∧ digitChar d ≠ '[' ∧ digitChar d ≠ '\x7b' ∧ digitChar d ≠ ']'
      ∧ digitChar d ≠ '\x7d' ∧ digitChar d ≠ ',' ∧ digitChar d ≠ ':' := by
    intro d h
    interval_cases d <;> exact ⟨by decide, by decide, by decide, by decide, by decide,
      by decide, by decide, by decide, by decide, by decide, by decide⟩
  unfold intChars
  split
  · exact ⟨'-', natChars i.natAbs, rfl, by decide, by decide, by decide, by decide,
      by decide, by decide, by decide, by decide, by decide, by decide, by decide⟩
  · obtain ⟨d, hdlt, hw⟩ := natChars_head i.toNat
    cases hnc : natChars i.toNat with
    | nil => exact absurd hnc (natChars_ne_nil _)
    | cons c tl =>
        have hc : c = digitChar d := by
          have := hw []
          rw [hnc] at this
          simpa using this
        subst hc
        obtain ⟨p1, p2, p3, p4, p5, p6, p7, p8, p9, p10, p11⟩ := hd d hdlt
        exact ⟨digitChar d, tl, rfl, p1, p2, p3, p4, p5, p6, p7, p8, p9, p10, p11⟩

/-- Every rendered JSON value starts with a character that is not
whitespace and not a closing or separator character. -/
theorem renderP_head (d : Nat) (v : Json) : ∃ c tl, renderP d v = c :: tl
    ∧ isWsChar c = false ∧ c ≠ ']' ∧ c ≠ '\x7d' ∧ c ≠ ',' ∧ c ≠ ':' := by
  cases v with
  | null => exact ⟨'n', _, rfl, by decide, by decide, by decide, by decide, by decide⟩
  | bool b =>
      cases b
      · exact ⟨'f', _, rfl, by decide, by decide, by decide, by decide, by decide⟩
      · exact ⟨'t', _, rfl, by decide, by decide, by decide, by decide, by decide⟩
  | num i =>
      obtain ⟨c, tl, he, p1, _, _, _, _, _, _, p8, p9, p10, p11⟩ := intChars_head_cases i
      exact ⟨c, tl, he, p1, p8, p9, p10, p11⟩
  | str s => exact ⟨'"', _, rfl, by decide, by decide, by decide, by decide, by decide⟩
  | arr xs =>
      cases xs
      · exact ⟨'[', _, rfl, by decide, by decide, by decide, by decide, by decide⟩
      · exact ⟨'[', _, rfl, by decide, by decide, by decide, by decide, by decide⟩
  | obj ms =>
      cases ms
      · exact ⟨'\x7b', _, rfl, by decide, by decide, by decide, by decide, by decide⟩
      · exact ⟨'\x7b', _, rfl, by decide, by decide, by decide, by decide, by decide⟩

/-- Skipping whitespace leaves a rendered value alone. -/
theorem skipWs_render (d : Nat) (v : Json) (w : List Char) :
    skipWs (renderP d v ++ w) = renderP d v ++ w := by
  obtain ⟨c, tl, he, hws, _, _, _, _⟩ := renderP_head d v
  rw [he, List.cons_append, skipWs, if_neg (by simp [hws])]

/-- The `null` literal test fails on a mismatched head. -/
theorem notPrefix_null (c : Char) (tl : List Char) (h : ('n' == c) = false) :
    (jk "null").isPrefixOf (c :: tl) = false := by
  rw [show jk "null" = 'n' :: ('u' :: 'l' :: 'l' :: []) from rfl]
  exact isPrefixOf_cons_ne _ _ _ _ h

/-- The `true` literal test fails on a mismatched head. -/
theorem notPrefix_true (c : Char) (tl : List Char) (h : ('t' == c) = false) :
    (jk "true").isPrefixOf (c :: tl) = false := by
  rw [show jk "true" = 't' :: ('r' :: 'u' :: 'e' :: []) from rfl]
  exact isPrefixOf_cons_ne _ _ _ _ h

/-- The `false` literal test fails on a mismatched head. -/
theorem notPrefix_false (c : Char) (tl : List Char) (h : ('f' == c) = false) :
    (jk "false").isPrefixOf (c :: tl) = false := by
  rw [show jk "false" = 'f' :: ('a' :: 'l' :: 's' :: 'e' :: []) from rfl]
  exact isPrefixOf_cons_ne _ _ _ _ h

/-- Right-nested shape of a rendered non-empty array. -/
theorem renderP_arr_cons (d : Nat) (x : Json) (xs : List Json) (w : List Char) :
    renderP d (.arr (x :: xs)) ++ w
      = '[' :: ('\n' :: (ind (d + 1) ++ (renderP (d + 1) x ++ (renderPItems (d + 1) xs
          ++ ('\n' :: (ind d ++ (']' :: w))))))) := by
  simp [renderP, List.append_assoc]

/-- Right-nested shape of a rendered non-empty object. -/
theorem renderP_obj_cons (d : Nat) (m : List Char × Json) (ms : List (List Char × Json))
    (w : List Char) :
    renderP d (.obj (m :: ms)) ++ w
      = '\x7b' :: ('\n' :: (ind (d + 1) ++ ('"' :: (m.1.flatMap jsonEscapeChar
          ++ ('"' :: (':' :: (' ' :: (renderP (d + 1) m.2 ++ (renderPMembers (d + 1) ms
          ++ ('\n' :: (ind d ++ ('\x7d' :: w)))))))))))) := by
  simp [renderP, jsonQuote, List.append_assoc]

/-- Right-nested shape of a rendered string. -/
theorem renderP_str_append (d : Nat) (s : List Char) (w : List Char) :
    renderP d (.str s) ++ w = '"' :: (s.flatMap jsonEscapeChar ++ ('"' :: w)) := by
  simp [renderP, jsonQuote, List.append_assoc]

/-- Right-nested shape of the remaining-items renderer. -/
theorem renderPItems_cons_append (d : Nat) (x : Json) (xs : List Json) (w : List Char) :
    renderPItems d (x :: xs) ++ w
      = ',' :: ('\n' :: (ind d ++ (renderP d x ++ (renderPItems d xs ++ w)))) := by
  simp [renderPItems, List.append_assoc]

/-- Right-nested shape of the remaining-members renderer. -/
theorem renderPMembers_cons_append (d : Nat) (m : List Char × Json)
    (ms : List (List Char × Json)) (w : List Char) :
    renderPMembers d (m :: ms) ++ w
      = ',' :: ('\n' :: (ind d ++ ('"' :: (m.1.flatMap jsonEscapeChar
          ++ ('"' :: (':' :: (' ' :: (renderP d m.2 ++ (renderPMembers d ms ++ w))))))))) := by
  simp [renderPMembers, jsonQuote, List.append_assoc]

/-- A list is a `isPrefixOf` any extension of itself. -/
theorem isPrefixOf_append_self (l r : List Char) : l.isPrefixOf (l ++ r) = true := by
  rw [List.isPrefixOf_iff_prefix]
  exact List.prefix_append l r

/-- `skipWs` stops at a non-whitespace head. -/
theorem skipWs_cons_nonws (c : Char) (l : List Char) (h : isWsChar c = false) :
    skipWs (c :: l) = c :: l := by
  rw [skipWs, if_neg (by simp [h])]

/-- The separator-and-indent run is all whitespace. -/
theorem ws_cons_ind (d : Nat) : ∀ c ∈ ('\n' :: ind d), isWsChar c = true := by
  intro c hc
  rcases List.mem_cons.mp hc with rfl | hc2
  · rfl
  · exact ind_ws d c hc2

/-- A single space is all whitespace. -/
theorem ws_single_space : ∀ c ∈ ([' '] : List Char), isWsChar c = true := by
  intro c hc
  rcases List.mem_singleton.mp hc with rfl
  rfl

/-- `skipWs` runs through a newline-plus-indent separator. -/
theorem skipWs_nl_ind_append (d : Nat) (l : List Char) :
    skipWs ('\n' :: (ind d ++ l)) = skipWs l := by
  rw [show '\n' :: (ind d ++ l) = ('\n' :: ind d) ++ l from rfl,
    skipWs_ws_append _ _ (ws_cons_ind d)]

/-- `skipWs` runs through a separator and stops on a non-whitespace head. -/
theorem skipWs_nl_ind (d : Nat) (c : Char) (l : List Char) (h : isWsChar c = false) :
    skipWs ('\n' :: (ind d ++ (c :: l))) = c :: l := by
  rw [skipWs_nl_ind_append d (c :: l), skipWs_cons_nonws c l h]

/-- Joint statement of the render/parse round trip at a fixed fuel:
`parseVal` inverts `renderP`, `parseItems` inverts `renderPItems` and
`parseFields` inverts `renderPMembers`, each after an arbitrary
whitespace prefix and before a non-digit continuation. -/
theorem rt_main : ∀ fuel : Nat,
    (∀ (v : Json) (d : Nat) (pre rest : List Char),
      (∀ c ∈ pre, isWsChar c = true) → jsize v ≤ fuel → numDelim rest → jsonWF v = true →
      parseVal fuel (pre ++ (renderP d v ++ rest)) = some (v, rest))
  ∧ (∀ (x : Json) (xs : List Json) (d dp : Nat) (pre rest : List Char),
      (∀ c ∈ pre, isWsChar c = true) → 1 + jsize x + jsizeItems xs ≤ fuel →
      jsonWF x = true → jsonWFItems xs = true →
      parseItems fuel (pre ++ (renderP d x ++ (renderPItems d xs
        ++ ('\n' :: (ind dp ++ (']' :: rest))))))
      = some (x :: xs, rest))
  ∧ (∀ (k : List Char) (v : Json) (ms : List (List Char × Json)) (d dp : Nat)
      (pre rest : List Char),
      (∀ c ∈ pre, isWsChar c = true) → 1 + jsize v + jsizeFields ms ≤ fuel →
      jsonWF v = true → jsonWFFields ms = true →
      parseFields fuel (pre ++ ('"' :: (k.flatMap jsonEscapeChar
        ++ ('"' :: (':' :: (' ' :: (renderP d v ++ (renderPMembers d ms
        ++ ('\n' :: (ind dp ++ ('\x7d' :: rest)))))))))))
      = some ((k, v) :: ms, rest)) := by
  intro fuel
  induction fuel with
  | zero =>
      refine ⟨?_, ?_, ?_⟩
      · intro v d pre rest hpre hfuel hrest hwf
        exact absurd hfuel (by have := jsize_pos v; omega)
      · intro x xs d dp pre rest hpre hfuel hwx hwxs
        exact absurd hfuel (by omega)
      · intro k v ms d dp pre rest hpre hfuel hwv hwms
        exact absurd hfuel (by omega)
  | succ f ih =>
      obtain ⟨ihv, ihi, ihf⟩ := ih
      refine ⟨?_, ?_, ?_⟩
      · intro v d pre rest hpre hfuel hrest hwf
        rw [parseVal]
        dsimp only
        rw [skipWs_ws_append pre _ hpre, skipWs_render d v rest]
        cases v with
        | null =>
            rw [show renderP d .null ++ rest = 'n' :: ('u' :: ('l' :: ('l' :: rest))) from rfl]
            rw [if_pos (show (jk "null").isPrefixOf ('n' :: ('u' :: ('l' :: ('l' :: rest))))
                = true
              from isPrefixOf_append_self (jk "null") rest)]
            rfl
        | bool b =>
            cases b with
            | true =>
                rw [show renderP d (.bool true) ++ rest = 't' :: ('r' :: ('u' :: ('e' :: rest)))
                  from rfl]
                rw [if_neg (by simp [notPrefix_null 't' _ (by decide)])]
                rw [if_pos (show (jk "true").isPrefixOf ('t' :: ('r' :: ('u' :: ('e' :: rest))))
                    = true
                  from isPrefixOf_append_self (jk "true") rest)]
                rfl
            | false =>
                rw [show renderP d (.bool false) ++ rest
                  = 'f' :: ('a' :: ('l' :: ('s' :: ('e' :: rest)))) from rfl]
                rw [if_neg (by simp [notPrefix_null 'f' _ (by decide)])]
                rw [if_neg (by simp [notPrefix_true 'f' _ (by decide)])]
                rw [if_pos (show (jk "false").isPrefixOf
                    ('f' :: ('a' :: ('l' :: ('s' :: ('e' :: rest))))) = true
                  from isPrefixOf_append_self (jk "false") rest)]
                rfl
        | num i =>
            obtain ⟨c, tl, he, _, p2, p3, p4, p5, p6, p7, _, _, _, _⟩ := intChars_head_cases i
            rw [show renderP d (.num i) ++ rest = intChars i ++ rest from rfl, he,
              List.cons_append]
            rw [if_neg (by simp [notPrefix_null c _ p2])]
            rw [if_neg (by simp [notPrefix_true c _ p3])]
            rw [if_neg (by simp [notPrefix_false c _ p4])]
            dsimp only [List.headD]
            rw [if_neg p5, if_neg p6, if_neg p7]
            rw [← List.cons_append, ← he]
            exact parseNumber_intChars i rest hrest
        | str s =>
            rw [renderP_str_append d s rest]
            rw [if_neg (by simp [notPrefix_null '"' _ (by decide)])]
            rw [if_neg (by simp [notPrefix_true '"' _ (by decide)])]
            rw [if_neg (by simp [notPrefix_false '"' _ (by decide)])]
            dsimp only [List.headD]
            rw [if_pos rfl]
            rw [List.drop_one, List.tail_cons, parseStrBody_escape s rest]
            rfl
        | arr xs =>
            cases xs with
            | nil =>
                rw [show renderP d (.arr []) ++ rest = '[' :: (']' :: rest) from rfl]
                rw [if_neg (by simp [notPrefix_null '[' _ (by decide)])]
                rw [if_neg (by simp [notPrefix_true '[' _ (by decide)])]
                rw [if_neg (by simp [notPrefix_false '[' _ (by decide)])]
                dsimp only [List.headD]
                rw [if_neg (by decide), if_pos rfl]
                rw [List.drop_one, List.tail_cons, skipWs_cons_nonws ']' rest (by decide)]
                dsimp only [List.headD]
                rw [if_pos rfl]
                rfl
            | cons x xs2 =>
                rw [renderP_arr_cons d x xs2 rest]
                rw [if_neg (by simp [notPrefix_null '[' _ (by decide)])]
                rw [if_neg (by simp [notPrefix_true '[' _ (by decide)])]
                rw [if_neg (by simp [notPrefix_false '[' _ (by decide)])]
                dsimp only [List.headD]
                rw [if_neg (by decide), if_pos rfl]
                rw [List.drop_one, List.tail_cons, skipWs_nl_ind_append (d + 1), skipWs_render]
                obtain ⟨c, tl, he, _, q2, _, _, _⟩ := renderP_head (d + 1) x
                rw [if_neg (by rw [he, List.cons_append]; simpa using q2)]
                simp only [jsize, jsizeItems] at hfuel
                simp only [jsonWF, jsonWFItems, Bool.and_eq_true] at hwf
                have hit := ihi x xs2 (d + 1) d [] rest (by simp) (by omega) hwf.1 hwf.2
                rw [List.nil_append] at hit
                rw [hit]
                rfl
        | obj ms =>
            cases ms with
            | nil =>
                rw [show renderP d (.obj []) ++ rest = '\x7b' :: ('\x7d' :: rest) from rfl]
                rw [if_neg (by simp [notPrefix_null '\x7b' _ (by decide)])]
                rw [if_neg (by simp [notPrefix_true '\x7b' _ (by decide)])]
                rw [if_neg (by simp [notPrefix_false '\x7b' _ (by decide)])]
                dsimp only [List.headD]
                rw [if_neg (by decide), if_neg (by decide), if_pos rfl]
                rw [List.drop_one, List.tail_cons, skipWs_cons_nonws '\x7d' rest (by decide)]
                dsimp only [List.headD]
                rw [if_pos rfl]
                rfl
            | cons m ms2 =>
                rw [renderP_obj_cons d m ms2 rest]
                rw [if_neg (by simp [notPrefix_null '\x7b' _ (by decide)])]
                rw [if_neg (by simp [notPrefix_true '\x7b' _ (by decide)])]
                rw [if_neg (by simp [notPrefix_false '\x7b' _ (by decide)])]
                dsimp only [List.headD]
                rw [if_neg (by decide), if_neg (by decide), if_pos rfl]
                rw [List.drop_one, List.tail_cons, skipWs_nl_ind (d + 1) '"' _ (by decide)]
                dsimp only [List.headD]
                rw [if_neg (by decide)]
                simp only [jsize, jsizeFields] at hfuel
                simp only [jsonWF, jsonWFFields, Bool.and_eq_true] at hwf
                have hfs := ihf m.1 m.2 ms2 (d + 1) d [] rest (by simp) (by omega)
                  hwf.2.1 hwf.2.2
                rw [List.nil_append] at hfs
                rw [hfs]
                show some (Json.obj (buildObj ((m.1, m.2) :: ms2)), rest)
                  = some (Json.obj (m :: ms2), rest)
                rw [show ((m.1, m.2) : List Char × Json) = m from rfl]
                rw [buildObj_keysUnique (m :: ms2) hwf.1]
      · intro x xs d dp pre rest hpre hfuel hwx hwxs
        rw [parseItems]
        have hnd : numDelim (renderPItems d xs ++ ('\n' :: (ind dp ++ (']' :: rest)))) := by
          cases xs with
          | nil =>
              rw [renderPItems, List.nil_append]
              intro h
              simp [isDigitChar] at h
          | cons x2 xs2 =>
              rw [renderPItems_cons_append]
              intro h
              simp [isDigitChar] at h
        rw [ihv x d pre _ hpre (by omega) hnd hwx]
        dsimp only [bind, Option.bind]
        cases xs with
        | nil =>
            rw [renderPItems, List.nil_append, skipWs_nl_ind dp ']' rest (by decide)]
            dsimp only [List.headD]
            rw [if_neg (by decide), if_pos rfl]
            rfl
        | cons x2 xs2 =>
            rw [renderPItems_cons_append, skipWs_cons_nonws ',' _ (by decide)]
            dsimp only [List.headD]
            rw [if_pos rfl]
            rw [List.drop_one, List.tail_cons]
            simp only [jsizeItems] at hfuel
            simp only [jsonWFItems, Bool.and_eq_true] at hwxs
            have hrec := ihi x2 xs2 d dp ('\n' :: ind d) rest (ws_cons_ind d)
              (by have := jsize_pos x; omega) hwxs.1 hwxs.2
            rw [List.cons_append] at hrec
            rw [hrec]
      · intro k v ms d dp pre rest hpre hfuel hwv hwms
        rw [parseFields]
        dsimp only
        rw [skipWs_ws_append pre _ hpre, skipWs_cons_nonws '"' _ (by decide)]
        dsimp only [List.headD]
        rw [if_pos rfl]
        rw [List.drop_one, List.tail_cons, parseStrBody_escape k _]
        dsimp only [bind, Option.bind]
        rw [skipWs_cons_nonws ':' _ (by decide)]
        dsimp only [List.headD]
        rw [if_pos rfl]
        rw [List.drop_one, List.tail_cons]
        have hnd : numDelim (renderPMembers d ms
            ++ ('\n' :: (ind dp ++ ('\x7d' :: rest)))) := by
          cases ms with
          | nil =>
              rw [renderPMembers, List.nil_append]
              intro h
              simp [isDigitChar] at h
          | cons m2 ms2 =>
              rw [renderPMembers_cons_append]
              intro h
              simp [isDigitChar] at h
        have hval := ihv v d [' ']
          (renderPMembers d ms ++ ('\n' :: (ind dp ++ ('\x7d' :: rest))))
          ws_single_space (by omega) hnd hwv
        rw [List.singleton_append] at hval
        rw [hval]
        dsimp only [bind, Option.bind]
        cases ms with
        | nil =>
            rw [renderPMembers, List.nil_append, skipWs_nl_ind dp '\x7d' rest (by decide)]
            dsimp only [List.headD]
            rw [if_neg (by decide), if_pos rfl]
            rfl
        | cons m2 ms2 =>
            rw [renderPMembers_cons_append, skipWs_cons_nonws ',' _ (by decide)]
            dsimp only [List.headD]
            rw [if_pos rfl]
            rw [List.drop_one, List.tail_cons]
            simp only [jsizeFields] at hfuel
            simp only [jsonWFFields, Bool.and_eq_true] at hwms
            have hrec := ihf m2.1 m2.2 ms2 d dp ('\n' :: ind d) rest (ws_cons_ind d)
              (by have := jsize_pos v; omega) hwms.1 hwms.2
            rw [List.cons_append] at hrec
            rw [hrec]

/-- The node count of a value is at most the length of its rendering
(so the `JSON.parse` fuel, the input length plus one, always
suffices). -/
theorem jsize_le_len_main : ∀ n : Nat,
    (∀ (v : Json) (d : Nat), jsize v ≤ n → jsize v ≤ (renderP d v).length)
  ∧ (∀ (xs : List Json) (d : Nat), jsizeItems xs ≤ n →
      jsizeItems xs ≤ (renderPItems d xs).length)
  ∧ (∀ (ms : List (List Char × Json)) (d : Nat), jsizeFields ms ≤ n →
      jsizeFields ms ≤ (renderPMembers d ms).length) := by
  intro n
  induction n with
  | zero =>
      refine ⟨?_, ?_, ?_⟩
      · intro v d h
        exact absurd h (by have := jsize_pos v; omega)
      · intro xs d h
        omega
      · intro ms d h
        omega
  | succ f ih =>
      obtain ⟨ihv, ihi, ihf⟩ := ih
      refine ⟨?_, ?_, ?_⟩
      · intro v d h
        cases v with
        | null => simp [jsize, renderP, jk]
        | bool b => cases b <;> simp [jsize, renderP, jk]
        | num i =>
            obtain ⟨c, tl, he, _⟩ := intChars_head_cases i
            rw [show renderP d (.num i) = intChars i from rfl, he]
            simp [jsize]
        | str s =>
            rw [show renderP d (.str s) = jsonQuote s from rfl]
            simp [jsize, jsonQuote]
        | arr xs =>
            cases xs with
            | nil => simp [jsize, jsizeItems, renderP]
            | cons x xs2 =>
                simp only [jsize, jsizeItems] at h
                have e1 := ihv x (d + 1) (by omega)
                have e2 := ihi xs2 (d + 1) (by omega)
                simp only [jsize, jsizeItems, renderP, List.length_append, List.length_cons]
                omega
        | obj ms =>
            cases ms with
            | nil => simp [jsize, jsizeFields, renderP]
            | cons m ms2 =>
                simp only [jsize, jsizeFields] at h
                have e1 := ihv m.2 (d + 1) (by omega)
                have e2 := ihf ms2 (d + 1) (by omega)
                simp only [jsize, jsizeFields, renderP, jsonQuote, List.length_append,
                  List.length_cons]
                omega
      · intro xs d h
        cases xs with
        | nil => simp [jsizeItems, renderPItems]
        | cons x xs2 =>
            simp only [jsizeItems] at h
            have e1 := ihv x d (by omega)
            have e2 := ihi xs2 d (by omega)
            simp only [jsizeItems, renderPItems, List.length_append, List.length_cons]
            omega
      · intro ms d h
        cases ms with
        | nil => simp [jsizeFields, renderPMembers]
        | cons m ms2 =>
            simp only [jsizeFields] at h
            have e1 := ihv m.2 d (by omega)
            have e2 := ihf ms2 d (by omega)
            simp only [jsizeFields, renderPMembers, jsonQuote, List.length_append,
              List.length_cons]
            omega

/-- Whitespace runs vanish under `skipWs`. -/
theorem skipWs_all_ws (w : List Char) (hw : ∀ c ∈ w, isWsChar c = true) :
    skipWs w = [] := by
  have := skipWs_ws_append w [] hw
  rw [List.append_nil] at this
  rw [this]
  rfl

/-- `JSON.parse` inverts the pretty renderer followed by any
whitespace tail. -/
theorem parseJson_render (v : Json) (w : List Char) (hwf : jsonWF v = true)
    (hw : ∀ c ∈ w, isWsChar c = true) :
    parseJson (renderP 0 v ++ w) = some v := by
  unfold parseJson
  have hlen : jsize v ≤ (renderP 0 v ++ w).length + 1 := by
    have h1 := (jsize_le_len_main (jsize v)).1 v 0 le_rfl
    rw [List.length_append]
    omega
  have hnd : numDelim w := by
    intro h
    cases w with
    | nil => simp [isDigitChar] at h
    | cons c cs =>
        have hc := hw c (by simp)
        simp only [List.headD] at h
        simp only [isWsChar, Bool.or_eq_true, decide_eq_true_eq] at hc
        rcases hc with ((rfl | rfl) | rfl) | rfl <;> simp [isDigitChar] at h
  have h := (rt_main ((renderP 0 v ++ w).length + 1)).1 v 0 [] w (by simp) hlen hnd hwf
  rw [List.nil_append] at h
  rw [h]
  dsimp only
  rw [if_pos (skipWs_all_ws w hw)]

/-- The persisted form parses back, structural check included. -/
theorem parseSigned_serialize (signed : Json) (hwf : jsonWF signed = true)
    (hsig : isSignedAttestation signed = true) :
    parseSignedAttestationJson (serializeSignedAttestation signed) = .ok signed := by
  unfold parseSignedAttestationJson serializeSignedAttestation
  rw [parseJson_render signed ['\n'] hwf (by intro c hc; simp at hc; subst hc; rfl)]
  dsimp only
  rw [if_pos hsig]

/-- The persisted form with the trailing newline trimmed also parses
back. -/
theorem parseSigned_render (signed : Json) (hwf : jsonWF signed = true)
    (hsig : isSignedAttestation signed = true) :
    parseSignedAttestationJson (renderP 0 signed) = .ok signed := by
  unfold parseSignedAttestationJson
  have h := parseJson_render signed [] hwf (by intro c hc; simp at hc)
  rw [List.append_nil] at h
  rw [h]
  dsimp only
  rw [if_pos hsig]

/-- `getD` after a length-aligned append. -/
theorem getD_append_len_add : ∀ (P X : List Nat) (i d : Nat),
    (P ++ X).getD (P.length + i) d = X.getD i d := by
  intro P
  induction P with
  | nil => intro X i d; simp
  | cons p P' ih =>
      intro X i d
      rw [List.cons_append, show (p :: P').length + i = (P'.length + i) + 1 from by
        simp [List.length_cons]; omega]
      rw [List.getD_cons_succ, ih]

/-- A 32-bit big-endian write reads back. -/
theorem readBE32_be32 (n : Nat) (rest : List Nat) (h : n < 4294967296) :
    readBE32 (be32 n ++ rest) 0 = n := by
  show n / 16777216 % 256 * 16777216 + n / 65536 % 256 * 65536
    + n / 256 % 256 * 256 + n % 256 = n
  omega

/-- A 16-bit big-endian write reads back. -/
theorem readBE16_be16 (n : Nat) (rest : List Nat) (h : n < 65536) :
    readBE16 (be16 n ++ rest) 0 = n := by
  show n / 256 % 256 * 256 + n % 256 = n
  omega

/-- `indexOf(0x00)` lands on the zero after a zero-free prefix, for
any starting accumulator. -/
theorem findIdxZero_nonzero_prefix : ∀ (P : List Nat), (∀ b ∈ P, ¬ b = 0) →
    ∀ (B : List Nat) (i : Nat), (P ++ 0 :: B).findIdx? (· = 0) i = some (P.length + i) := by
  intro P
  induction P with
  | nil =>
      intro _ B i
      simp [List.findIdx?_cons]
  | cons p P' ih =>
      intro h B i
      rw [List.cons_append, List.findIdx?_cons]
      rw [if_neg (by simp [h p (by simp)])]
      rw [ih (fun b hb => h b (by simp [hb])) B (i + 1)]
      congr 1
      simp only [List.length_cons]
      omega

/-- `indexOf(0x00, 0)` on a buffer with a zero-free prefix. -/
theorem idxOfZero_nonzero_prefix (P B : List Nat) (hP : ∀ b ∈ P, ¬ b = 0) :
    idxOfZero (P ++ 0 :: B) 0 = some P.length := by
  unfold idxOfZero
  rw [List.drop_zero, findIdxZero_nonzero_prefix P hP B 0]
  simp

/-- `indexOf(0x00, start)` when the byte at `start` is already zero. -/
theorem idxOfZero_at (P B : List Nat) :
    idxOfZero (P ++ 0 :: B) P.length = some P.length := by
  unfold idxOfZero
  rw [List.drop_left, List.findIdx?_cons, if_pos (by simp)]
  simp

/-- `parseItxt` inverts `encodeItxt` at the reserved keyword: the
layout pins the keyword terminator, the zero compression flag and
method, and the empty language-tag and translated-keyword terminators,
and the text round-trips through UTF-8. -/
theorem parseItxt_encodeItxt (T : List Char) :
    parseItxt (encodeItxt arrKeyword T) = .ok (arrKeyword, T) := by
  unfold parseItxt
  rw [show idxOfZero (encodeItxt arrKeyword T) 0 = some 15 from by
    have h := idxOfZero_nonzero_prefix (latin1Encode arrKeyword)
      ([0, 0, 0, 0] ++ utf8Encode T) (by decide)
    rw [show latin1Encode arrKeyword ++ 0 :: ([0, 0, 0, 0] ++ utf8Encode T)
      = encodeItxt arrKeyword T from by simp [encodeItxt]] at h
    exact h]
  dsimp only
  rw [if_neg (show ¬ 15 + 1 + 2 > (encodeItxt arrKeyword T).length from by
    have h15 : (latin1Encode arrKeyword).length = 15 := rfl
    simp [encodeItxt, h15]
    omega)]
  rw [show (encodeItxt arrKeyword T).getD (15 + 1) 0 = 0 from by
    have h := getD_append_len_add (latin1Encode arrKeyword ++ [0]) (0 :: (0 :: ([0, 0] ++
      utf8Encode T))) 0 0
    rw [show (latin1Encode arrKeyword ++ [0]) ++ 0 :: (0 :: ([0, 0] ++ utf8Encode T))
      = encodeItxt arrKeyword T from by simp [encodeItxt]] at h
    exact h]
  rw [show (encodeItxt arrKeyword T).getD (15 + 1 + 1) 0 = 0 from by
    have h := getD_append_len_add (latin1Encode arrKeyword ++ [0, 0]) (0 :: (0 :: (0 ::
      utf8Encode T))) 0 0
    rw [show (latin1Encode arrKeyword ++ [0, 0]) ++ 0 :: (0 :: (0 :: utf8Encode T))
      = encodeItxt arrKeyword T from by simp [encodeItxt]] at h
    exact h]
  rw [if_neg (by simp)]
  rw [show idxOfZero (encodeItxt arrKeyword T) (15 + 1 + 2) = some 18 from by
    have h := idxOfZero_at (latin1Encode arrKeyword ++ [0, 0, 0]) (0 :: utf8Encode T)
    rw [show (latin1Encode arrKeyword ++ [0, 0, 0]) ++ 0 :: (0 :: utf8Encode T)
      = encodeItxt arrKeyword T from by simp [encodeItxt]] at h
    exact h]
  dsimp only
  rw [show idxOfZero (encodeItxt arrKeyword T) (18 + 1) = some 19 from by
    have h := idxOfZero_at (latin1Encode arrKeyword ++ [0, 0, 0, 0]) (utf8Encode T)
    rw [show (latin1Encode arrKeyword ++ [0, 0, 0, 0]) ++ 0 :: utf8Encode T
      = encodeItxt arrKeyword T from by simp [encodeItxt]] at h
    exact h]
  dsimp only
  rw [show latin1Decode ((encodeItxt arrKeyword T).take 15) = arrKeyword from by
    rw [show encodeItxt arrKeyword T
      = latin1Encode arrKeyword ++ ([0, 0, 0, 0, 0] ++ utf8Encode T) from by
        simp [encodeItxt]]
    have h : (latin1Encode arrKeyword ++ ([0, 0, 0, 0, 0] ++ utf8Encode T)).take 15
        = latin1Encode arrKeyword :=
      List.take_left (latin1Encode arrKeyword) ([0, 0, 0, 0, 0] ++ utf8Encode T)
    rw [h]
    decide]
  rw [show (encodeItxt arrKeyword T).drop (19 + 1) = utf8Encode T from by
    rw [show encodeItxt arrKeyword T
      = (latin1Encode arrKeyword ++ [0, 0, 0, 0, 0]) ++ utf8Encode T from by
        simp [encodeItxt]]
    have hl : (latin1Encode arrKeyword ++ [0, 0, 0, 0, 0]).length = 19 + 1 := by decide
    rw [← hl]
    exact List.drop_left (latin1Encode arrKeyword ++ [0, 0, 0, 0, 0]) (utf8Encode T)]
  rw [utf8Decode_encode]

/-- A 32-bit read that stays inside the left part of an append. -/
theorem readBE32_append_left (b rest : List Nat) (o : Nat) (h : o + 3 < b.length) :
    readBE32 (b ++ rest) o = readBE32 b o := by
  unfold readBE32
  rw [List.getD_append _ _ _ _ (by omega), List.getD_append _ _ _ _ (by omega),
    List.getD_append _ _ _ _ (by omega), List.getD_append _ _ _ _ (by omega)]

/-- One step of the chunk scan on a well-formed raw slice followed by
anything: the slice is parsed back exactly. -/
theorem parseChunksFrom_step (c : PngChunk) (REST : List Nat) (f : Nat) (hwf : ChunkWF c) :
    parseChunksFrom (f + 1) (c.raw ++ REST)
      = (if c.type = jk "IEND" then .ok [c]
        else do
          let cs ← parseChunksFrom f REST
          .ok (c :: cs)) := by
  obtain ⟨h1, h2, h3, h4⟩ := hwf
  cases hr : c.raw with
  | nil => rw [hr] at h1; simp only [List.length_nil] at h1; omega
  | cons b0 tl =>
      have hback : b0 :: (tl ++ REST) = c.raw ++ REST := by rw [hr, List.cons_append]
      rw [List.cons_append]
      simp only [parseChunksFrom]
      rw [hback]
      rw [if_neg (show ¬ (c.raw ++ REST).length < 12 from by
        simp only [List.length_append, h1]; omega)]
      rw [show readBE32 (c.raw ++ REST) 0 = c.data.length from by
        rw [readBE32_append_left _ _ _ (by rw [h1]; omega)]; exact h2]
      rw [show asciiDecode (((c.raw ++ REST).drop 4).take 4) = c.type from by
        rw [List.drop_append_of_le_length (by rw [h1]; omega)]
        rw [List.take_append_of_le_length (by rw [List.length_drop, h1]; omega)]
        exact h3]
      rw [if_neg (show ¬ (c.raw ++ REST).length < 12 + c.data.length from by
        simp only [List.length_append, h1]; omega)]
      rw [show ((c.raw ++ REST).drop 8).take c.data.length = c.data from by
        rw [List.drop_append_of_le_length (by rw [h1]; omega)]
        rw [List.take_append_of_le_length (by rw [List.length_drop, h1]; omega)]
        exact h4]
      rw [show (c.raw ++ REST).take (12 + c.data.length) = c.raw from by
        rw [List.take_append_of_le_length (by rw [h1])]
        rw [← h1]
        exact List.take_length c.raw]
      rw [show (c.raw ++ REST).drop (12 + c.data.length) = REST from by
        rw [show (12 + c.data.length : Nat) = c.raw.length from by rw [h1]]
        exact List.drop_left c.raw REST]

/-- `getD` inside the taken prefix. -/
theorem getD_take (l : List Nat) (n i d : Nat) (h : i < n) :
    (l.take n).getD i d = l.getD i d := by
  simp [List.getD_eq_getElem?_getD, List.getElem?_take, h]

/-- A 32-bit read inside a taken prefix. -/
theorem readBE32_take_left (b : List Nat) (n o : Nat) (h : o + 3 < n) :
    readBE32 (b.take n) o = readBE32 b o := by
  unfold readBE32
  rw [getD_take _ _ _ _ (by omega), getD_take _ _ _ _ (by omega),
    getD_take _ _ _ _ (by omega), getD_take _ _ _ _ (by omega)]

/-- The chunk built by the scanning loop satisfies the slice
invariants. -/
theorem builtChunkWF (rest : List Nat) (hlen : ¬ rest.length < 12)
    (h2 : ¬ rest.length < 12 + readBE32 rest 0) :
    ChunkWF ⟨asciiDecode ((rest.drop 4).take 4), (rest.drop 8).take (readBE32 rest 0),
      rest.take (12 + readBE32 rest 0)⟩ := by
  refine ⟨?_, ?_, ?_, ?_⟩
  · simp only [List.length_take, List.length_drop]
    omega
  · rw [readBE32_take_left _ _ _ (by omega)]
    simp only [List.length_take, List.length_drop]
    omega
  · rw [List.drop_take, List.take_take]
    rw [show (4 ⊓ (12 + readBE32 rest 0 - 4) : Nat) = 4 from by omega]
  · rw [List.drop_take, List.take_take]
    rw [show ((((rest.drop 8).take (readBE32 rest 0)).length : Nat)
        ⊓ (12 + readBE32 rest 0 - 8)) = readBE32 rest 0 from by
      simp only [List.length_take, List.length_drop]
      omega]

/-- Concatenated well-formed raw chunk slices, the `IEND` slice last,
parse back to exactly those chunks. -/
theorem parseChunksFrom_concat : ∀ (init : List PngChunk) (iend : PngChunk) (fuel : Nat),
    init.length < fuel →
    (∀ c ∈ init, ChunkWF c ∧ ¬ c.type = jk "IEND") →
    ChunkWF iend → iend.type = jk "IEND" →
    parseChunksFrom fuel ((init.map PngChunk.raw).flatten ++ iend.raw)
      = .ok (init ++ [iend]) := by
  intro init
  induction init with
  | nil =>
      intro iend fuel hf _ hwf hty
      obtain ⟨f, rfl⟩ : ∃ f, fuel = f + 1 := ⟨fuel - 1, by omega⟩
      simp only [List.map_nil, List.flatten_nil, List.nil_append]
      have h := parseChunksFrom_step iend [] f hwf
      rw [List.append_nil] at h
      rw [h, if_pos hty]
  | cons c init' ih =>
      intro iend fuel hf hall hwf hty
      obtain ⟨f, rfl⟩ : ∃ f, fuel = f + 1 := ⟨fuel - 1, by omega⟩
      simp only [List.map_cons, List.flatten_cons, List.append_assoc]
      rw [parseChunksFrom_step c _ f (hall c (by simp)).1]
      rw [if_neg (hall c (by simp)).2]
      rw [ih iend f (by simp only [List.length_cons] at hf; omega)
        (fun d hd => hall d (by simp [hd])) hwf hty]
      rfl

/-- Soundness of the chunk scan: every returned chunk satisfies the
slice invariants and only the last chunk can be `IEND`. -/
theorem parseChunksFrom_sound : ∀ (fuel : Nat) (rest : List Nat) (cs : List PngChunk),
    parseChunksFrom fuel rest = .ok cs →
    (∀ c ∈ cs, ChunkWF c) ∧ (∀ c ∈ cs.dropLast, ¬ c.type = jk "IEND") := by
  intro fuel
  induction fuel with
  | zero =>
      intro rest cs h
      cases rest with
      | nil =>
          simp only [parseChunksFrom, Except.ok.injEq] at h
          subst h
          simp
      | cons b bs => simp only [parseChunksFrom] at h; exact absurd h (by simp)
  | succ f ih =>
      intro rest cs h
      cases rest with
      | nil =>
          simp only [parseChunksFrom, Except.ok.injEq] at h
          subst h
          simp
      | cons b bs =>
          simp only [parseChunksFrom] at h
          by_cases hlen : (b :: bs).length < 12
          · rw [if_pos hlen] at h
            exact absurd h (by simp)
          · rw [if_neg hlen] at h
            by_cases h2 : (b :: bs).length < 12 + readBE32 (b :: bs) 0
            · rw [if_pos h2] at h
              exact absurd h (by simp)
            · rw [if_neg h2] at h
              have hwfc := builtChunkWF (b :: bs) hlen h2
              by_cases h3 : asciiDecode (((b :: bs).drop 4).take 4) = jk "IEND"
              · rw [if_pos h3] at h
                simp only [Except.ok.injEq] at h
                subst h
                refine ⟨?_, ?_⟩
                · intro c hc
                  simp only [List.mem_singleton] at hc
                  subst hc
                  exact hwfc
                · intro c hc
                  simp at hc
              · rw [if_neg h3] at h
                cases hrec : parseChunksFrom f ((b :: bs).drop (12 + readBE32 (b :: bs) 0)) with
                | error e =>
                    rw [hrec] at h
                    exact absurd h (by simp [bind, Except.bind])
                | ok cs' =>
                    rw [hrec] at h
                    simp only [bind, Except.bind, Except.ok.injEq] at h
                    subst h
                    obtain ⟨ihA, ihB⟩ := ih _ _ hrec
                    refine ⟨?_, ?_⟩
                    · intro c hc
                      rcases List.mem_cons.mp hc with rfl | hc2
                      · exact hwfc
                      · exact ihA c hc2
                    · intro c hc
                      cases cs' with
                      | nil => simp at hc
                      | cons c2 cs2 =>
                          rw [show ((⟨asciiDecode (((b :: bs).drop 4).take 4),
                              ((b :: bs).drop 8).take (readBE32 (b :: bs) 0),
                              (b :: bs).take (12 + readBE32 (b :: bs) 0)⟩ : PngChunk)
                              :: c2 :: cs2).dropLast
                            = (⟨asciiDecode (((b :: bs).drop 4).take 4),
                              ((b :: bs).drop 8).take (readBE32 (b :: bs) 0),
                              (b :: bs).take (12 + readBE32 (b :: bs) 0)⟩ : PngChunk)
                              :: (c2 :: cs2).dropLast from rfl] at hc
                          rcases List.mem_cons.mp hc with rfl | hc2
                          · exact h3
                          · exact ihB c hc2

/-- `createChunk` on the reserved chunk succeeds and yields the raw
slice of `arrChunkOf`. -/
theorem createChunk_arr (signed : Json)
    (h : (encodeItxt arrKeyword (serializeSignedAttestation signed)).length ≤ 4294967295) :
    createChunk (jk "iTXt") (encodeItxt arrKeyword (serializeSignedAttestation signed))
      = .ok (arrChunkOf signed).raw := by
  unfold createChunk arrChunkOf
  rw [if_neg (by omega)]

/-- The fresh reserved chunk satisfies the slice invariants. -/
theorem arrChunkOf_wf (signed : Json)
    (h : (encodeItxt arrKeyword (serializeSignedAttestation signed)).length ≤ 4294967295) :
    ChunkWF (arrChunkOf signed) := by
  unfold arrChunkOf ChunkWF
  dsimp only
  refine ⟨?_, ?_, ?_, ?_⟩
  · simp only [List.length_append, be32, List.length_cons, List.length_nil,
      show (latin1Encode (jk "iTXt")).length = 4 from rfl]
    omega
  · rw [show (be32 (encodeItxt arrKeyword (serializeSignedAttestation signed)).length
        ++ latin1Encode (jk "iTXt")
        ++ encodeItxt arrKeyword (serializeSignedAttestation signed)
        ++ be32 (crc32 (latin1Encode (jk "iTXt")
          ++ encodeItxt arrKeyword (serializeSignedAttestation signed))))
      = be32 (encodeItxt arrKeyword (serializeSignedAttestation signed)).length
        ++ (latin1Encode (jk "iTXt")
        ++ (encodeItxt arrKeyword (serializeSignedAttestation signed)
        ++ be32 (crc32 (latin1Encode (jk "iTXt")
          ++ encodeItxt arrKeyword (serializeSignedAttestation signed)))))
      from by simp [List.append_assoc]]
    exact readBE32_be32 _ _ (by omega)
  · rfl
  · rw [show ((be32 (encodeItxt arrKeyword (serializeSignedAttestation signed)).length
        ++ latin1Encode (jk "iTXt")
        ++ encodeItxt arrKeyword (serializeSignedAttestation signed)
        ++ be32 (crc32 (latin1Encode (jk "iTXt")
          ++ encodeItxt arrKeyword (serializeSignedAttestation signed)))).drop 8
      : List Nat)
      = encodeItxt arrKeyword (serializeSignedAttestation signed)
        ++ be32 (crc32 (latin1Encode (jk "iTXt")
          ++ encodeItxt arrKeyword (serializeSignedAttestation signed))) from rfl]
    exact List.take_left _ _

/-- The fresh reserved chunk is recognised as the reserved chunk. -/
theorem isArrItxtChunk_arrChunkOf (signed : Json) :
    isArrItxtChunk (arrChunkOf signed) = true := by
  unfold isArrItxtChunk arrChunkOf
  dsimp only
  rw [parseItxt_encodeItxt]
  simp

/-- An `IEND`-typed chunk is never the reserved chunk. -/
theorem isArrItxtChunk_iend (c : PngChunk) (h : c.type = jk "IEND") :
    isArrItxtChunk c = false := by
  unfold isArrItxtChunk
  rw [h]
  rw [show (decide (jk "IEND" = jk "iTXt") : Bool) = false from by decide]
  rw [Bool.false_and]

/-- The filter/insert loop on a stream whose only `IEND` chunk is
last: reserved chunks are dropped and the fresh chunk lands
immediately before `IEND`. -/
theorem embedPngLoop_char (arr : List Nat) : ∀ (init : List PngChunk) (iend : PngChunk),
    (∀ c ∈ init, ¬ c.type = jk "IEND") → iend.type = jk "IEND" →
    embedPngLoop arr (init ++ [iend]) false
      = ((init.filter (fun c => ! isArrItxtChunk c)).map PngChunk.raw
          ++ arr :: [iend.raw], true) := by
  intro init
  induction init with
  | nil =>
      intro iend _ hty
      simp only [List.nil_append]
      rw [embedPngLoop]
      rw [if_neg (by simp [isArrItxtChunk_iend iend hty])]
      rw [if_pos ⟨hty, by simp⟩]
      rw [embedPngLoop]
      simp
  | cons c init' ih =>
      intro iend hno hty
      rw [List.cons_append, embedPngLoop]
      by_cases hc : isArrItxtChunk c
      · rw [if_pos hc, ih iend (fun d hd => hno d (by simp [hd])) hty]
        simp [List.filter_cons, hc]
      · rw [if_neg hc]
        rw [if_neg (fun hand => hno c (by simp) hand.1)]
        rw [ih iend (fun d hd => hno d (by simp [hd])) hty]
        simp [List.filter_cons, hc]

/-- The extraction scan skips a non-reserved chunk. -/
theorem extractScan_skip (c : PngChunk) (cs : List PngChunk)
    (h : isArrItxtChunk c = false) :
    extractScan (c :: cs) = extractScan cs := by
  rw [extractScan]
  by_cases h1 : c.type = jk "iTXt"
  · rw [if_neg (by simp [h1])]
    unfold isArrItxtChunk at h
    rw [h1] at h
    simp at h
    cases hp : parseItxt c.data with
    | error e => rfl
    | ok p =>
        rw [hp] at h
        obtain ⟨k, t⟩ := p
        simp at h
        dsimp only
        rw [if_neg (by simpa using h)]
  · rw [if_pos h1]

/-- The extraction scan skips any run of non-reserved chunks. -/
theorem extractScan_skip_all : ∀ (cs rest : List PngChunk),
    (∀ c ∈ cs, isArrItxtChunk c = false) →
    extractScan (cs ++ rest) = extractScan rest := by
  intro cs
  induction cs with
  | nil => intro rest _; rw [List.nil_append]
  | cons c cs' ih =>
      intro rest h
      rw [List.cons_append, extractScan_skip c _ (h c (by simp)),
        ih rest (fun d hd => h d (by simp [hd]))]

/-- The extraction scan surfaces the fresh reserved chunk's payload. -/
theorem extractScan_arrChunkOf (signed : Json) (rest : List PngChunk)
    (hwf : jsonWF signed = true) (hsig : isSignedAttestation signed = true) :
    extractScan (arrChunkOf signed :: rest) = .ok (some signed) := by
  rw [extractScan]
  rw [if_neg (by unfold arrChunkOf; simp)]
  rw [show (arrChunkOf signed).data = encodeItxt arrKeyword (serializeSignedAttestation signed)
    from rfl]
  rw [parseItxt_encodeItxt]
  dsimp only
  rw [if_pos rfl]
  rw [parseSigned_serialize signed hwf hsig]
  rfl

/-- Each well-formed raw slice holds at least twelve bytes, so the
byte length of a chunk stream dominates the chunk count. -/
theorem chunkCount_le_flatten : ∀ (cs : List PngChunk), (∀ c ∈ cs, ChunkWF c) →
    cs.length ≤ ((cs.map PngChunk.raw).flatten).length := by
  intro cs
  induction cs with
  | nil => intro _; simp
  | cons c cs' ih =>
      intro h
      simp only [List.map_cons, List.flatten_cons, List.length_append, List.length_cons]
      have h1 := (h c (by simp)).1
      have h2 := ih (fun d hd => h d (by simp [hd]))
      omega

/-- Embedding into a PNG whose chunk stream ends with `IEND` succeeds,
and the output parses to the original non-reserved chunks with the
fresh reserved chunk immediately before `IEND`. -/
theorem png_embed_parse (buffer : List Nat) (signed : Json) (init : List PngChunk)
    (iend : PngChunk)
    (hparse : parseChunks buffer = .ok (init ++ [iend]))
    (hiend : iend.type = jk "IEND")
    (hsz : (encodeItxt arrKeyword (serializeSignedAttestation signed)).length ≤ 4294967295) :
    ∃ out, embedPngAttestation buffer signed = .ok out
      ∧ parseChunks out
        = .ok (init.filter (fun c => ! isArrItxtChunk c) ++ [arrChunkOf signed, iend]) := by
  by_cases hpng : isPng buffer = true
  case neg =>
      unfold parseChunks at hparse
      rw [if_pos (by simpa using hpng)] at hparse
      exact absurd hparse (by simp)
  case pos =>
  have hparse2 : parseChunksFrom buffer.length (buffer.drop 8) = .ok (init ++ [iend]) := by
    unfold parseChunks at hparse
    rwa [if_neg (by simp [hpng])] at hparse
  obtain ⟨hWF, hNI⟩ := parseChunksFrom_sound _ _ _ hparse2
  have hinitNI : ∀ c ∈ init, ¬ c.type = jk "IEND" := by
    intro c hc
    apply hNI
    rw [List.dropLast_concat]
    exact hc
  have hinitWF : ∀ c ∈ init, ChunkWF c := fun c hc => hWF c (by simp [hc])
  have hiendWF : ChunkWF iend := hWF iend (by simp)
  have hembed : embedPngAttestation buffer signed
      = .ok (pngSignature
          ++ ((init.filter (fun c => ! isArrItxtChunk c)).map PngChunk.raw
            ++ (arrChunkOf signed).raw :: [iend.raw]).flatten) := by
    unfold embedPngAttestation
    rw [show parseChunks buffer = .ok (init ++ [iend]) from hparse]
    rw [show ((Except.ok (init ++ [iend]) : Except ArrErr (List PngChunk)) >>= fun chunks =>
        (createChunk (jk "iTXt") (encodeItxt arrKeyword (serializeSignedAttestation signed))
          >>= fun arrChunk =>
          match embedPngLoop arrChunk chunks false with
          | (outChunks, inserted) =>
            if ¬ inserted then Except.error ArrErr.invalid_png
            else Except.ok (pngSignature ++ outChunks.flatten)))
      = ((createChunk (jk "iTXt")
            (encodeItxt arrKeyword (serializeSignedAttestation signed))
          >>= fun arrChunk =>
          match embedPngLoop arrChunk (init ++ [iend]) false with
          | (outChunks, inserted) =>
            if ¬ inserted then Except.error ArrErr.invalid_png
            else Except.ok (pngSignature ++ outChunks.flatten)))
      from rfl]
    rw [createChunk_arr signed hsz]
    rw [show ((Except.ok (arrChunkOf signed).raw : Except ArrErr (List Nat)) >>= fun arrChunk =>
        (match embedPngLoop arrChunk (init ++ [iend]) false with
          | (outChunks, inserted) =>
            if ¬ inserted then Except.error ArrErr.invalid_png
            else Except.ok (pngSignature ++ outChunks.flatten)))
      = (match embedPngLoop (arrChunkOf signed).raw (init ++ [iend]) false with
          | (outChunks, inserted) =>
            if ¬ inserted then Except.error ArrErr.invalid_png
            else Except.ok (pngSignature ++ outChunks.flatten))
      from rfl]
    rw [embedPngLoop_char (arrChunkOf signed).raw init iend hinitNI hiend]
    dsimp only
    rw [if_neg (by simp)]
  refine ⟨_, hembed, ?_⟩
  have hX : ((init.filter (fun c => ! isArrItxtChunk c)).map PngChunk.raw
        ++ (arrChunkOf signed).raw :: [iend.raw]).flatten
      = (((init.filter (fun c => ! isArrItxtChunk c) ++ [arrChunkOf signed]).map
          PngChunk.raw).flatten) ++ iend.raw := by
    simp [List.flatten_append, List.map_append, List.append_assoc]
  have hmemNI : ∀ c ∈ init.filter (fun c => ! isArrItxtChunk c) ++ [arrChunkOf signed],
      ChunkWF c ∧ ¬ c.type = jk "IEND" := by
    intro c hc
    rcases List.mem_append.mp hc with hc1 | hc2
    · exact ⟨hinitWF c (List.mem_of_mem_filter hc1),
        hinitNI c (List.mem_of_mem_filter hc1)⟩
    · simp only [List.mem_singleton] at hc2
      subst hc2
      refine ⟨arrChunkOf_wf signed hsz, ?_⟩
      rw [show (arrChunkOf signed).type = jk "iTXt" from rfl]
      decide
  have hcount := chunkCount_le_flatten
    (init.filter (fun c => ! isArrItxtChunk c) ++ [arrChunkOf signed])
    (fun c hc => (hmemNI c hc).1)
  unfold parseChunks
  rw [if_neg (show ¬ ¬ isPng (pngSignature
      ++ ((init.filter (fun c => ! isArrItxtChunk c)).map PngChunk.raw
        ++ (arrChunkOf signed).raw :: [iend.raw]).flatten) = true from by
    intro hno
    exact hno rfl)]
  rw [show (pngSignature
      ++ ((init.filter (fun c => ! isArrItxtChunk c)).map PngChunk.raw
        ++ (arrChunkOf signed).raw :: [iend.raw]).flatten).drop 8
    = ((init.filter (fun c => ! isArrItxtChunk c)).map PngChunk.raw
        ++ (arrChunkOf signed).raw :: [iend.raw]).flatten from rfl]
  rw [hX]
  rw [parseChunksFrom_concat (init.filter (fun c => ! isArrItxtChunk c) ++ [arrChunkOf signed])
    iend _ (by
      simp only [List.length_append, pngSignature, List.length_cons, List.length_nil]
        at hcount ⊢
      omega)
    hmemNI hiendWF hiend]
  rw [show (init.filter (fun c => ! isArrItxtChunk c) ++ [arrChunkOf signed]) ++ [iend]
    = init.filter (fun c => ! isArrItxtChunk c) ++ [arrChunkOf signed, iend] from by
    simp]

/-- PNG round trip: extracting right after embedding returns the same
signed attestation. -/
theorem png_roundtrip_main (buffer : List Nat) (signed : Json) (init : List PngChunk)
    (iend : PngChunk)
    (hparse : parseChunks buffer = .ok (init ++ [iend]))
    (hiend : iend.type = jk "IEND")
    (hwf : jsonWF signed = true) (hsig : isSignedAttestation signed = true)
    (hsz : (encodeItxt arrKeyword (serializeSignedAttestation signed)).length ≤ 4294967295) :
    ∃ out, embedPngAttestation buffer signed = .ok out
      ∧ extractPngAttestation out = .ok (some signed) := by
  obtain ⟨out, hembed, hreparse⟩ := png_embed_parse buffer signed init iend hparse hiend hsz
  refine ⟨out, hembed, ?_⟩
  unfold extractPngAttestation
  rw [hreparse]
  dsimp only [bind, Except.bind]
  rw [extractScan_skip_all (init.filter (fun c => ! isArrItxtChunk c))
    [arrChunkOf signed, iend] (fun c hc => by
      have h := List.of_mem_filter hc
      simpa using h)]
  rw [extractScan_arrChunkOf signed [iend] hwf hsig]

/-- `replaceAll` with a one-character pattern is a character
substitution. -/
theorem replaceAllAux_single : ∀ (fuel : Nat) (p : Char) (rep : List Char) (s : List Char),
    s.length ≤ fuel →
    replaceAllAux [p] rep fuel s = s.flatMap (fun c => if c = p then rep else [c]) := by
  intro fuel
  induction fuel with
  | zero =>
      intro p rep s h
      cases s with
      | nil => rfl
      | cons c cs => simp at h
  | succ f ih =>
      intro p rep s h
      cases s with
      | nil => rfl
      | cons c cs =>
          rw [replaceAllAux]
          by_cases hc : c = p
          · rw [if_pos ⟨by simp, by simp [List.isPrefixOf, hc]⟩]
            rw [show ((c :: cs).drop ([p] : List Char).length) = cs from rfl]
            rw [ih p rep cs (by simp at h; omega)]
            simp [List.flatMap_cons, hc]
          · rw [if_neg (fun hand => by
              have hpre := hand.2
              simp [List.isPrefixOf] at hpre
              exact hc hpre.symm)]
            rw [ih p rep cs (by simp at h; omega)]
            simp [List.flatMap_cons, hc]

/-- `replaceAll` with a one-character pattern, packaged. -/
theorem replaceAll_single (p : Char) (rep s : List Char) :
    replaceAll [p] rep s = s.flatMap (fun c => if c = p then rep else [c]) :=
  replaceAllAux_single s.length p rep s le_rfl

/-- `escapeXml` substitutes each character by its entity. -/
theorem escapeXml_flatMap (s : List Char) : escapeXml s = s.flatMap escEnt := by
  unfold escapeXml
  rw [show (jk "&" : List Char) = ['&'] from rfl, show (jk "<" : List Char) = ['<'] from rfl,
    show (jk ">" : List Char) = ['>'] from rfl, show (jk "\x22" : List Char) = ['\x22'] from rfl,
    show (jk "\x27" : List Char) = ['\x27'] from rfl]
  rw [replaceAll_single, replaceAll_single, replaceAll_single, replaceAll_single,
    replaceAll_single]
  simp only [List.flatMap_assoc]
  rw [show (fun x => (if x = '&' then jk "&amp;" else [x]).flatMap fun x =>
      (if x = '<' then jk "&lt;" else [x]).flatMap fun x =>
        (if x = '>' then jk "&gt;" else [x]).flatMap fun x =>
          (if x = '\x22' then jk "&quot;" else [x]).flatMap fun x =>
            if x = '\x27' then jk "&apos;" else [x])
    = escEnt from by
    funext c
    by_cases h1 : c = '&'
    · subst h1; rfl
    · by_cases h2 : c = '<'
      · subst h2; rfl
      · by_cases h3 : c = '>'
        · subst h3; rfl
        · by_cases h4 : c = '\x22'
          · subst h4; rfl
          · by_cases h5 : c = '\x27'
            · subst h5; rfl
            · simp [escEnt, h1, h2, h3, h4, h5]]

/-- `getD` inside a taken prefix (any element type). -/
theorem getD_take_any {α : Type} (l : List α) (n i : Nat) (d : α) (h : i < n) :
    (l.take n).getD i d = l.getD i d := by
  simp [List.getD_eq_getElem?_getD, List.getElem?_take, h]

/-- A pattern with a witnessed mismatch against a block is not a
prefix of that block followed by anything. -/
theorem isPrefixOf_append_false (pat t : List Char) (j : Nat)
    (hj1 : j < pat.length) (hj2 : j < t.length)
    (hne : ¬ pat.getD j ' ' = t.getD j ' ') :
    ∀ s2 : List Char, pat.isPrefixOf (t ++ s2) = false := by
  intro s2
  cases hb : pat.isPrefixOf (t ++ s2) with
  | false => rfl
  | true =>
      exfalso
      have hp := List.isPrefixOf_iff_prefix.mp hb
      have he := List.prefix_iff_eq_take.mp hp
      apply hne
      rw [he, getD_take_any _ _ _ _ hj1, List.getD_append _ _ _ _ hj2]

/-- The replacement scan walks over a run admitting no match at any
position. -/
theorem replaceAllAux_skip_run (pat rep : List Char) :
    ∀ (u : List Char) (fuel2 : Nat) (REST : List Char),
    (∀ i, i < u.length → ∀ s2, pat.isPrefixOf (u.drop i ++ s2) = false) →
    replaceAllAux pat rep (u.length + fuel2) (u ++ REST)
      = u ++ replaceAllAux pat rep fuel2 REST := by
  intro u
  induction u with
  | nil =>
      intro fuel2 REST _
      simp only [List.length_nil, Nat.zero_add, List.nil_append]
  | cons a u' ih =>
      intro fuel2 REST h
      rw [show ((a :: u').length + fuel2) = (u'.length + fuel2) + 1 from by
        simp only [List.length_cons]; omega]
      rw [List.cons_append, replaceAllAux]
      rw [if_neg (fun hand => by
        have h0 := h 0 (by simp) REST
        rw [List.drop_zero, List.cons_append] at h0
        simp [h0] at hand)]
      rw [ih fuel2 REST (fun i hi s2 => by
        have hs := h (i + 1) (by simp only [List.length_cons]; omega) s2
        simpa using hs)]
      rfl

/-- One `replaceAll` pass over a token concatenation: pattern tokens
are replaced, all other tokens are copied verbatim. -/
theorem replaceAll_token_step : ∀ (s : List Char) (pat rep : List Char)
    (T T' : Char → List Char) (fuel : Nat),
    pat ≠ [] →
    (∀ c, (T c = pat ∧ T' c = rep)
      ∨ (T' c = T c
          ∧ ∀ i, i < (T c).length → ∀ s2, pat.isPrefixOf ((T c).drop i ++ s2) = false)) →
    (s.flatMap T).length ≤ fuel →
    replaceAllAux pat rep fuel (s.flatMap T) = s.flatMap T' := by
  intro s
  induction s with
  | nil =>
      intro pat rep T T' fuel _ _ _
      cases fuel <;> rfl
  | cons c s2 ih =>
      intro pat rep T T' fuel hpat hTok hfuel
      rw [List.flatMap_cons] at hfuel ⊢
      rcases hTok c with ⟨htc, ht'⟩ | ⟨ht', hsafe⟩
      · rw [htc] at hfuel ⊢
        obtain ⟨p0, pt, rfl⟩ : ∃ p0 pt, pat = p0 :: pt := by
          cases pat with
          | nil => exact absurd rfl hpat
          | cons p0 pt => exact ⟨p0, pt, rfl⟩
        obtain ⟨f, rfl⟩ : ∃ f, fuel = f + 1 := ⟨fuel - 1, by
          simp only [List.length_append, List.length_cons] at hfuel
          omega⟩
        rw [List.cons_append, replaceAllAux]
        rw [if_pos ⟨by simp, isPrefixOf_append_self (p0 :: pt) (s2.flatMap T)⟩]
        rw [show (p0 :: (pt ++ s2.flatMap T)).drop (p0 :: pt).length = s2.flatMap T from by
          rw [← List.cons_append]
          exact List.drop_left _ _]
        rw [ih (p0 :: pt) rep T T' f hpat hTok (by
          simp only [List.length_append, List.length_cons] at hfuel
          omega)]
        rw [List.flatMap_cons, ht']
      · rw [show fuel = (T c).length + (fuel - (T c).length) from by
          simp only [List.length_append] at hfuel
          omega]
        rw [replaceAllAux_skip_run pat rep (T c) _ _ hsafe]
        rw [ih pat rep T T' (fuel - (T c).length) hpat hTok (by
          simp only [List.length_append] at hfuel
          omega)]
        rw [List.flatMap_cons, ht']

/-- A one-character token that is not an ampersand can never open an
entity pattern. -/
theorem singleton_token_safe (pr : List Char) (c : Char) (hc : ¬ c = '&') :
    ∀ i, i < ([c] : List Char).length →
      ∀ s2, ('&' :: pr).isPrefixOf (([c] : List Char).drop i ++ s2) = false := by
  intro i hi s2
  simp only [List.length_cons, List.length_nil] at hi
  obtain rfl : i = 0 := by omega
  rw [List.drop_zero, List.singleton_append]
  exact isPrefixOf_cons_ne _ _ _ _ (beq_eq_false_iff_ne.mpr (fun h => hc h.symm))

/-- Pass 1 token analysis: only the `&quot;` token matches its
pattern. -/
theorem decStep1 : ∀ c : Char, (escEnt c = jk "&quot;" ∧ decTok1 c = jk "\x22")
    ∨ (decTok1 c = escEnt c
        ∧ ∀ i, i < (escEnt c).length →
          ∀ s2, (jk "&quot;").isPrefixOf ((escEnt c).drop i ++ s2) = false) := by
  intro c
  by_cases h1 : c = '&'
  · subst h1
    refine Or.inr ⟨rfl, ?_⟩
    intro i hi s2
    have h5 : i < 5 := hi
    interval_cases i <;>
      first
        | exact isPrefixOf_append_false _ _ 1 (by decide) (by decide) (by decide) s2
        | exact isPrefixOf_append_false _ _ 0 (by decide) (by decide) (by decide) s2
  · by_cases h2 : c = '<'
    · subst h2
      refine Or.inr ⟨rfl, ?_⟩
      intro i hi s2
      have h5 : i < 4 := hi
      interval_cases i <;>
        first
          | exact isPrefixOf_append_false _ _ 1 (by decide) (by decide) (by decide) s2
          | exact isPrefixOf_append_false _ _ 0 (by decide) (by decide) (by decide) s2
    · by_cases h3 : c = '>'
      · subst h3
        refine Or.inr ⟨rfl, ?_⟩
        intro i hi s2
        have h5 : i < 4 := hi
        interval_cases i <;>
          first
            | exact isPrefixOf_append_false _ _ 1 (by decide) (by decide) (by decide) s2
            | exact isPrefixOf_append_false _ _ 0 (by decide) (by decide) (by decide) s2
      · by_cases h4 : c = '\x22'
        · subst h4
          exact Or.inl ⟨rfl, rfl⟩
        · by_cases h5 : c = '\x27'
          · subst h5
            refine Or.inr ⟨rfl, ?_⟩
            intro i hi s2
            have h6 : i < 6 := hi
            interval_cases i <;>
              first
                | exact isPrefixOf_append_false _ _ 1 (by decide) (by decide) (by decide) s2
                | exact isPrefixOf_append_false _ _ 0 (by decide) (by decide) (by decide) s2
          · have hes : escEnt c = [c] := by simp [escEnt, h1, h2, h3, h4, h5]
            refine Or.inr ⟨by simp [decTok1, h4], ?_⟩
            rw [hes]
            rw [show (jk "&quot;" : List Char) = '&' :: jk "quot;" from rfl]
            exact singleton_token_safe _ c h1

/-- Pass 2 token analysis. -/
theorem decStep2 : ∀ c : Char, (decTok1 c = jk "&apos;" ∧ decTok2 c = jk "\x27")
    ∨ (decTok2 c = decTok1 c
        ∧ ∀ i, i < (decTok1 c).length →
          ∀ s2, (jk "&apos;").isPrefixOf ((decTok1 c).drop i ++ s2) = false) := by
  intro c
  by_cases h1 : c = '&'
  · subst h1
    refine Or.inr ⟨rfl, ?_⟩
    intro i hi s2
    have h5 : i < 5 := hi
    interval_cases i <;>
      first
        | exact isPrefixOf_append_false _ _ 2 (by decide) (by decide) (by decide) s2
        | exact isPrefixOf_append_false _ _ 1 (by decide) (by decide) (by decide) s2
        | exact isPrefixOf_append_false _ _ 0 (by decide) (by decide) (by decide) s2
  · by_cases h2 : c = '<'
    · subst h2
      refine Or.inr ⟨rfl, ?_⟩
      intro i hi s2
      have h5 : i < 4 := hi
      interval_cases i <;>
        first
          | exact isPrefixOf_append_false _ _ 1 (by decide) (by decide) (by decide) s2
          | exact isPrefixOf_append_false _ _ 0 (by decide) (by decide) (by decide) s2
    · by_cases h3 : c = '>'
      · subst h3
        refine Or.inr ⟨rfl, ?_⟩
        intro i hi s2
        have h5 : i < 4 := hi
        interval_cases i <;>
          first
            | exact isPrefixOf_append_false _ _ 1 (by decide) (by decide) (by decide) s2
            | exact isPrefixOf_append_false _ _ 0 (by decide) (by decide) (by decide) s2
      · by_cases h4 : c = '\x22'
        · subst h4
          refine Or.inr ⟨rfl, ?_⟩
          rw [show decTok1 '\x22' = ['\x22'] from rfl]
          rw [show (jk "&apos;" : List Char) = '&' :: jk "apos;" from rfl]
          exact singleton_token_safe _ _ (by decide)
        · by_cases h5 : c = '\x27'
          · subst h5
            exact Or.inl ⟨rfl, rfl⟩
          · have hes : decTok1 c = [c] := by simp [decTok1, escEnt, h1, h2, h3, h4, h5]
            refine Or.inr ⟨by simp [decTok2, h5], ?_⟩
            rw [hes]
            rw [show (jk "&apos;" : List Char) = '&' :: jk "apos;" from rfl]
            exact singleton_token_safe _ c h1

/-- Pass 3 token analysis. -/
theorem decStep3 : ∀ c : Char, (decTok2 c = jk "&gt;" ∧ decTok3 c = jk ">")
    ∨ (decTok3 c = decTok2 c
        ∧ ∀ i, i < (decTok2 c).length →
          ∀ s2, (jk "&gt;").isPrefixOf ((decTok2 c).drop i ++ s2) = false) := by
  intro c
  by_cases h1 : c = '&'
  · subst h1
    refine Or.inr ⟨rfl, ?_⟩
    intro i hi s2
    have h5 : i < 5 := hi
    interval_cases i <;>
      first
        | exact isPrefixOf_append_false _ _ 1 (by decide) (by decide) (by decide) s2
        | exact isPrefixOf_append_false _ _ 0 (by decide) (by decide) (by decide) s2
  · by_cases h2 : c = '<'
    · subst h2
      refine Or.inr ⟨rfl, ?_⟩
      intro i hi s2
      have h5 : i < 4 := hi
      interval_cases i <;>
        first
          | exact isPrefixOf_append_false _ _ 1 (by decide) (by decide) (by decide) s2
          | exact isPrefixOf_append_false _ _ 0 (by decide) (by decide) (by decide) s2
    · by_cases h3 : c = '>'
      · subst h3
        exact Or.inl ⟨rfl, rfl⟩
      · by_cases h4 : c = '\x22'
        · subst h4
          refine Or.inr ⟨rfl, ?_⟩
          rw [show decTok2 '\x22' = ['\x22'] from rfl]
          rw [show (jk "&gt;" : List Char) = '&' :: jk "gt;" from rfl]
          exact singleton_token_safe _ _ (by decide)
        · by_cases h5 : c = '\x27'
          · subst h5
            refine Or.inr ⟨rfl, ?_⟩
            rw [show decTok2 '\x27' = ['\x27'] from rfl]
            rw [show (jk "&gt;" : List Char) = '&' :: jk "gt;" from rfl]
            exact singleton_token_safe _ _ (by decide)
          · have hes : decTok2 c = [c] := by
              simp [decTok2, decTok1, escEnt, h1, h2, h3, h4, h5]
            refine Or.inr ⟨by simp [decTok3, h3], ?_⟩
            rw [hes]
            rw [show (jk "&gt;" : List Char) = '&' :: jk "gt;" from rfl]
            exact singleton_token_safe _ c h1

/-- Pass 4 token analysis. -/
theorem decStep4 : ∀ c : Char, (decTok3 c = jk "&lt;" ∧ decTok4 c = jk "<")
    ∨ (decTok4 c = decTok3 c
        ∧ ∀ i, i < (decTok3 c).length →
          ∀ s2, (jk "&lt;").isPrefixOf ((decTok3 c).drop i ++ s2) = false) := by
  intro c
  by_cases h1 : c = '&'
  · subst h1
    refine Or.inr ⟨rfl, ?_⟩
    intro i hi s2
    have h5 : i < 5 := hi
    interval_cases i <;>
      first
        | exact isPrefixOf_append_false _ _ 1 (by decide) (by decide) (by decide) s2
        | exact isPrefixOf_append_false _ _ 0 (by decide) (by decide) (by decide) s2
  · by_cases h2 : c = '<'
    · subst h2
      exact Or.inl ⟨rfl, rfl⟩
    · by_cases h3 : c = '>'
      · subst h3
        refine Or.inr ⟨rfl, ?_⟩
        rw [show decTok3 '>' = ['>'] from rfl]
        rw [show (jk "&lt;" : List Char) = '&' :: jk "lt;" from rfl]
        exact singleton_token_safe _ _ (by decide)
      · by_cases h4 : c = '\x22'
        · subst h4
          refine Or.inr ⟨rfl, ?_⟩
          rw [show decTok3 '\x22' = ['\x22'] from rfl]
          rw [show (jk "&lt;" : List Char) = '&' :: jk "lt;" from rfl]
          exact singleton_token_safe _ _ (by decide)
        · by_cases h5 : c = '\x27'
          · subst h5
            refine Or.inr ⟨rfl, ?_⟩
            rw [show decTok3 '\x27' = ['\x27'] from rfl]
            rw [show (jk "&lt;" : List Char) = '&' :: jk "lt;" from rfl]
            exact singleton_token_safe _ _ (by decide)
          · have hes : decTok3 c = [c] := by
              simp [decTok3, decTok2, decTok1, escEnt, h1, h2, h3, h4, h5]
            refine Or.inr ⟨by simp [decTok4, h2], ?_⟩
            rw [hes]
            rw [show (jk "&lt;" : List Char) = '&' :: jk "lt;" from rfl]
            exact singleton_token_safe _ c h1

/-- Pass 5 token analysis. -/
theorem decStep5 : ∀ c : Char, (decTok4 c = jk "&amp;" ∧ decTok5 c = jk "&")
    ∨ (decTok5 c = decTok4 c
        ∧ ∀ i, i < (decTok4 c).length →
          ∀ s2, (jk "&amp;").isPrefixOf ((decTok4 c).drop i ++ s2) = false) := by
  intro c
  by_cases h1 : c = '&'
  · subst h1
    exact Or.inl ⟨rfl, rfl⟩
  · by_cases h2 : c = '<'
    · subst h2
      refine Or.inr ⟨rfl, ?_⟩
      rw [show decTok4 '<' = ['<'] from rfl]
      rw [show (jk "&amp;" : List Char) = '&' :: jk "amp;" from rfl]
      exact singleton_token_safe _ _ (by decide)
    · by_cases h3 : c = '>'
      · subst h3
        refine Or.inr ⟨rfl, ?_⟩
        rw [show decTok4 '>' = ['>'] from rfl]
        rw [show (jk "&amp;" : List Char) = '&' :: jk "amp;" from rfl]
        exact singleton_token_safe _ _ (by decide)
      · by_cases h4 : c = '\x22'
        · subst h4
          refine Or.inr ⟨rfl, ?_⟩
          rw [show decTok4 '\x22' = ['\x22'] from rfl]
          rw [show (jk "&amp;" : List Char) = '&' :: jk "amp;" from rfl]
          exact singleton_token_safe _ _ (by decide)
        · by_cases h5 : c = '\x27'
          · subst h5
            refine Or.inr ⟨rfl, ?_⟩
            rw [show decTok4 '\x27' = ['\x27'] from rfl]
            rw [show (jk "&amp;" : List Char) = '&' :: jk "amp;" from rfl]
            exact singleton_token_safe _ _ (by decide)
          · have hes : decTok4 c = [c] := by
              simp [decTok4, decTok3, decTok2, decTok1, escEnt, h1, h2, h3, h4, h5]
            refine Or.inr ⟨by simp [decTok5, h1], ?_⟩
            rw [hes]
            rw [show (jk "&amp;" : List Char) = '&' :: jk "amp;" from rfl]
            exact singleton_token_safe _ c h1

/-- After all five passes every character is restored. -/
theorem decTok5_id : decTok5 = fun c => [c] := by
  funext c
  by_cases h1 : c = '&'
  · subst h1; rfl
  · by_cases h2 : c = '<'
    · subst h2; rfl
    · by_cases h3 : c = '>'
      · subst h3; rfl
      · by_cases h4 : c = '\x22'
        · subst h4; rfl
        · by_cases h5 : c = '\x27'
          · subst h5; rfl
          · simp [decTok5, decTok4, decTok3, decTok2, decTok1, escEnt, h1, h2, h3, h4, h5]

/-- XML entity decoding inverts XML escaping. -/
theorem decode_escape (s : List Char) : decodeXmlEntities (escapeXml s) = s := by
  rw [escapeXml_flatMap]
  unfold decodeXmlEntities replaceAll
  rw [replaceAll_token_step s (jk "&quot;") (jk "\x22") escEnt decTok1 _ (by decide)
    decStep1 le_rfl]
  rw [replaceAll_token_step s (jk "&apos;") (jk "\x27") decTok1 decTok2 _ (by decide)
    decStep2 le_rfl]
  rw [replaceAll_token_step s (jk "&gt;") (jk ">") decTok2 decTok3 _ (by decide)
    decStep3 le_rfl]
  rw [replaceAll_token_step s (jk "&lt;") (jk "<") decTok3 decTok4 _ (by decide)
    decStep4 le_rfl]
  rw [replaceAll_token_step s (jk "&amp;") (jk "&") decTok4 decTok5 _ (by decide)
    decStep5 le_rfl]
  rw [decTok5_id]
  simp

/-- A pattern failing against a long-enough block fails against any
extension of it. -/
theorem isPrefixOf_append_false_of_long (pat t : List Char) (hlen : pat.length ≤ t.length)
    (h : pat.isPrefixOf t = false) : ∀ s2, pat.isPrefixOf (t ++ s2) = false := by
  intro s2
  cases hb : pat.isPrefixOf (t ++ s2) with
  | false => rfl
  | true =>
      exfalso
      have hp := List.isPrefixOf_iff_prefix.mp hb
      have he := List.prefix_iff_eq_take.mp hp
      rw [List.take_append_of_le_length hlen] at he
      have : pat.isPrefixOf t = true :=
        List.isPrefixOf_iff_prefix.mpr (List.prefix_iff_eq_take.mpr he)
      rw [this] at h
      simp at h

/-- The leftmost-occurrence scan finds the pattern right after a
mismatch-free frame. -/
theorem splitFirstAux_frame (pat : List Char) (hpat : pat ≠ []) :
    ∀ (a b : List Char) (fuel : Nat), a.length < fuel →
    (∀ i, i < a.length → pat.isPrefixOf (a.drop i ++ (pat ++ b)) = false) →
    splitFirstAux pat fuel (a ++ (pat ++ b)) = some (a, b) := by
  intro a
  induction a with
  | nil =>
      intro b fuel hf _
      obtain ⟨f, rfl⟩ : ∃ f, fuel = f + 1 := ⟨fuel - 1, by omega⟩
      rw [List.nil_append]
      obtain ⟨p0, pt, rfl⟩ : ∃ p0 pt, pat = p0 :: pt := by
        cases pat with
        | nil => exact absurd rfl hpat
        | cons p0 pt => exact ⟨p0, pt, rfl⟩
      rw [List.cons_append]
      simp only [splitFirstAux]
      have hcond : (p0 :: pt).isPrefixOf (p0 :: (pt ++ b)) = true :=
        isPrefixOf_append_self (p0 :: pt) b
      rw [if_pos hcond]
      rw [show ((p0 :: (pt ++ b)).drop (p0 :: pt).length) = b from by
        rw [← List.cons_append]
        exact List.drop_left _ _]
  | cons x a' ih =>
      intro b fuel hf hno
      obtain ⟨f, rfl⟩ : ∃ f, fuel = f + 1 := ⟨fuel - 1, by omega⟩
      rw [List.cons_append]
      simp only [splitFirstAux]
      rw [if_neg (show ¬ pat.isPrefixOf (x :: (a' ++ (pat ++ b))) = true from by
        have h0 := hno 0 (by simp)
        rw [List.drop_zero, List.cons_append] at h0
        simp [h0])]
      rw [ih b f (by simp only [List.length_cons] at hf; omega) (fun i hi => by
        have hs := hno (i + 1) (by simp only [List.length_cons]; omega)
        simpa using hs)]

/-- `splitFirst` after a mismatch-free frame. -/
theorem splitFirst_frame (pat a b : List Char) (hpat : pat ≠ [])
    (hno : ∀ i, i < a.length → pat.isPrefixOf (a.drop i ++ (pat ++ b)) = false) :
    splitFirst pat (a ++ (pat ++ b)) = some (a, b) := by
  unfold splitFirst
  exact splitFirstAux_frame pat hpat a b _
    (by simp only [List.length_append]; omega) hno

/-- A concrete frame check lifts to the full mismatch-free condition. -/
theorem frame_hno (pat a b : List Char)
    (h : ∀ i, i < a.length → pat.isPrefixOf (a.drop i ++ pat) = false) :
    ∀ i, i < a.length → pat.isPrefixOf (a.drop i ++ (pat ++ b)) = false := by
  intro i hi
  rw [← List.append_assoc]
  exact isPrefixOf_append_false_of_long pat _
    (by simp only [List.length_append]; omega) (h i hi) b

/-- XML escaping never emits `<`. -/
theorem no_lt_escEnt (c : Char) : '<' ∉ escEnt c := by
  by_cases h1 : c = '&'
  · subst h1; decide
  · by_cases h2 : c = '<'
    · subst h2; decide
    · by_cases h3 : c = '>'
      · subst h3; decide
      · by_cases h4 : c = '\x22'
        · subst h4; decide
        · by_cases h5 : c = '\x27'
          · subst h5; decide
          · rw [show escEnt c = [c] from by simp [escEnt, h1, h2, h3, h4, h5]]
            intro h
            exact h2 ((List.mem_singleton.mp h).symm)

/-- An escaped text contains no `<` at all. -/
theorem no_lt_flatMap (s : List Char) : '<' ∉ s.flatMap escEnt := by
  intro h
  rw [List.mem_flatMap] at h
  obtain ⟨c, _, hc⟩ := h
  exact no_lt_escEnt c hc

/-- A `<`-headed pattern can never match inside a `<`-free block. -/
theorem hno_of_no_lt (pt a b : List Char) (hfree : '<' ∉ a) :
    ∀ i, i < a.length →
      ('<' :: pt).isPrefixOf (a.drop i ++ (('<' :: pt) ++ b)) = false := by
  intro i hi
  rw [show a.drop i = a[i] :: a.drop (i + 1) from (List.getElem_cons_drop a i hi).symm,
    List.cons_append]
  refine isPrefixOf_cons_ne _ _ _ _ (beq_eq_false_iff_ne.mpr ?_)
  intro he
  exact hfree (he ▸ List.getElem_mem hi)

/-- `trim` strips exactly the trailing newline of a wrapped text. -/
theorem jsTrim_wrap (x : Char) (mid : List Char) (y : Char)
    (hx : isTrimChar x = false) (hy : isTrimChar y = false) :
    jsTrim ((x :: (mid ++ [y])) ++ ['\n']) = x :: (mid ++ [y]) := by
  unfold jsTrim
  rw [show ((x :: (mid ++ [y])) ++ ['\n']).dropWhile isTrimChar
      = (x :: (mid ++ [y])) ++ ['\n'] from by
    rw [List.cons_append, List.dropWhile_cons, if_neg (by simp [hx])]]
  rw [show ((x :: (mid ++ [y])) ++ ['\n']).reverse
      = '\n' :: (y :: (mid.reverse ++ [x])) from by
    simp [List.reverse_append, List.reverse_cons]]
  rw [List.dropWhile_cons, if_pos (by decide)]
  rw [List.dropWhile_cons, if_neg (by simp [hy])]
  rw [show (y :: (mid.reverse ++ [x])).reverse = x :: (mid ++ [y]) from by
    simp [List.reverse_cons, List.reverse_append]]

/-- The rendered form of an object is brace-wrapped. -/
theorem render_obj_shape (ms : List (List Char × Json)) :
    ∃ middle, renderP 0 (.obj ms) = '\x7b' :: (middle ++ ['\x7d']) := by
  cases ms with
  | nil => exact ⟨[], rfl⟩
  | cons m ms2 =>
      have hsh := renderP_obj_cons 0 m ms2 []
      rw [List.append_nil] at hsh
      refine ⟨'\n' :: (ind (0 + 1) ++ ('"' :: (m.1.flatMap jsonEscapeChar
        ++ ('"' :: (':' :: (' ' :: (renderP (0 + 1) m.2 ++ (renderPMembers (0 + 1) ms2
        ++ ('\n' :: ind 0))))))))), ?_⟩
      rw [hsh]
      simp [List.append_assoc]

/-- The escaped rendered form of an object is brace-wrapped. -/
theorem escaped_render_obj (ms : List (List Char × Json)) :
    ∃ mid, (renderP 0 (.obj ms)).flatMap escEnt = '\x7b' :: (mid ++ ['\x7d']) := by
  obtain ⟨middle, hm⟩ := render_obj_shape ms
  refine ⟨middle.flatMap escEnt, ?_⟩
  rw [hm]
  rw [List.flatMap_cons, List.flatMap_append]
  rw [show escEnt '\x7b' = ['\x7b'] from rfl]
  rw [show ([('\x7d' : Char)] : List Char).flatMap escEnt = ['\x7d'] from rfl]
  rw [List.cons_append, List.nil_append]

/-- The built XMP packet, right-nested around the escaped payload. -/
theorem buildArrXmpXml_shape (signed : Json) : buildArrXmpXml signed
    = frameA ++ (arrOpenTag ++ (escapeXml (serializeSignedAttestation signed)
        ++ (arrCloseTag ++ frameB))) := by
  unfold buildArrXmpXml frameA frameB
  simp [List.append_assoc]

set_option maxRecDepth 16384 in
/-- The lazy regex model finds exactly the escaped payload in the
built packet. -/
theorem xmlArrMatch_build (signed : Json) :
    xmlArrMatch (buildArrXmpXml signed)
      = some (escapeXml (serializeSignedAttestation signed)) := by
  rw [buildArrXmpXml_shape]
  unfold xmlArrMatch
  rw [splitFirst_frame arrOpenTag frameA
    (escapeXml (serializeSignedAttestation signed) ++ (arrCloseTag ++ frameB))
    (by decide) (frame_hno _ _ _ (by decide))]
  dsimp only [bind, Option.bind]
  rw [escapeXml_flatMap]
  rw [splitFirst_frame arrCloseTag ((serializeSignedAttestation signed).flatMap escEnt)
    frameB (by decide) (by
      rw [show arrCloseTag = '<' :: jk "/arr:attestation>" from rfl]
      exact hno_of_no_lt _ _ _ (no_lt_flatMap _))]

/-- A value passing the signed-attestation check is an object. -/
theorem signed_is_obj (signed : Json) (h : isSignedAttestation signed = true) :
    ∃ ms, signed = .obj ms := by
  cases signed with
  | obj ms => exact ⟨ms, rfl⟩
  | null => simp [isSignedAttestation, isRecord] at h
  | bool b => simp [isSignedAttestation, isRecord] at h
  | num i => simp [isSignedAttestation, isRecord] at h
  | str s => simp [isSignedAttestation, isRecord] at h
  | arr xs => simp [isSignedAttestation, isRecord] at h

/-- Extracting from the built XMP packet returns the signed
attestation. -/
theorem extractXml_build (signed : Json)
    (hwf : jsonWF signed = true) (hsig : isSignedAttestation signed = true) :
    extractArrAttestationFromXml (buildArrXmpXml signed) = .ok (some signed) := by
  obtain ⟨ms, rfl⟩ := signed_is_obj signed hsig
  unfold extractArrAttestationFromXml
  rw [xmlArrMatch_build]
  dsimp only
  have hesc : escapeXml (serializeSignedAttestation (.obj ms))
      = (renderP 0 (.obj ms)).flatMap escEnt ++ ['\n'] := by
    unfold serializeSignedAttestation
    rw [escapeXml_flatMap, List.flatMap_append]
    rfl
  rw [hesc]
  obtain ⟨mid, hmid⟩ := escaped_render_obj ms
  rw [hmid]
  rw [jsTrim_wrap '\x7b' mid '\x7d' (by decide) (by decide)]
  rw [← hmid]
  rw [show (renderP 0 (.obj ms)).flatMap escEnt = escapeXml (renderP 0 (.obj ms)) from
    (escapeXml_flatMap _).symm]
  rw [decode_escape]
  rw [parseSigned_render _ hwf hsig]
  rfl

/-- The head of a `dropWhile` residue fails the predicate. -/
theorem dropWhile_head_false (p : Nat → Bool) : ∀ (l : List Nat) (b : Nat) (t : List Nat),
    l.dropWhile p = b :: t → p b = false := by
  intro l
  induction l with
  | nil => intro b t h; simp [List.dropWhile] at h
  | cons a l' ih =>
      intro b t h
      rw [List.dropWhile_cons] at h
      by_cases hp : p a
      · rw [if_pos hp] at h
        exact ih b t h
      · rw [if_neg hp] at h
        injection h with h1 _
        subst h1
        simpa using hp

/-- Decomposition of a byte stream at its fill-byte run. -/
theorem fill_decomp (bs : List Nat)
    (h : (bs.takeWhile (fun x => x = 255)).length < bs.length) :
    ∃ m rest3, bs = List.replicate (bs.takeWhile (fun x => x = 255)).length 255
        ++ (m :: rest3)
      ∧ ¬ m = 255 := by
  have hsplit := List.takeWhile_append_dropWhile (fun x => decide (x = 255)) bs
  have htw : bs.takeWhile (fun x => decide (x = 255))
      = List.replicate (bs.takeWhile (fun x => decide (x = 255))).length 255 := by
    rw [List.eq_replicate_iff]
    refine ⟨rfl, ?_⟩
    intro b hb
    have := List.mem_takeWhile_imp hb
    simpa using this
  have hlen : (bs.takeWhile (fun x => decide (x = 255))).length
      + (bs.dropWhile (fun x => decide (x = 255))).length = bs.length := by
    conv_rhs => rw [← List.takeWhile_append_dropWhile (fun x => decide (x = 255)) bs]
    rw [List.length_append]
  cases hd : bs.dropWhile (fun x => decide (x = 255)) with
  | nil =>
      exfalso
      rw [hd] at hlen
      simp at hlen
      omega
  | cons m rest3 =>
      refine ⟨m, rest3, ?_, ?_⟩
      · conv_lhs => rw [← hsplit]
        rw [hd, ← htw]
      · have := dropWhile_head_false _ bs m rest3 hd
        simpa using this

/-- `drop` past a length-aligned append. -/
theorem drop_append_len_add (P X : List Nat) (i : Nat) :
    (P ++ X).drop (P.length + i) = X.drop i := by
  rw [← List.drop_drop, List.drop_left]

/-- The marker byte read by the scan, on the decomposed stream. -/
theorem getD_marker (b F m : Nat) (rest3 : List Nat) :
    (b :: (List.replicate F 255 ++ (m :: rest3))).getD (1 + F) 0 = m := by
  rw [show 1 + F = F + 1 from by omega, List.getD_cons_succ]
  have h := getD_append_len_add (List.replicate F 255) (m :: rest3) 0 0
  rw [List.length_replicate] at h
  simp only [Nat.add_zero] at h
  exact h

/-- The byte after the marker, on the decomposed stream. -/
theorem getD_after_marker (b F m : Nat) (x : Nat) (rest4 : List Nat) (i : Nat) :
    (b :: (List.replicate F 255 ++ (m :: (x :: rest4)))).getD (1 + F + (i + 1)) 0
      = (x :: rest4).getD i 0 := by
  rw [show 1 + F + (i + 1) = (F + (i + 1)) + 1 from by omega, List.getD_cons_succ]
  have h := getD_append_len_add (List.replicate F 255) (m :: (x :: rest4)) (i + 1) 0
  rw [List.length_replicate] at h
  rw [h, List.getD_cons_succ]

/-- The fill run of the scan, on the decomposed stream followed by
anything. -/
theorem takeWhile_fill (F m : Nat) (rest3 C : List Nat) (hm : ¬ m = 255) :
    ((List.replicate F 255 ++ (m :: rest3)) ++ C).takeWhile (fun x => decide (x = 255))
      = List.replicate F 255 := by
  rw [List.append_assoc, List.cons_append]
  induction F with
  | zero =>
      simp only [List.replicate, List.nil_append, List.takeWhile_cons]
      rw [if_neg (by simp [hm])]
  | succ k ih =>
      simp only [List.replicate, List.cons_append, List.takeWhile_cons]
      rw [if_pos (by simp)]
      rw [ih]

/-- `drop` to the marker region, on the decomposed stream followed by
anything. -/
theorem drop_decomp (b F m : Nat) (rest3 C : List Nat) (k : Nat) :
    ((b :: (List.replicate F 255 ++ (m :: rest3))) ++ C).drop (F + 2 + k)
      = (rest3 ++ C).drop k := by
  rw [List.cons_append]
  rw [show F + 2 + k = (F + 1 + k) + 1 from by omega, List.drop_succ_cons]
  rw [List.append_assoc, List.cons_append]
  rw [show F + 1 + k = (List.replicate F 255).length + (1 + k) from by
    rw [List.length_replicate]; omega]
  rw [drop_append_len_add]
  rw [show (1 + k : Nat) = k + 1 from by omega, List.drop_succ_cons]

/-- `take` of the marker segment, on the decomposed stream followed by
anything. -/
theorem take_decomp (b F m : Nat) (rest3 C : List Nat) (k : Nat) (hk : k ≤ rest3.length) :
    ((b :: (List.replicate F 255 ++ (m :: rest3))) ++ C).take (F + 2 + k)
      = b :: (List.replicate F 255 ++ (m :: rest3.take k)) := by
  rw [List.cons_append]
  rw [show F + 2 + k = (F + 1 + k) + 1 from by omega, List.take_succ_cons]
  rw [List.append_assoc, List.cons_append]
  rw [show F + 1 + k = (List.replicate F 255).length + (1 + k) from by
    rw [List.length_replicate]; omega]
  rw [List.take_append]
  rw [show (1 + k : Nat) = k + 1 from by omega, List.take_succ_cons]
  rw [List.take_append_of_le_length hk]

/-- `take` of a standalone marker segment. -/
theorem take_seg_standalone (b F m : Nat) (rest3 : List Nat) :
    (b :: (List.replicate F 255 ++ (m :: rest3))).take (F + 2)
      = b :: (List.replicate F 255 ++ [m]) := by
  have ht := take_decomp b F m rest3 [] 0 (by omega)
  rw [List.append_nil] at ht
  simpa using ht

/-- `take` of a length-field segment. -/
theorem take_seg_len (b F m : Nat) (rest3 : List Nat) (L : Nat) (hL : L ≤ rest3.length) :
    (b :: (List.replicate F 255 ++ (m :: rest3))).take (F + 2 + L)
      = b :: (List.replicate F 255 ++ (m :: rest3.take L)) := by
  have ht := take_decomp b F m rest3 [] L hL
  rw [List.append_nil] at ht
  exact ht

/-- `drop` past a segment. -/
theorem drop_seg_pos (b F m : Nat) (rest3 : List Nat) (k : Nat) :
    (b :: (List.replicate F 255 ++ (m :: rest3))).drop (F + 2 + k) = rest3.drop k := by
  have hd := drop_decomp b F m rest3 [] k
  rw [List.append_nil, List.append_nil] at hd
  exact hd

/-- Soundness of the marker scan: collected segments and the tail
satisfy the slice invariants. -/
theorem splitSegs_sound : ∀ (fuel : Nat) (s : List Nat) (segs : List (List Nat))
    (tail : List Nat),
    splitSegs fuel s = .ok (segs, tail) →
    (∀ seg ∈ segs, SegWF seg) ∧ TailWF tail := by
  intro fuel
  induction fuel with
  | zero =>
      intro s segs tail h
      cases s with
      | nil =>
          simp only [splitSegs, Except.ok.injEq, Prod.mk.injEq] at h
          obtain ⟨h1, h2⟩ := h
          subst h1
          subst h2
          exact ⟨by simp, 0, 217, [], rfl, Or.inr rfl⟩
      | cons b bs => simp only [splitSegs] at h; exact absurd h (by simp)
  | succ f ih =>
      intro s segs tail h
      cases s with
      | nil =>
          simp only [splitSegs, Except.ok.injEq, Prod.mk.injEq] at h
          obtain ⟨h1, h2⟩ := h
          subst h1
          subst h2
          exact ⟨by simp, 0, 217, [], rfl, Or.inr rfl⟩
      | cons b bs =>
          simp only [splitSegs] at h
          by_cases h0 : (b :: bs).getD 0 0 ≠ 255
          · rw [if_pos h0] at h
            exact absurd h (by simp)
          · rw [if_neg h0] at h
            have hb : b = 255 := by simpa using h0
            subst hb
            rw [show List.drop 1 (255 :: bs) = bs from rfl] at h
            by_cases h1 : 1 + (List.takeWhile (fun x => decide (x = 255)) bs).length
                ≥ (255 :: bs).length
            · rw [if_pos h1] at h
              exact absurd h (by simp)
            · rw [if_neg h1] at h
              obtain ⟨m, rest3, hbs, hm⟩ := fill_decomp bs (by
                simp only [List.length_cons] at h1
                omega)
              generalize hF : (List.takeWhile (fun x => decide (x = 255)) bs).length = F
                at h h1 hbs
              have hmark : (255 :: bs).getD (1 + F) 0 = m := by
                conv_lhs => rw [hbs]
                exact getD_marker 255 F m rest3
              rw [hmark] at h
              by_cases h2 : m = 218 ∨ m = 217
              · rw [if_pos h2] at h
                simp only [Except.ok.injEq, Prod.mk.injEq] at h
                obtain ⟨hsegs, htail⟩ := h
                subst hsegs
                subst htail
                exact ⟨by simp, F, m, rest3, by rw [hbs], h2⟩
              · rw [if_neg h2] at h
                have hm218 : ¬ m = 218 := fun he => h2 (Or.inl he)
                have hm217 : ¬ m = 217 := fun he => h2 (Or.inr he)
                by_cases h3 : isStandaloneMarker m = true
                · rw [if_pos h3] at h
                  cases hrec : splitSegs f ((255 :: bs).drop (F + 2)) with
                  | error e =>
                      rw [hrec] at h
                      exact absurd h (by simp [bind, Except.bind])
                  | ok p =>
                      obtain ⟨segs', tail'⟩ := p
                      rw [hrec] at h
                      simp only [bind, Except.bind, Except.ok.injEq, Prod.mk.injEq] at h
                      obtain ⟨hsegs, htail⟩ := h
                      subst hsegs
                      subst htail
                      obtain ⟨ihA, ihB⟩ := ih _ _ _ hrec
                      refine ⟨?_, ihB⟩
                      intro seg hseg
                      rcases List.mem_cons.mp hseg with rfl | hseg2
                      · refine ⟨F, m, [], ?_, hm, hm218, hm217, Or.inl ⟨h3, rfl⟩⟩
                        conv_lhs => rw [hbs]
                        exact take_seg_standalone 255 F m rest3
                      · exact ihA seg hseg2
                · rw [if_neg h3] at h
                  by_cases h4 : (255 :: bs).length < F + 4
                  · rw [if_pos h4] at h
                    exact absurd h (by simp)
                  · rw [if_neg h4] at h
                    obtain ⟨b1, b2, rest4, hr3⟩ :
                        ∃ b1 b2 rest4, rest3 = b1 :: (b2 :: rest4) := by
                      cases rest3 with
                      | nil =>
                          exfalso
                          rw [hbs] at h4
                          simp [List.length_append, List.length_replicate] at h4
                      | cons x1 r1 =>
                          cases r1 with
                          | nil =>
                              exfalso
                              rw [hbs] at h4
                              simp [List.length_append, List.length_replicate] at h4
                          | cons x2 r2 => exact ⟨x1, x2, r2, rfl⟩
                    subst hr3
                    have hb1 : (255 :: bs).getD (F + 2) 0 = b1 := by
                      conv_lhs => rw [hbs]
                      have hg := getD_after_marker 255 F m b1 (b2 :: rest4) 0
                      rw [show 1 + F + (0 + 1) = F + 2 from by omega] at hg
                      rw [hg]
                      rfl
                    have hb2 : (255 :: bs).getD (F + 2 + 1) 0 = b2 := by
                      conv_lhs => rw [hbs]
                      have hg := getD_after_marker 255 F m b1 (b2 :: rest4) 1
                      rw [show 1 + F + (1 + 1) = F + 2 + 1 from by omega] at hg
                      rw [hg]
                      rfl
                    rw [show readBE16 (255 :: bs) (F + 2) = b1 * 256 + b2 from by
                      rw [readBE16, hb1, hb2]] at h
                    by_cases h5 : b1 * 256 + b2 < 2
                    · rw [if_pos h5] at h
                      exact absurd h (by simp)
                    · rw [if_neg h5] at h
                      by_cases h6 : F + 2 + (b1 * 256 + b2) > (255 :: bs).length
                      · rw [if_pos h6] at h
                        exact absurd h (by simp)
                      · rw [if_neg h6] at h
                        cases hrec : splitSegs f
                            ((255 :: bs).drop (F + 2 + (b1 * 256 + b2))) with
                        | error e =>
                            rw [hrec] at h
                            exact absurd h (by simp [bind, Except.bind])
                        | ok p =>
                            obtain ⟨segs', tail'⟩ := p
                            rw [hrec] at h
                            simp only [bind, Except.bind, Except.ok.injEq,
                              Prod.mk.injEq] at h
                            obtain ⟨hsegs, htail⟩ := h
                            subst hsegs
                            subst htail
                            obtain ⟨ihA, ihB⟩ := ih _ _ _ hrec
                            refine ⟨?_, ihB⟩
                            intro seg hseg
                            rcases List.mem_cons.mp hseg with rfl | hseg2
                            · have hlen3 : b1 * 256 + b2
                                  ≤ (b1 :: (b2 :: rest4)).length := by
                                rw [hbs] at h6
                                simp only [List.length_cons, List.length_append,
                                  List.length_replicate] at h6 ⊢
                                omega
                              refine ⟨F, m,
                                (b1 :: (b2 :: rest4)).take (b1 * 256 + b2),
                                ?_, hm, hm218, hm217,
                                Or.inr ⟨by simpa using h3, ?_⟩⟩
                              · conv_lhs => rw [hbs]
                                exact take_seg_len 255 F m (b1 :: (b2 :: rest4))
                                  (b1 * 256 + b2) hlen3
                              · obtain ⟨k, hk⟩ : ∃ k, b1 * 256 + b2 = k + 2 :=
                                  ⟨b1 * 256 + b2 - 2, by omega⟩
                                rw [hk, List.take_succ_cons, List.take_succ_cons]
                                refine ⟨b1, b2, rest4.take k, rfl, ?_⟩
                                simp only [List.length_take]
                                rw [hbs] at h6
                                simp only [List.length_cons, List.length_append,
                                  List.length_replicate] at h6
                                omega
                            · exact ihA seg hseg2

/-- The fill run without a following context. -/
theorem takeWhile_fill0 (F m : Nat) (rest3 : List Nat) (hm : ¬ m = 255) :
    (List.replicate F 255 ++ (m :: rest3)).takeWhile (fun x => decide (x = 255))
      = List.replicate F 255 := by
  have h := takeWhile_fill F m rest3 [] hm
  rw [List.append_nil] at h
  exact h

/-- Concatenated well-formed segments followed by a well-formed tail
scan back to exactly those segments and that tail. -/
theorem splitSegs_concat : ∀ (SS : List (List Nat)) (T : List Nat) (fuel : Nat),
    SS.length < fuel →
    (∀ seg ∈ SS, SegWF seg) → TailWF T →
    splitSegs fuel (SS.flatten ++ T) = .ok (SS, T) := by
  intro SS
  induction SS with
  | nil =>
      intro T fuel hf _ hT
      obtain ⟨f, rfl⟩ : ∃ f, fuel = f + 1 := ⟨fuel - 1, by omega⟩
      simp only [List.flatten_nil, List.nil_append]
      obtain ⟨fills, marker, rest2, hT1, hT2⟩ := hT
      have hm : ¬ marker = 255 := by rcases hT2 with rfl | rfl <;> decide
      rw [hT1]
      simp only [splitSegs]
      rw [if_neg (by simp)]
      rw [show List.drop 1 (255 :: (List.replicate fills 255 ++ (marker :: rest2)))
        = List.replicate fills 255 ++ (marker :: rest2) from rfl]
      rw [takeWhile_fill0 fills marker rest2 hm]
      rw [List.length_replicate]
      rw [if_neg (by
        simp only [List.length_cons, List.length_append, List.length_replicate]
        omega)]
      rw [getD_marker 255 fills marker rest2]
      rw [if_pos hT2]
  | cons seg SS' ih =>
      intro T fuel hf hWF hT
      obtain ⟨f, rfl⟩ : ∃ f, fuel = f + 1 := ⟨fuel - 1, by omega⟩
      obtain ⟨F, m, body, hseg, hm, hm218, hm217, hbody⟩ := hWF seg (by simp)
      simp only [List.flatten_cons, List.append_assoc]
      rw [hseg, List.cons_append]
      rw [show (List.replicate F 255 ++ (m :: body)) ++ (SS'.flatten ++ T)
        = List.replicate F 255 ++ (m :: (body ++ (SS'.flatten ++ T))) from by
        simp [List.append_assoc]]
      simp only [splitSegs]
      rw [if_neg (by simp)]
      rw [show List.drop 1 (255 :: (List.replicate F 255
          ++ (m :: (body ++ (SS'.flatten ++ T)))))
        = List.replicate F 255 ++ (m :: (body ++ (SS'.flatten ++ T))) from rfl]
      rw [takeWhile_fill0 F m _ hm]
      rw [List.length_replicate]
      rw [if_neg (by
        simp only [List.length_cons, List.length_append, List.length_replicate]
        omega)]
      rw [getD_marker 255 F m _]
      rw [if_neg (fun hor => by rcases hor with he | he; exact hm218 he; exact hm217 he)]
      rcases hbody with ⟨hstand, rfl⟩ | ⟨hnstand, b1, b2, data, rfl, hsum⟩
      · rw [if_pos hstand]
        rw [show ((255 :: (List.replicate F 255
            ++ (m :: ([] ++ (SS'.flatten ++ T))))).drop (F + 2) : List Nat)
          = SS'.flatten ++ T from by
          have hd := drop_seg_pos 255 F m ([] ++ (SS'.flatten ++ T)) 0
          simpa using hd]
        rw [ih T f (by simp only [List.length_cons] at hf; omega)
          (fun d hd => hWF d (by simp [hd])) hT]
        rw [show ((255 :: (List.replicate F 255
            ++ (m :: ([] ++ (SS'.flatten ++ T))))).take (F + 2) : List Nat)
          = 255 :: (List.replicate F 255 ++ [m]) from by
          rw [List.nil_append]
          exact take_seg_standalone 255 F m (SS'.flatten ++ T)]
        rw [show (255 :: (List.replicate F 255 ++ [m]) : List Nat)
          = 255 :: (List.replicate F 255 ++ (m :: [])) from rfl]
        rfl
      · rw [if_neg (by simp [hnstand])]
        rw [show ((b1 :: (b2 :: data)) ++ (SS'.flatten ++ T))
          = b1 :: (b2 :: (data ++ (SS'.flatten ++ T))) from by simp]
        rw [if_neg (by
          simp only [List.length_cons, List.length_append, List.length_replicate]
          omega)]
        rw [show readBE16 (255 :: (List.replicate F 255
            ++ (m :: (b1 :: (b2 :: (data ++ (SS'.flatten ++ T))))))) (F + 2)
          = b1 * 256 + b2 from by
          rw [readBE16]
          have hg1 := getD_after_marker 255 F m b1 (b2 :: (data ++ (SS'.flatten ++ T))) 0
          rw [show 1 + F + (0 + 1) = F + 2 from by omega] at hg1
          have hg2 := getD_after_marker 255 F m b1 (b2 :: (data ++ (SS'.flatten ++ T))) 1
          rw [show 1 + F + (1 + 1) = F + 2 + 1 from by omega] at hg2
          rw [hg1, hg2]
          rfl]
        rw [if_neg (by omega)]
        rw [if_neg (by
          simp only [List.length_cons, List.length_append, List.length_replicate]
          omega)]
        rw [show ((255 :: (List.replicate F 255
            ++ (m :: (b1 :: (b2 :: (data ++ (SS'.flatten ++ T))))))).drop
              (F + 2 + (b1 * 256 + b2)) : List Nat)
          = SS'.flatten ++ T from by
          rw [drop_seg_pos 255 F m _ (b1 * 256 + b2)]
          rw [show (b1 :: (b2 :: (data ++ (SS'.flatten ++ T))))
            = (b1 :: (b2 :: data)) ++ (SS'.flatten ++ T) from by simp]
          rw [show b1 * 256 + b2 = (b1 :: (b2 :: data)).length from by
            simp only [List.length_cons]
            omega]
          exact List.drop_left _ _]
        rw [ih T f (by simp only [List.length_cons] at hf; omega)
          (fun d hd => hWF d (by simp [hd])) hT]
        rw [show ((255 :: (List.replicate F 255
            ++ (m :: (b1 :: (b2 :: (data ++ (SS'.flatten ++ T))))))).take
              (F + 2 + (b1 * 256 + b2)) : List Nat)
          = 255 :: (List.replicate F 255 ++ (m :: (b1 :: (b2 :: data)))) from by
          rw [take_seg_len 255 F m (b1 :: (b2 :: (data ++ (SS'.flatten ++ T))))
            (b1 * 256 + b2) (by
              simp only [List.length_cons, List.length_append]
              omega)]
          rw [show (b1 :: (b2 :: (data ++ (SS'.flatten ++ T))))
            = (b1 :: (b2 :: data)) ++ (SS'.flatten ++ T) from by simp]
          rw [show b1 * 256 + b2 = (b1 :: (b2 :: data)).length from by
            simp only [List.length_cons]
            omega]
          rw [List.take_left]]
        rfl

/-- `createArrApp1Segment` succeeds below the 16-bit limit and yields
exactly those bytes. -/
theorem createArrApp1Segment_ok (signed : Json)
    (h : (xmpIdentifier ++ utf8Encode (buildArrXmpXml signed)).length + 2 ≤ 65535) :
    createArrApp1Segment signed = .ok (arrSegOf signed) := by
  unfold createArrApp1Segment arrSegOf
  dsimp only
  rw [if_neg (by omega)]

/-- The fresh segment satisfies the segment invariants. -/
theorem arrSegOf_wf (signed : Json)
    (h : (xmpIdentifier ++ utf8Encode (buildArrXmpXml signed)).length + 2 ≤ 65535) :
    SegWF (arrSegOf signed) := by
  refine ⟨0, 225,
    be16 ((xmpIdentifier ++ utf8Encode (buildArrXmpXml signed)).length + 2)
      ++ (xmpIdentifier ++ utf8Encode (buildArrXmpXml signed)),
    rfl, by decide, by decide, by decide,
    Or.inr ⟨by decide,
      ((xmpIdentifier ++ utf8Encode (buildArrXmpXml signed)).length + 2) / 256 % 256,
      ((xmpIdentifier ++ utf8Encode (buildArrXmpXml signed)).length + 2) % 256,
      xmpIdentifier ++ utf8Encode (buildArrXmpXml signed), rfl, ?_⟩⟩
  omega

/-- Packet decomposition at the namespace. -/
theorem buildArrXmpXml_shape2 (signed : Json) : buildArrXmpXml signed
    = frameC ++ (arrNamespace ++ (jk "\x22>" ++ (arrOpenTag
        ++ (escapeXml (serializeSignedAttestation signed) ++ (arrCloseTag ++ frameB))))) := by
  unfold buildArrXmpXml frameC frameB
  simp [List.append_assoc]

set_option maxRecDepth 16384 in
/-- The fresh segment is recognised as the attestation XMP segment. -/
theorem isArrXmpSegment_arrSegOf (signed : Json) :
    isArrXmpSegment (arrSegOf signed) = true := by
  unfold isArrXmpSegment
  rw [show parseApp1Payload (arrSegOf signed)
    = xmpIdentifier ++ utf8Encode (buildArrXmpXml signed) from rfl]
  rw [show isApp1Segment (arrSegOf signed) = true from by
    unfold isApp1Segment arrSegOf
    refine (Bool.and_eq_true _ _).mpr ⟨(Bool.and_eq_true _ _).mpr ⟨?_, by rfl⟩, by rfl⟩
    simp only [be16, List.length_cons, List.length_append, decide_eq_true_eq]
    omega]
  rw [Bool.true_and]
  dsimp only
  rw [List.take_left]
  rw [show (decide (xmpIdentifier = xmpIdentifier) : Bool) = true from by simp]
  rw [Bool.true_and]
  rw [List.drop_left, utf8Decode_encode]
  refine (Bool.and_eq_true _ _).mpr ⟨?_, ?_⟩
  · unfold jsIncludes
    rw [buildArrXmpXml_shape2]
    rw [splitFirst_frame arrNamespace frameC _ (by decide) (frame_hno _ _ _ (by decide))]
    rfl
  · unfold jsIncludes
    rw [buildArrXmpXml_shape]
    rw [splitFirst_frame arrOpenTag frameA _ (by decide) (frame_hno _ _ _ (by decide))]
    rfl

/-- The segment scan skips non-attestation segments. -/
theorem jpegScan_skip_all : ∀ (segs rest : List (List Nat)),
    (∀ s ∈ segs, isArrXmpSegment s = false) →
    jpegScan (segs ++ rest) = jpegScan rest := by
  intro segs
  induction segs with
  | nil => intro rest _; rw [List.nil_append]
  | cons s segs' ih =>
      intro rest h
      rw [List.cons_append, jpegScan]
      rw [if_pos (by simp [h s (by simp)])]
      exact ih rest (fun d hd => h d (by simp [hd]))

/-- The segment scan surfaces the payload of the fresh segment. -/
theorem jpegScan_arrSegOf (signed : Json) (rest : List (List Nat))
    (hwf : jsonWF signed = true) (hsig : isSignedAttestation signed = true) :
    jpegScan (arrSegOf signed :: rest) = .ok (some signed) := by
  rw [jpegScan]
  rw [if_neg (by simp [isArrXmpSegment_arrSegOf])]
  dsimp only
  rw [show parseApp1Payload (arrSegOf signed)
    = xmpIdentifier ++ utf8Encode (buildArrXmpXml signed) from rfl]
  rw [List.drop_left, utf8Decode_encode]
  rw [extractXml_build signed hwf hsig]
  rfl

/-- Well-formed segments are nonempty, so the byte length of a
segment stream dominates the segment count. -/
theorem segCount_le_flatten : ∀ (SS : List (List Nat)), (∀ s ∈ SS, SegWF s) →
    SS.length ≤ SS.flatten.length := by
  intro SS
  induction SS with
  | nil => intro _; simp
  | cons s SS' ih =>
      intro h
      obtain ⟨F, m, body, hs, _⟩ := h s (by simp)
      simp only [List.flatten_cons, List.length_append, List.length_cons]
      have h2 := ih (fun d hd => h d (by simp [hd]))
      rw [hs]
      simp only [List.length_cons]
      omega

/-- The two spellings of the non-reserved filter agree. -/
theorem filter_not_arrXmp (segs : List (List Nat)) :
    segs.filter (fun s => ¬ isArrXmpSegment s) = segs.filter (fun s => ! isArrXmpSegment s) := by
  induction segs with
  | nil => rfl
  | cons s ss ih =>
      rw [List.filter_cons, List.filter_cons]
      cases hx : isArrXmpSegment s
      · simp [hx, ih]
      · simp [hx, ih]

/-- JPEG embed and re-extract: embedding succeeds, the output re-splits
into the original non-reserved segments, the fresh XMP segment last
before the tail, and extraction returns the signed attestation. -/
theorem jpeg_embed_extract (buffer : List Nat) (signed : Json) (segs : List (List Nat))
    (tail : List Nat)
    (hjpeg : isJpeg buffer = true)
    (hscan : splitSegs buffer.length (buffer.drop 2) = .ok (segs, tail))
    (hwf : jsonWF signed = true) (hsig : isSignedAttestation signed = true)
    (hxmp : (xmpIdentifier ++ utf8Encode (buildArrXmpXml signed)).length + 2 ≤ 65535) :
    ∃ out, embedJpegAttestation buffer signed = .ok out
      ∧ splitJpeg out = .ok (out.take 2,
          segs.filter (fun s => ! isArrXmpSegment s) ++ [arrSegOf signed], tail)
      ∧ extractJpegAttestation out = .ok (some signed) := by
  obtain ⟨hWFsegs, hTail⟩ := splitSegs_sound _ _ _ _ hscan
  have hembed : embedJpegAttestation buffer signed
      = .ok (buffer.take 2 ++ (segs.filter (fun s => ! isArrXmpSegment s)).flatten
          ++ arrSegOf signed ++ tail) := by
    unfold embedJpegAttestation splitJpeg
    rw [if_neg (by simp [hjpeg])]
    rw [hscan]
    dsimp only [bind, Except.bind]
    rw [createArrApp1Segment_ok signed hxmp]
    rw [filter_not_arrXmp]
  obtain ⟨b2rest, hbuf⟩ : ∃ b2rest, buffer = 255 :: (216 :: b2rest) := by
    cases buffer with
    | nil => simp [isJpeg] at hjpeg
    | cons x1 r1 =>
        cases r1 with
        | nil => simp [isJpeg] at hjpeg
        | cons x2 r2 =>
            simp only [isJpeg, Bool.and_eq_true, decide_eq_true_eq] at hjpeg
            obtain ⟨⟨_, hx1⟩, hx2⟩ := hjpeg
            rw [show (x1 :: (x2 :: r2)).getD 0 0 = x1 from rfl] at hx1
            rw [show (x1 :: (x2 :: r2)).getD 1 0 = x2 from rfl] at hx2
            subst hx1
            subst hx2
            exact ⟨r2, rfl⟩
  have htake2 : buffer.take 2 = [255, 216] := by rw [hbuf]; rfl
  obtain ⟨fT, mT, rT, hT1, hT2⟩ := hTail
  have hTlen : 2 ≤ tail.length := by
    rw [hT1]
    simp only [List.length_cons, List.length_append, List.length_replicate]
    omega
  have hWFfilter : ∀ s ∈ segs.filter (fun s => ! isArrXmpSegment s) ++ [arrSegOf signed],
      SegWF s := by
    intro s hs
    rcases List.mem_append.mp hs with hs1 | hs2
    · exact hWFsegs s (List.mem_of_mem_filter hs1)
    · rw [List.mem_singleton.mp hs2]
      exact arrSegOf_wf signed hxmp
  have hcount := segCount_le_flatten
    ((segs.filter (fun s => ! isArrXmpSegment s)).map id ++ [arrSegOf signed]) ?hc
  case hc =>
    intro s hs
    rcases List.mem_append.mp hs with hs1 | hs2
    · rw [List.map_id] at hs1
      exact hWFsegs s (List.mem_of_mem_filter hs1)
    · rw [List.mem_singleton.mp hs2]
      exact arrSegOf_wf signed hxmp
  rw [List.map_id] at hcount
  have hdrop2 : (buffer.take 2 ++ (segs.filter (fun s => ! isArrXmpSegment s)).flatten
        ++ arrSegOf signed ++ tail).drop 2
      = (segs.filter (fun s => ! isArrXmpSegment s) ++ [arrSegOf signed]).flatten
        ++ tail := by
    rw [htake2]
    simp [List.flatten_append, List.append_assoc]
  have hlenout : (buffer.take 2 ++ (segs.filter (fun s => ! isArrXmpSegment s)).flatten
        ++ arrSegOf signed ++ tail).length
      = 2 + ((segs.filter (fun s => ! isArrXmpSegment s) ++ [arrSegOf signed]).flatten
          ++ tail).length := by
    rw [htake2]
    simp [List.flatten_append, List.append_assoc]
    omega
  have hresplit : splitJpeg (buffer.take 2
        ++ (segs.filter (fun s => ! isArrXmpSegment s)).flatten
        ++ arrSegOf signed ++ tail)
      = .ok ((buffer.take 2 ++ (segs.filter (fun s => ! isArrXmpSegment s)).flatten
            ++ arrSegOf signed ++ tail).take 2,
          segs.filter (fun s => ! isArrXmpSegment s) ++ [arrSegOf signed], tail) := by
    unfold splitJpeg
    rw [if_neg (show ¬ ¬ isJpeg (buffer.take 2
        ++ (segs.filter (fun s => ! isArrXmpSegment s)).flatten
        ++ arrSegOf signed ++ tail) = true from by
      intro hno
      apply hno
      rw [htake2]
      simp only [isJpeg, Bool.and_eq_true, decide_eq_true_eq]
      refine ⟨⟨?_, by rfl⟩, by rfl⟩
      simp only [List.length_append, List.length_cons]
      omega)]
    rw [hdrop2]
    rw [splitSegs_concat (segs.filter (fun s => ! isArrXmpSegment s) ++ [arrSegOf signed])
      tail _ (by
        rw [hlenout]
        simp only [List.length_append, List.length_cons, List.length_nil] at hcount ⊢
        omega)
      hWFfilter ⟨fT, mT, rT, hT1, hT2⟩]
    rfl
  refine ⟨_, hembed, hresplit, ?_⟩
  unfold extractJpegAttestation
  rw [hresplit]
  dsimp only [bind, Except.bind]
  rw [jpegScan_skip_all (segs.filter (fun s => ! isArrXmpSegment s)) [arrSegOf signed]
    (fun d hd => by
      have h := List.of_mem_filter hd
      simpa using h)]
  exact jpegScan_arrSegOf signed [] hwf hsig

/-- C4.  Extract-after-embed round trip for both formats: on any PNG
whose chunk stream ends with `IEND`, and any JPEG whose marker scan
succeeds, embedding a well-formed signed attestation (whose encoded
payloads fit the format limits) succeeds and extracting from the
output returns exactly that signed attestation. -/
theorem roundtrip_extract_embed
    (pngBuf jpgBuf : List Nat) (signed : Json)
    (init : List PngChunk) (iend : PngChunk)
    (segs : List (List Nat)) (tail : List Nat)
    (hpng : parseChunks pngBuf = .ok (init ++ [iend]))
    (hiend : iend.type = jk "IEND")
    (hjpeg : isJpeg jpgBuf = true)
    (hscan : splitSegs jpgBuf.length (jpgBuf.drop 2) = .ok (segs, tail))
    (hwf : jsonWF signed = true) (hsig : isSignedAttestation signed = true)
    (hszPng : (encodeItxt arrKeyword (serializeSignedAttestation signed)).length
      ≤ 4294967295)
    (hszJpg : (xmpIdentifier ++ utf8Encode (buildArrXmpXml signed)).length + 2 ≤ 65535) :
    (∃ out, embedPngAttestation pngBuf signed = .ok out
      ∧ extractPngAttestation out = .ok (some signed))
    ∧ (∃ out, embedJpegAttestation jpgBuf signed = .ok out
      ∧ extractJpegAttestation out = .ok (some signed)) := by
  refine ⟨png_roundtrip_main pngBuf signed init iend hpng hiend hwf hsig hszPng, ?_⟩
  obtain ⟨out, h1, _, h3⟩ :=
    jpeg_embed_extract jpgBuf signed segs tail hjpeg hscan hwf hsig hszJpg
  exact ⟨out, h1, h3⟩

set_option maxRecDepth 100000 in
/-- C4 witness: the round trip holds concretely on a minimal PNG, a
minimal JPEG and the sample signed attestation. -/
theorem roundtrip_extract_embed_witness :
    parseChunks pngMinW = .ok ([] ++ [iendChunkW])
    ∧ iendChunkW.type = jk "IEND"
    ∧ isJpeg jpegMinW = true
    ∧ splitSegs jpegMinW.length (jpegMinW.drop 2) = .ok ([], [255, 217])
    ∧ jsonWF sampleSigned = true
    ∧ isSignedAttestation sampleSigned = true
    ∧ ((∃ out, embedPngAttestation pngMinW sampleSigned = .ok out
        ∧ extractPngAttestation out = .ok (some sampleSigned))
      ∧ (∃ out, embedJpegAttestation jpegMinW sampleSigned = .ok out
        ∧ extractJpegAttestation out = .ok (some sampleSigned))) :=
  ⟨by rfl, rfl, rfl, by rfl, by decide, by rfl,
    roundtrip_extract_embed pngMinW jpegMinW sampleSigned [] iendChunkW [] [255, 217]
      (by rfl) rfl rfl (by rfl) (by decide) (by rfl) (by decide) (by decide)⟩

/-- C6.  Idempotent replace: embedding into any structurally valid
PNG or JPEG drops every pre-existing reserved container and leaves
exactly one — the fresh iTXt chunk immediately before `IEND` for PNG,
the fresh APP1/XMP segment last before the entropy-coded tail for
JPEG — so embedding twice leaves one reserved container, not two. -/
theorem embed_idempotent_replace
    (pngBuf jpgBuf : List Nat) (signed : Json)
    (init : List PngChunk) (iend : PngChunk)
    (segs : List (List Nat)) (tail : List Nat)
    (hpng : parseChunks pngBuf = .ok (init ++ [iend]))
    (hiend : iend.type = jk "IEND")
    (hjpeg : isJpeg jpgBuf = true)
    (hscan : splitSegs jpgBuf.length (jpgBuf.drop 2) = .ok (segs, tail))
    (hwf : jsonWF signed = true) (hsig : isSignedAttestation signed = true)
    (hszPng : (encodeItxt arrKeyword (serializeSignedAttestation signed)).length
      ≤ 4294967295)
    (hszJpg : (xmpIdentifier ++ utf8Encode (buildArrXmpXml signed)).length + 2 ≤ 65535) :
    (∃ out cs, embedPngAttestation pngBuf signed = .ok out
      ∧ parseChunks out = .ok cs
      ∧ (cs.filter (fun c => isArrItxtChunk c)).length = 1
      ∧ ∃ pre, cs = pre ++ [arrChunkOf signed, iend]
          ∧ isArrItxtChunk (arrChunkOf signed) = true
          ∧ (∀ c ∈ pre, isArrItxtChunk c = false))
    ∧ (∃ out ss tl, embedJpegAttestation jpgBuf signed = .ok out
      ∧ splitJpeg out = .ok (out.take 2, ss, tl)
      ∧ (ss.filter (fun s => isArrXmpSegment s)).length = 1
      ∧ ∃ pres, ss = pres ++ [arrSegOf signed]
          ∧ isArrXmpSegment (arrSegOf signed) = true
          ∧ (∀ s ∈ pres, isArrXmpSegment s = false)) := by
  constructor
  · obtain ⟨out, hembed, hparse2⟩ := png_embed_parse pngBuf signed init iend hpng hiend hszPng
    refine ⟨out, _, hembed, hparse2, ?_, ?_⟩
    · rw [List.filter_append]
      rw [show (init.filter (fun c => ! isArrItxtChunk c)).filter
          (fun c => isArrItxtChunk c) = [] from by
        rw [List.filter_eq_nil_iff]
        intro c hc
        have h := List.of_mem_filter hc
        simp at h
        simp [h]]
      rw [show ([arrChunkOf signed, iend].filter (fun c => isArrItxtChunk c))
          = [arrChunkOf signed] from by
        rw [List.filter_cons, if_pos (by simp [isArrItxtChunk_arrChunkOf])]
        rw [List.filter_cons, if_neg (by simp [isArrItxtChunk_iend iend hiend])]
        rfl]
      rfl
    · refine ⟨init.filter (fun c => ! isArrItxtChunk c), ?_, isArrItxtChunk_arrChunkOf signed, ?_⟩
      · simp
      · intro c hc
        have h := List.of_mem_filter hc
        simpa using h
  · obtain ⟨out, hembed, hresplit, _⟩ :=
      jpeg_embed_extract jpgBuf signed segs tail hjpeg hscan hwf hsig hszJpg
    refine ⟨out, _, _, hembed, hresplit, ?_, ?_⟩
    · rw [List.filter_append]
      rw [show (segs.filter (fun s => ! isArrXmpSegment s)).filter
          (fun s => isArrXmpSegment s) = [] from by
        rw [List.filter_eq_nil_iff]
        intro s hs
        have h := List.of_mem_filter hs
        simp at h
        simp [h]]
      rw [show ([arrSegOf signed].filter (fun s => isArrXmpSegment s))
          = [arrSegOf signed] from by
        rw [List.filter_cons, if_pos (by simp [isArrXmpSegment_arrSegOf])]
        rfl]
      rfl
    · refine ⟨segs.filter (fun s => ! isArrXmpSegment s), rfl,
        isArrXmpSegment_arrSegOf signed, ?_⟩
      intro s hs
      have h := List.of_mem_filter hs
      simpa using h

set_option maxRecDepth 100000 in
/-- C6 witness: on the minimal PNG and JPEG with the sample signed
attestation, the embedded outputs hold exactly one reserved
container. -/
theorem embed_idempotent_replace_witness :
    parseChunks pngMinW = .ok ([] ++ [iendChunkW])
    ∧ iendChunkW.type = jk "IEND"
    ∧ isJpeg jpegMinW = true
    ∧ splitSegs jpegMinW.length (jpegMinW.drop 2) = .ok ([], [255, 217])
    ∧ jsonWF sampleSigned = true
    ∧ isSignedAttestation sampleSigned = true
    ∧ ((∃ out cs, embedPngAttestation pngMinW sampleSigned = .ok out
        ∧ parseChunks out = .ok cs
        ∧ (cs.filter (fun c => isArrItxtChunk c)).length = 1
        ∧ ∃ pre, cs = pre ++ [arrChunkOf sampleSigned, iendChunkW]
            ∧ isArrItxtChunk (arrChunkOf sampleSigned) = true
            ∧ (∀ c ∈ pre, isArrItxtChunk c = false))
      ∧ (∃ out ss tl, embedJpegAttestation jpegMinW sampleSigned = .ok out
        ∧ splitJpeg out = .ok (out.take 2, ss, tl)
        ∧ (ss.filter (fun s => isArrXmpSegment s)).length = 1
        ∧ ∃ pres, ss = pres ++ [arrSegOf sampleSigned]
            ∧ isArrXmpSegment (arrSegOf sampleSigned) = true
            ∧ (∀ s ∈ pres, isArrXmpSegment s = false))) :=
  ⟨by rfl, rfl, rfl, by rfl, by decide, by rfl,
    embed_idempotent_replace pngMinW jpegMinW sampleSigned [] iendChunkW [] [255, 217]
      (by rfl) rfl rfl (by rfl) (by decide) (by rfl) (by decide) (by decide)⟩
